import Mathlib

/-!
# Employee record sorting: comparator and hand-written sorts

A shallow embedding of `src/main.cpp` and the properties proved about it.

* `std::string` is a Lean `String`; its `operator<` is `strLt` on the
  character lists (lexicographic, a proper prefix is smaller), which is what
  `std::string::compare` computes. Characters are compared by code point,
  which for UTF-8 text is the byte order used by `char_traits<char>`.
* `std::vector<T>` is a `List` addressed by position. Every element access
  is checked: an access outside the vector (undefined behaviour in C++) makes
  the embedded function return the fault `outOfBounds`.
* `size_t` values are natural numbers below `2 ^ 64`, and their subtraction
  wraps around (`subSize`).
* `int` values are integers of the 32-bit range; a computation that leaves
  the range (undefined behaviour) returns the fault `intOverflow`, and the
  narrowing of a size to `int` is `toInt32`.
* The sorts are written once for any element type and comparator `lt`, so
  that they can also be run on records tagged with their original position;
  the program runs them with `Employee.lt`.
* Loops are recursive functions on the loop variable, which stop when the
  loop test fails.
* A file is the list of its characters, and an input stream is an optional
  list of the characters still to be read (`none` when the stream is not
  good); the file system is a map from names to contents that `write_csv`
  updates. The library function `std::sort` is a parameter of the driver.
* Instrumented copies of the sorts carry a suffix: `C` for a counter of
  comparisons or swaps, `W` for the log of written positions, `D` for the
  depth of the recursion.
-/

namespace EmployeeSort

/-! ## Data model -/

/-- One employee record, `struct Employee` of `main.cpp`, fields in declaration order. -/
structure Employee where
  fullName : String
  department : String
  position : String
  hireDate : String
  deriving DecidableEq, Repr

/-- Comparison `operator<` of `std::string` on character lists: the first
position where the strings differ decides, and a proper prefix is smaller. -/
def strLt : List Char → List Char → Bool
  | [], [] => false
  | [], _ :: _ => true
  | _ :: _, [] => false
  | c :: cs, d :: ds =>
    if c < d then true
    else if d < c then false
    else strLt cs ds

/-- Comparison `s < t` of two `std::string` values. -/
def sLt (s t : String) : Bool := strLt s.data t.data

/-- Member `Employee::operator<` (lines 20-31). -/
def Employee.lt (a other : Employee) : Bool :=
  if sLt a.department other.department then true
  else if sLt other.department a.department then false
  else if sLt a.fullName other.fullName then true
  else if sLt other.fullName a.fullName then false
  else if sLt a.hireDate other.hireDate then true
  else if sLt other.hireDate a.hireDate then false
  else sLt a.position other.position

/-- Member `Employee::operator>` (lines 33-35): `other < *this`. -/
def Employee.gt (a other : Employee) : Bool := other.lt a

/-- Member `Employee::operator<=` (lines 37-39): `!(other < *this)`. -/
def Employee.le (a other : Employee) : Bool := !(other.lt a)

/-- Member `Employee::operator>=` (lines 41-43): `!(*this < other)`. -/
def Employee.ge (a other : Employee) : Bool := !(a.lt other)

/-- The composite key of the specification's glossary: the ordered tuple
(department, name, hire date, position). -/
def compositeKey (e : Employee) : String × String × String × String :=
  (e.department, e.fullName, e.hireDate, e.position)

/-- Strict lexicographic order on composite keys, every component compared
with the order of `String`. -/
def KeyLt : String × String × String × String → String × String × String × String → Prop :=
  Prod.Lex (· < ·) (Prod.Lex (· < ·) (Prod.Lex (· < ·) (· < ·)))

/-! ## Machine arithmetic and checked vector access -/

/-- What makes an embedded function stop: an element access outside the
vector, or an `int` computation outside the 32-bit range. Both are undefined
behaviour in the source. -/
inductive Fault where
  | outOfBounds
  | intOverflow
  deriving DecidableEq, Repr

/-- Largest value of a 32-bit `int`. -/
def INT_MAX : Nat := 2147483647

/-- Smallest value of a 32-bit `int`. -/
def INT_MIN : Int := -2147483648

/-- Narrowing conversion of an integer to a 32-bit `int` (two's complement). -/
def toInt32 (x : Int) : Int := (x + 2147483648) % 4294967296 - 2147483648

/-- Modulus of `size_t` arithmetic. -/
def SIZE_MOD : Nat := 2 ^ 64

/-- Subtraction `a - b` of two `size_t` values (both below `2 ^ 64`): when
`b` exceeds `a` the result wraps around modulo `2 ^ 64`. -/
def subSize (a b : Nat) : Nat := if b ≤ a then a - b else a + SIZE_MOD - b

section Algorithms

variable {α : Type}

/-- Checked element write `arr[i] = v`. -/
def writeAt (arr : List α) (i : Nat) (v : α) : Except Fault (List α) :=
  if i < arr.length then .ok (arr.set i v) else .error .outOfBounds

/-- Checked `std::swap(arr[i], arr[j])`. -/
def swapAt (arr : List α) (i j : Nat) : Except Fault (List α) :=
  match arr[i]?, arr[j]? with
  | some x, some y => .ok ((arr.set i y).set j x)
  | _, _ => .error .outOfBounds

/-! ## Bubble sort (lines 85-94) -/

/-- Body of the inner loop: `if (arr[j] > arr[j + 1]) std::swap(arr[j], arr[j + 1]);`
where `a > b` is `b < a`. -/
def bubbleStep (lt : α → α → Bool) (arr : List α) (j : Nat) : Except Fault (List α) :=
  match arr[j]?, arr[j + 1]? with
  | some x, some y => if lt y x then swapAt arr j (j + 1) else .ok arr
  | _, _ => .error .outOfBounds

/-- Inner loop `for (size_t j = ...; j < bound; ++j)`, entered at `j`. -/
def bubbleInner (lt : α → α → Bool) (bound : Nat) (arr : List α) (j : Nat) :
    Except Fault (List α) :=
  if j < bound then
    match bubbleStep lt arr j with
    | .error e => .error e
    | .ok a => bubbleInner lt bound a (j + 1)
  else .ok arr
termination_by bound - j

/-- Outer loop `for (size_t i = ...; i < n - 1; ++i)`, entered at `i`; the
bounds `n - 1` and `n - i - 1` are computed in `size_t`. -/
def bubbleOuter (lt : α → α → Bool) (n : Nat) (arr : List α) (i : Nat) :
    Except Fault (List α) :=
  if i < subSize n 1 then
    match bubbleInner lt (subSize (subSize n i) 1) arr 0 with
    | .error e => .error e
    | .ok a => bubbleOuter lt n a (i + 1)
  else .ok arr
termination_by subSize n 1 - i

/-- Function `bubbleSort`: `size_t n = arr.size();` followed by the two nested loops. -/
def bubbleSort (lt : α → α → Bool) (arr : List α) : Except Fault (List α) :=
  bubbleOuter lt arr.length arr 0

/-! ## Heap sort (lines 102-126) -/

/-- One statement `if (c < n && arr[c] > arr[largest]) largest = c;` of
`heapify`: the new value of `largest`. -/
def pickLarger (lt : α → α → Bool) (arr : List α) (n c largest : Nat) : Except Fault Nat :=
  if c < n then
    match arr[c]?, arr[largest]? with
    | some x, some y => .ok (if lt y x then c else largest)
    | _, _ => .error .outOfBounds
  else .ok largest

/-- Function `heapify(arr, n, i)`. The parameters `n` and `i` are `int`s that
every caller passes non-negative. The child indices `2 * i + 1` and
`2 * i + 2` are computed in `int`. -/
def heapify (lt : α → α → Bool) (arr : List α) (n i : Nat) : Except Fault (List α) :=
  if INT_MAX < 2 * i + 2 then .error .intOverflow
  else
    match _h1 : pickLarger lt arr n (2 * i + 1) i with
    | .error e => .error e
    | .ok largest1 =>
      match _h2 : pickLarger lt arr n (2 * i + 2) largest1 with
      | .error e => .error e
      | .ok largest =>
        if _hne : largest ≠ i then
          match swapAt arr i largest with
          | .error e => .error e
          | .ok a => heapify lt a n largest
        else .ok arr
termination_by n - i
decreasing_by
  have key : ∀ c cur k, pickLarger lt arr n c cur = .ok k → k = cur ∨ (k = c ∧ c < n) := by
    intro c cur k h
    unfold pickLarger at h
    by_cases hc : c < n
    · rw [if_pos hc] at h
      split at h
      · simp only [Except.ok.injEq] at h
        split at h
        · exact Or.inr ⟨h.symm, hc⟩
        · exact Or.inl h.symm
      · simp at h
    · rw [if_neg hc] at h
      simp only [Except.ok.injEq] at h
      exact Or.inl h.symm
  have k1 := key _ _ _ _h1
  have k2 := key _ _ _ _h2
  omega

/-- First loop of `heapSort`: `for (int i = ...; i >= 0; i--) heapify(arr, n, i);`,
entered at `i`. -/
def buildLoop (lt : α → α → Bool) (n : Nat) (arr : List α) (i : Int) : Except Fault (List α) :=
  if 0 ≤ i then
    match heapify lt arr n i.toNat with
    | .error e => .error e
    | .ok a => buildLoop lt n a (i - 1)
  else .ok arr
termination_by (i + 1).toNat
decreasing_by omega

/-- Second loop of `heapSort`:
`for (int i = ...; i > 0; i--) { std::swap(arr[0], arr[i]); heapify(arr, i, 0); }`,
entered at `i`. -/
def sortLoop (lt : α → α → Bool) (arr : List α) (i : Int) : Except Fault (List α) :=
  if 0 < i then
    match swapAt arr 0 i.toNat with
    | .error e => .error e
    | .ok a =>
      match heapify lt a i.toNat 0 with
      | .error e => .error e
      | .ok b => sortLoop lt b (i - 1)
  else .ok arr
termination_by i.toNat
decreasing_by omega

/-- Function `heapSort`. `int n = arr.size();` narrows the size to `int`
(`toInt32`), and `int i = n - 1` is computed in `int`. -/
def heapSort (lt : α → α → Bool) (arr : List α) : Except Fault (List α) :=
  let n : Int := toInt32 arr.length
  (buildLoop lt n.toNat arr (n.tdiv 2 - 1)).bind fun a =>
    if n - 1 < INT_MIN then .error .intOverflow
    else sortLoop lt a (n - 1)

/-! ## Merge sort (lines 135-159) -/

/-- First loop of `merge`:
`while (i < leftArr.size() && j < rightArr.size())` with the body
`if (leftArr[i] <= rightArr[j]) arr[k++] = leftArr[i++]; else arr[k++] = rightArr[j++];`
where `a <= b` is `!(b < a)`. Returns the vector and the values of `i`, `j`, `k`.
The increment `k++` is computed in `int`; `i` and `j` never exceed `k`. -/
def mergeLoop (lt : α → α → Bool) (leftArr rightArr : List α) (arr : List α) (i j k : Nat) :
    Except Fault (List α × Nat × Nat × Nat) :=
  if h : i < leftArr.length ∧ j < rightArr.length then
    if !(lt (rightArr[j]) (leftArr[i])) then
      match writeAt arr k (leftArr[i]) with
      | .error e => .error e
      | .ok a =>
        if INT_MAX < k + 1 then .error .intOverflow
        else mergeLoop lt leftArr rightArr a (i + 1) j (k + 1)
    else
      match writeAt arr k (rightArr[j]) with
      | .error e => .error e
      | .ok a =>
        if INT_MAX < k + 1 then .error .intOverflow
        else mergeLoop lt leftArr rightArr a i (j + 1) (k + 1)
  else .ok (arr, i, j, k)
termination_by (leftArr.length - i) + (rightArr.length - j)
decreasing_by all_goals omega

/-- Loops `while (i < src.size()) arr[k++] = src[i++];` of `merge`, used for
the rest of `leftArr` and then for the rest of `rightArr`. Returns the
vector and the value of `k`. The increment `k++` is computed in `int`. -/
def copyRest (src : List α) (arr : List α) (i k : Nat) : Except Fault (List α × Nat) :=
  if h : i < src.length then
    match writeAt arr k (src[i]) with
    | .error e => .error e
    | .ok a =>
      if INT_MAX < k + 1 then .error .intOverflow
      else copyRest src a (i + 1) (k + 1)
  else .ok (arr, k)
termination_by src.length - i

/-- Function `merge(arr, left, mid, right)`. The two temporary vectors are
built from iterator ranges, which have to lie inside `arr`. -/
def merge (lt : α → α → Bool) (arr : List α) (left mid right : Int) : Except Fault (List α) :=
  if 0 ≤ left ∧ left ≤ mid + 1 ∧ mid ≤ right ∧ right + 1 ≤ arr.length then
    let leftArr := (arr.drop left.toNat).take ((mid + 1).toNat - left.toNat)
    let rightArr := (arr.drop (mid + 1).toNat).take ((right + 1).toNat - (mid + 1).toNat)
    match mergeLoop lt leftArr rightArr arr 0 0 left.toNat with
    | .error e => .error e
    | .ok (a1, i, j, k) =>
      match copyRest leftArr a1 i k with
      | .error e => .error e
      | .ok (a2, k2) =>
        match copyRest rightArr a2 j k2 with
        | .error e => .error e
        | .ok (a3, _) => .ok a3
  else .error .outOfBounds

/-- Function `mergeSort(arr, left, right)`. The difference `right - left` is
computed in `int`. -/
def mergeSort (lt : α → α → Bool) (arr : List α) (left right : Int) : Except Fault (List α) :=
  if left ≥ right then .ok arr
  else if (INT_MAX : Int) < right - left then .error .intOverflow
  else
    let mid := left + (right - left).tdiv 2
    match mergeSort lt arr left mid with
    | .error e => .error e
    | .ok a1 =>
      match mergeSort lt a1 (mid + 1) right with
      | .error e => .error e
      | .ok a2 => merge lt a2 left mid right
termination_by (right - left).toNat
decreasing_by
  all_goals
    have hd : (right - left).tdiv 2 = (right - left) / 2 :=
      Int.tdiv_eq_ediv (by omega) (by omega)
    rw [hd]
    omega

end Algorithms

/-! ## Specification vocabulary -/

/-- Field-wise equality of two records. -/
def SameFields (a b : Employee) : Prop :=
  a.department = b.department ∧ a.fullName = b.fullName ∧
    a.hireDate = b.hireDate ∧ a.position = b.position

/-- Exactly one of three propositions holds. -/
def ExactlyOne (p q r : Prop) : Prop :=
  (p ∧ ¬q ∧ ¬r) ∨ (¬p ∧ q ∧ ¬r) ∨ (¬p ∧ ¬q ∧ r)

/-- A comparator `lt` is a strict weak ordering: irreflexive, transitive, and
with a transitive incomparability relation. -/
structure StrictWeak {α : Type} (lt : α → α → Bool) : Prop where
  irrefl : ∀ a, lt a a = false
  trans : ∀ a b c, lt a b = true → lt b c = true → lt a c = true
  incomp : ∀ a b c, lt a b = false → lt b a = false → lt b c = false → lt c b = false →
    lt a c = false ∧ lt c a = false

/-- Non-decreasing under the comparator `lt`, read on adjacent elements:
no element is followed by a smaller one. -/
def SortedAdj {α : Type} (lt : α → α → Bool) (l : List α) : Prop :=
  List.Chain' (fun x y => lt y x = false) l

/-- Non-decreasing under the comparator `lt`, read on all pairs of positions. -/
def SortedAll {α : Type} (lt : α → α → Bool) (l : List α) : Prop :=
  List.Pairwise (fun x y => lt y x = false) l

/-- The suffix of `arr` from position `m` on is in its final place: it is
sorted, and no element before position `m` is greater than an element of it. -/
def SortedFrom {α : Type} (lt : α → α → Bool) (arr : List α) (m : Nat) : Prop :=
  SortedAll lt (arr.drop m) ∧ ∀ x ∈ arr.take m, ∀ y ∈ arr.drop m, lt y x = false

/-- Three records used as a concrete input. -/
def sampleRows : List Employee :=
  [⟨"Bob", "Sales", "Clerk", "2020-01-05"⟩, ⟨"Ann", "Sales", "Clerk", "2019-03-01"⟩,
    ⟨"Zoe", "Eng", "Lead", "2021-06-15"⟩]

/-- Max-heap condition at node `j` of the heap on the first `n` positions:
the element at `j` is not smaller than its children `2 * j + 1` and
`2 * j + 2` (those below `n`). -/
def HeapAt {α : Type} (lt : α → α → Bool) (arr : List α) (n j : Nat) : Prop :=
  ∀ c x y, (c = 2 * j + 1 ∨ c = 2 * j + 2) → c < n → arr[j]? = some x → arr[c]? = some y →
    lt x y = false

/-- A vector of `2 ^ 30 + 2` records, all equal except that the last one is greater. -/
def heapOverflowInput : List Employee :=
  List.replicate (2 * 536870912 + 1) ⟨"Ann", "Sales", "Clerk", "2019-03-01"⟩ ++
    [⟨"Bob", "Sales", "Clerk", "2020-01-05"⟩]

/-- List-level description of `mergeSort` on one range `M`: a range of at
most one element is left as it is; otherwise the range is split after its
midpoint, both parts are sorted, and the two runs are merged, the left
element going first unless the right one is smaller. -/
def mergeSortList {α : Type} (lt : α → α → Bool) (M : List α) : List α :=
  if M.length ≤ 1 then M
  else
    List.merge (mergeSortList lt (M.take ((M.length - 1) / 2 + 1)))
      (mergeSortList lt (M.drop ((M.length - 1) / 2 + 1))) (fun a b => !(lt b a))
termination_by M.length
decreasing_by
  · rw [List.length_take]
    omega
  · rw [List.length_drop]
    omega

/-- The three records of `sampleRows` in sorted order. -/
def sortedRows : List Employee :=
  [⟨"Zoe", "Eng", "Lead", "2021-06-15"⟩, ⟨"Ann", "Sales", "Clerk", "2019-03-01"⟩,
    ⟨"Bob", "Sales", "Clerk", "2020-01-05"⟩]

/-- A record whose department is the letter `a` repeated `i` times. -/
def ascendingRecord (i : Nat) : Employee :=
  ⟨"", String.mk (List.replicate i 'a'), "", ""⟩

/-- The records `ascendingRecord 0`, ..., `ascendingRecord (n - 1)`: a
sequence in strictly increasing order of department. -/
@[irreducible]
def ascendingRows (n : Nat) : List Employee := (List.range n).map ascendingRecord

/-- No two records of the sequence have the same composite key. -/
def DistinctKeys (S : List Employee) : Prop :=
  S.Pairwise (fun a b => compositeKey a ≠ compositeKey b)

/-! ## CSV input and output (lines 51-79) -/

/-- The characters of `cs` before the first `delim` (all of `cs` when there is none). -/
def takeUntil (delim : Char) : List Char → List Char
  | [] => []
  | c :: cs => if c = delim then [] else c :: takeUntil delim cs

/-- The characters of `cs` after the first `delim`; `none` when there is no `delim`. -/
def dropUntil (delim : Char) : List Char → Option (List Char)
  | [] => none
  | c :: cs => if c = delim then some cs else dropUntil delim cs

/-- Call `std::getline(in, str, delim)`. An input stream is the list of the
characters not read yet, or `none` when the stream is not good (the file
could not be opened, or an earlier read hit the end of the input). The
result is the new value of `str`, the new stream, and whether the call
succeeded. A stream that is not good leaves `str` as it is and fails.
Otherwise `str` is erased and filled up to the first `delim`, which is
consumed; without a `delim` the read hits the end and the stream is not good
afterwards; the call fails when no character at all was extracted. -/
def getline (inp : Option (List Char)) (str : List Char) (delim : Char) :
    List Char × Option (List Char) × Bool :=
  match inp with
  | none => (str, none, false)
  | some cs => (takeUntil delim cs, dropUntil delim cs, !cs.isEmpty)

/-- Body of the `while` loop of `read_csv` for one line: a string stream on
the line, four strings that start empty, four `getline` calls with `','`,
and the record `{fullName, department, position, hireDate}`. -/
def parseRow (line : List Char) : Employee :=
  let r1 := getline (some line) [] ','
  let r2 := getline r1.2.1 [] ','
  let r3 := getline r2.2.1 [] ','
  let r4 := getline r3.2.1 [] ','
  ⟨String.mk r1.1, String.mk r2.1, String.mk r3.1, String.mk r4.1⟩

/-- Loop `while (getline(file, line)) { ... employees.push_back(...); }` of
`read_csv`: the records pushed, in order. -/
def readRows (file : Option (List Char)) : List Employee :=
  match file with
  | none => []
  | some cs =>
    if cs.isEmpty then []
    else parseRow (takeUntil '\n' cs) :: readRows (dropUntil '\n' cs)
termination_by (match file with | none => 0 | some cs => cs.length + 1)
decreasing_by
  have key : ∀ (l r : List Char), dropUntil '\n' l = some r → r.length < l.length := by
    intro l
    induction l with
    | nil =>
      intro r h
      exact Option.noConfusion h
    | cons c l ih =>
      intro r h
      unfold dropUntil at h
      by_cases hc : c = '\n'
      · rw [if_pos hc] at h
        rw [← Option.some.inj h]
        exact Nat.lt_succ_self _
      · rw [if_neg hc] at h
        exact Nat.lt_succ_of_lt (ih r h)
  cases hd : dropUntil '\n' cs with
  | none => exact Nat.succ_pos _
  | some r => exact Nat.succ_lt_succ (key cs r hd)

/-- Function `read_csv`: the file is given by its contents, `none` when it
cannot be opened; the first `getline` skips the header. -/
def read_csv (file : Option (List Char)) : List Employee :=
  readRows (getline file [] '\n').2.1

/-- The header line written by `write_csv`. -/
def csvHeader : List Char := "FullName,Department,Position,HireDate".data

/-- The line written by `write_csv` for one record, with its final newline. -/
def csvLine (e : Employee) : List Char :=
  e.fullName.data ++ ',' :: e.department.data ++ ',' :: e.position.data ++
    ',' :: e.hireDate.data ++ ['\n']

/-- Function `write_csv`: the text written to the output file. -/
def write_csv (employees : List Employee) : List Char :=
  csvHeader ++ '\n' :: (employees.map csvLine).flatten

/-- The line made of the given fields separated by commas; no field, or one
empty field, gives the empty line. -/
def joinFields : List (List Char) → List Char
  | [] => []
  | [f] => f
  | f :: g :: fs => f ++ ',' :: joinFields (g :: fs)

/-- The stream left to read when the given fields are still to come: not
good when none is left. -/
def fieldsStream : List (List Char) → Option (List Char)
  | [] => none
  | f :: fs => some (joinFields (f :: fs))

/-- No field of the record contains a comma or a newline. -/
def PlainFields (e : Employee) : Prop :=
  ∀ f ∈ [e.fullName, e.department, e.position, e.hireDate], ',' ∉ f.data ∧ '\n' ∉ f.data

/-- The three data rows of the end-to-end scenario. -/
def scenarioLines : List (List Char) :=
  ["Bob,Sales,Clerk,2020-01-05".data, "Ann,Sales,Clerk,2019-03-01".data,
    "Zoe,Eng,Lead,2021-06-15".data]

/-- The fields of a record in the order in which `write_csv` writes them. -/
def recordFields (e : Employee) : List (List Char) :=
  [e.fullName.data, e.department.data, e.position.data, e.hireDate.data]

/-! ## Driver (lines 165-211) -/

/-- The files the program can see: the contents of a file by name, `none`
for a file that cannot be opened. -/
def Files : Type := String → Option (List Char)

/-- The file system after `write_csv(dest, ...)` has written `content`. -/
def Files.write (fs : Files) (dest : String) (content : List Char) : Files :=
  fun name => if name = dest then some content else fs name

/-- What one iteration of the loop of `main` leaves behind: the source name
printed on the report line (the measured duration is not modelled), the name
of the output file, and the text written to it. -/
structure DriverStep where
  report : String
  dest : String
  content : List Char
  deriving DecidableEq

/-- The chain of `if (sortChoice == ...)` of `main`. The library function
`std::sort` is the parameter `stdSort`; the call for `"merge"` passes
`employees.size() - 1`, computed in `size_t` and narrowed to `int`. -/
def runSort (stdSort : List Employee → List Employee) (sortChoice : String)
    (employees : List Employee) : Except Fault (List Employee) :=
  if sortChoice = "bubble" then bubbleSort Employee.lt employees
  else if sortChoice = "heap" then heapSort Employee.lt employees
  else if sortChoice = "merge" then
    mergeSort Employee.lt employees 0 (toInt32 (subSize employees.length 1))
  else if sortChoice = "standart" then .ok (stdSort employees)
  else .ok employees

/-- Loop `for (const auto &filename: filenames)` of `main`: read the source,
sort, report, write the output next to the source. Returns the file system
at the end and what each iteration did, in order. Output files are taken to
be writable. -/
def driverLoop (stdSort : List Employee → List Employee) (sortChoice : String) (fs : Files) :
    List String → Except Fault (Files × List DriverStep)
  | [] => .ok (fs, [])
  | filename :: rest =>
    (runSort stdSort sortChoice (read_csv (fs filename))).bind fun employees =>
      (driverLoop stdSort sortChoice
          (fs.write (filename ++ "_sorted.csv") (write_csv employees)) rest).bind
        fun r => .ok (r.1,
          ⟨filename, filename ++ "_sorted.csv", write_csv employees⟩ :: r.2)

/-- The list `filenames` of `main`. -/
def mainFilenames : List String :=
  ["data\\employees_100.csv", "data\\employees_500.csv", "data\\employees_1000.csv",
    "data\\employees_2000.csv", "data\\employees_5000.csv", "data\\employees_7000.csv",
    "data\\employees_10000.csv", "data\\employees_15000.csv", "data\\employees_20000.csv",
    "data\\employees_30000.csv", "data\\employees_40000.csv", "data\\employees_50000.csv",
    "data\\employees_70000.csv", "data\\employees_100000.csv"]

/-- Function `main`, with `sortChoice = "standart"`. The lines
`Method: standart` and `All sorts completed.` printed before and after the
loop are left out. -/
def main (stdSort : List Employee → List Employee) (fs : Files) :
    Except Fault (Files × List DriverStep) :=
  driverLoop stdSort "standart" fs mainFilenames

/-- What the C++ standard asks of `std::sort`: the result is a permutation of
the input, sorted non-decreasing under `operator<`. -/
def SortsCorrectly (stdSort : List Employee → List Employee) : Prop :=
  ∀ l, (stdSort l).Perm l ∧ SortedAll Employee.lt (stdSort l)

/-- No source of the list is named like the output file of an earlier source. -/
def NoSourceIsEarlierOutput (files : List String) : Prop :=
  files.Pairwise (fun earlier later => later ≠ earlier ++ "_sorted.csv")

/-- A record used in concrete inputs. -/
def annRecord : Employee := ⟨"Ann", "Sales", "Clerk", "2019-03-01"⟩

/-- A record used in concrete inputs. -/
def zoeRecord : Employee := ⟨"Zoe", "Eng", "Lead", "2021-06-15"⟩

/-- A file system with two files, used as a concrete input: the second file
is named like the output of the first. -/
def aliasFiles : Files := fun name =>
  if name = "a" then some (write_csv [annRecord])
  else if name = "a_sorted.csv" then some (write_csv [zoeRecord])
  else none

/-- The file system after the writes of the given steps, made in order. -/
def writeSteps (fs : Files) (steps : List DriverStep) : Files :=
  steps.foldl (fun f st => f.write st.dest st.content) fs

/-- A file system with the single file `a`, which holds the three sample
records; used as a concrete input. -/
def sampleFiles : Files := fun name =>
  if name = "a" then some (write_csv sampleRows) else none

/-! ## Instrumented bubble sort -/

/-- Inner loop of `bubbleSort` with a counter of the comparisons
`arr[j] > arr[j + 1]` executed; the counter goes up by one each time the
loop body runs. -/
def bubbleInnerC {α : Type} (lt : α → α → Bool) (bound : Nat) (arr : List α) (j count : Nat) :
    Except Fault (List α × Nat) :=
  if j < bound then
    match bubbleStep lt arr j with
    | .error e => .error e
    | .ok a => bubbleInnerC lt bound a (j + 1) (count + 1)
  else .ok (arr, count)
termination_by bound - j

/-- Outer loop of `bubbleSort` with a log: each pass starts its counter at
zero and appends the number of comparisons it made. -/
def bubbleOuterC {α : Type} (lt : α → α → Bool) (n : Nat) (arr : List α) (i : Nat)
    (log : List Nat) : Except Fault (List α × List Nat) :=
  if i < subSize n 1 then
    match bubbleInnerC lt (subSize (subSize n i) 1) arr 0 0 with
    | .error e => .error e
    | .ok r => bubbleOuterC lt n r.1 (i + 1) (log ++ [r.2])
  else .ok (arr, log)
termination_by subSize n 1 - i

/-- Function `bubbleSort` with the log of comparisons per outer pass. -/
def bubbleSortC {α : Type} (lt : α → α → Bool) (arr : List α) : Except Fault (List α × List Nat) :=
  bubbleOuterC lt arr.length arr 0 []

/-! ## Instrumented merge -/

/-- First loop of `merge` with a log of the positions written: each
assignment `arr[k++] = ...` appends the value `k` had to the log. -/
def mergeLoopW {α : Type} (lt : α → α → Bool) (leftArr rightArr : List α) (arr : List α)
    (i j k : Nat) (log : List Nat) : Except Fault (List α × Nat × Nat × Nat × List Nat) :=
  if h : i < leftArr.length ∧ j < rightArr.length then
    if !(lt (rightArr[j]) (leftArr[i])) then
      match writeAt arr k (leftArr[i]) with
      | .error e => .error e
      | .ok a =>
        if INT_MAX < k + 1 then .error .intOverflow
        else mergeLoopW lt leftArr rightArr a (i + 1) j (k + 1) (log ++ [k])
    else
      match writeAt arr k (rightArr[j]) with
      | .error e => .error e
      | .ok a =>
        if INT_MAX < k + 1 then .error .intOverflow
        else mergeLoopW lt leftArr rightArr a i (j + 1) (k + 1) (log ++ [k])
  else .ok (arr, i, j, k, log)
termination_by (leftArr.length - i) + (rightArr.length - j)
decreasing_by all_goals omega

/-- Copy loops of `merge` with the log of the positions written. -/
def copyRestW {α : Type} (src : List α) (arr : List α) (i k : Nat) (log : List Nat) :
    Except Fault (List α × Nat × List Nat) :=
  if h : i < src.length then
    match writeAt arr k (src[i]) with
    | .error e => .error e
    | .ok a =>
      if INT_MAX < k + 1 then .error .intOverflow
      else copyRestW src a (i + 1) (k + 1) (log ++ [k])
  else .ok (arr, k, log)
termination_by src.length - i

/-- Function `merge` with the log of the positions written; returns the
vector, the value of `k` at the end and the log. -/
def mergeW {α : Type} (lt : α → α → Bool) (arr : List α) (left mid right : Int)
    (log : List Nat) : Except Fault (List α × Nat × List Nat) :=
  if 0 ≤ left ∧ left ≤ mid + 1 ∧ mid ≤ right ∧ right + 1 ≤ arr.length then
    let leftArr := (arr.drop left.toNat).take ((mid + 1).toNat - left.toNat)
    let rightArr := (arr.drop (mid + 1).toNat).take ((right + 1).toNat - (mid + 1).toNat)
    match mergeLoopW lt leftArr rightArr arr 0 0 left.toNat log with
    | .error e => .error e
    | .ok (a1, i, j, k, log1) =>
      match copyRestW leftArr a1 i k log1 with
      | .error e => .error e
      | .ok (a2, k2, log2) => copyRestW rightArr a2 j k2 log2
  else .error .outOfBounds

/-- A vector of `2 ^ 31` records, used as a concrete input: its last index
is the largest `int`. -/
@[irreducible] def mergeOverflowInput : List Employee :=
  List.replicate 2147483646 annRecord ++ [annRecord] ++ [annRecord] ++ []

/-! ## Instrumented heap sort and merge sort -/

/-- Function `heapify` with a counter of the swaps executed. -/
def heapifyC {α : Type} (lt : α → α → Bool) (arr : List α) (n i swaps : Nat) :
    Except Fault (List α × Nat) :=
  if INT_MAX < 2 * i + 2 then .error .intOverflow
  else
    match _h1 : pickLarger lt arr n (2 * i + 1) i with
    | .error e => .error e
    | .ok largest1 =>
      match _h2 : pickLarger lt arr n (2 * i + 2) largest1 with
      | .error e => .error e
      | .ok largest =>
        if _hne : largest ≠ i then
          match swapAt arr i largest with
          | .error e => .error e
          | .ok a => heapifyC lt a n largest (swaps + 1)
        else .ok (arr, swaps)
termination_by n - i
decreasing_by
  have key : ∀ c cur k, pickLarger lt arr n c cur = .ok k → k = cur ∨ (k = c ∧ c < n) := by
    intro c cur k h
    unfold pickLarger at h
    by_cases hc : c < n
    · rw [if_pos hc] at h
      split at h
      · simp only [Except.ok.injEq] at h
        split at h
        · exact Or.inr ⟨h.symm, hc⟩
        · exact Or.inl h.symm
      · simp at h
    · rw [if_neg hc] at h
      simp only [Except.ok.injEq] at h
      exact Or.inl h.symm
  have k1 := key _ _ _ _h1
  have k2 := key _ _ _ _h2
  omega

/-- First loop of `heapSort` with the counter of swaps. -/
def buildLoopC {α : Type} (lt : α → α → Bool) (n : Nat) (arr : List α) (i : Int) (swaps : Nat) :
    Except Fault (List α × Nat) :=
  if 0 ≤ i then
    match heapifyC lt arr n i.toNat swaps with
    | .error e => .error e
    | .ok r => buildLoopC lt n r.1 (i - 1) r.2
  else .ok (arr, swaps)
termination_by (i + 1).toNat
decreasing_by omega

/-- Second loop of `heapSort` with the counter of swaps. -/
def sortLoopC {α : Type} (lt : α → α → Bool) (arr : List α) (i : Int) (swaps : Nat) :
    Except Fault (List α × Nat) :=
  if 0 < i then
    match swapAt arr 0 i.toNat with
    | .error e => .error e
    | .ok a =>
      match heapifyC lt a i.toNat 0 (swaps + 1) with
      | .error e => .error e
      | .ok r => sortLoopC lt r.1 (i - 1) r.2
  else .ok (arr, swaps)
termination_by i.toNat
decreasing_by omega

/-- Function `heapSort` with the counter of swaps; every write of `heapSort`
to the vector is part of a swap. -/
def heapSortC {α : Type} (lt : α → α → Bool) (arr : List α) : Except Fault (List α × Nat) :=
  let n : Int := toInt32 arr.length
  (buildLoopC lt n.toNat arr (n.tdiv 2 - 1) 0).bind fun r =>
    if n - 1 < INT_MIN then .error .intOverflow
    else sortLoopC lt r.1 (n - 1) r.2

/-- Function `mergeSort` with the log of the positions written by its calls
of `merge`. -/
def mergeSortW {α : Type} (lt : α → α → Bool) (arr : List α) (left right : Int)
    (log : List Nat) : Except Fault (List α × List Nat) :=
  if left ≥ right then .ok (arr, log)
  else if (INT_MAX : Int) < right - left then .error .intOverflow
  else
    let mid := left + (right - left).tdiv 2
    match mergeSortW lt arr left mid log with
    | .error e => .error e
    | .ok r1 =>
      match mergeSortW lt r1.1 (mid + 1) right r1.2 with
      | .error e => .error e
      | .ok r2 =>
        match mergeW lt r2.1 left mid right r2.2 with
        | .error e => .error e
        | .ok r3 => .ok (r3.1, r3.2.2)
termination_by (right - left).toNat
decreasing_by
  all_goals
    have hd : (right - left).tdiv 2 = (right - left) / 2 :=
      Int.tdiv_eq_ediv (by omega) (by omega)
    rw [hd]
    omega

/-- Function `mergeSort` with the nesting depth of its recursive calls: the
second component is the greatest number of calls of `mergeSort` that were
open at the same time below this call, also when the run ends in a fault. -/
def mergeSortD {α : Type} (lt : α → α → Bool) (arr : List α) (left right : Int) :
    Except Fault (List α) × Nat :=
  if left ≥ right then (.ok arr, 0)
  else if (INT_MAX : Int) < right - left then (.error .intOverflow, 0)
  else
    let mid := left + (right - left).tdiv 2
    match mergeSortD lt arr left mid with
    | (.error e, d1) => (.error e, d1 + 1)
    | (.ok a1, d1) =>
      match mergeSortD lt a1 (mid + 1) right with
      | (.error e, d2) => (.error e, max d1 d2 + 1)
      | (.ok a2, d2) => (merge lt a2 left mid right, max d1 d2 + 1)
termination_by (right - left).toNat
decreasing_by
  all_goals
    have hd : (right - left).tdiv 2 = (right - left) / 2 :=
      Int.tdiv_eq_ediv (by omega) (by omega)
    rw [hd]
    omega

/-- Node `j` lies in the subtree rooted at node `i` of the implicit binary
tree in which the children of `j` are `2 * j + 1` and `2 * j + 2`. -/
inductive InSubtree (i : Nat) : Nat → Prop
  | root : InSubtree i i
  | left {j : Nat} : InSubtree i j → InSubtree i (2 * j + 1)
  | right {j : Nat} : InSubtree i j → InSubtree i (2 * j + 2)

/-! ## Facts about the string comparison -/

theorem lex_cons_cons_iff (c d : Char) (cs ds : List Char) :
    List.Lex (· < ·) (c :: cs) (d :: ds) ↔ c < d ∨ (c = d ∧ List.Lex (· < ·) cs ds) := by
  constructor
  · intro h
    cases h with
    | cons h => exact Or.inr ⟨rfl, h⟩
    | rel h => exact Or.inl h
  · rintro (h | ⟨rfl, h⟩)
    · exact List.Lex.rel h
    · exact List.Lex.cons h

theorem strLt_iff_lex (l l' : List Char) : strLt l l' = true ↔ List.Lex (· < ·) l l' := by
  induction l generalizing l' with
  | nil =>
    cases l' with
    | nil => simp [strLt]
    | cons d ds => simp [strLt, List.Lex.nil]
  | cons c cs ih =>
    cases l' with
    | nil => simp [strLt]
    | cons d ds =>
      rw [lex_cons_cons_iff]
      unfold strLt
      by_cases h1 : c < d
      · simp [h1]
      · by_cases h2 : d < c
        · have hne : c ≠ d := fun h => by subst h; exact h1 h2
          simp [h1, h2, hne]
        · have heq : c = d := le_antisymm (not_lt.mp h2) (not_lt.mp h1)
          simp [h1, heq, ih]

theorem sLt_iff (s t : String) : sLt s t = true ↔ s < t := by
  unfold sLt
  rw [strLt_iff_lex, String.lt_iff_toList_lt]
  rfl

theorem sLt_eq_false_iff (s t : String) : sLt s t = false ↔ t ≤ s := by
  rw [← not_lt, ← sLt_iff]
  simp

/-- The comparator as a formula over the order of `String`. -/
theorem Employee.lt_iff (a b : Employee) :
    a.lt b = true ↔
      a.department < b.department ∨ (a.department = b.department ∧
        (a.fullName < b.fullName ∨ (a.fullName = b.fullName ∧
          (a.hireDate < b.hireDate ∨ (a.hireDate = b.hireDate ∧
            a.position < b.position))))) := by
  unfold Employee.lt
  rcases lt_trichotomy a.department b.department with h | h | h
  · simp [(sLt_iff _ _).2 h, h]
  · rcases lt_trichotomy a.fullName b.fullName with g | g | g
    · simp [h, g, (sLt_iff _ _).2 g, (sLt_eq_false_iff _ _).2 (le_refl b.department)]
    · rcases lt_trichotomy a.hireDate b.hireDate with k | k | k
      · simp [h, g, k, (sLt_iff _ _).2 k, (sLt_eq_false_iff _ _).2 (le_refl b.department),
          (sLt_eq_false_iff _ _).2 (le_refl b.fullName)]
      · simp [h, g, k, (sLt_eq_false_iff _ _).2 (le_refl b.department),
          (sLt_eq_false_iff _ _).2 (le_refl b.fullName),
          (sLt_eq_false_iff _ _).2 (le_refl b.hireDate), sLt_iff]
      · simp [h, g, k.ne', (sLt_iff _ _).2 k, (sLt_eq_false_iff _ _).2 k.le, not_lt.2 k.le,
          (sLt_eq_false_iff _ _).2 (le_refl b.department),
          (sLt_eq_false_iff _ _).2 (le_refl b.fullName)]
    · simp [h, g.ne', (sLt_iff _ _).2 g, (sLt_eq_false_iff _ _).2 g.le, not_lt.2 g.le,
        (sLt_eq_false_iff _ _).2 (le_refl b.department)]
  · simp [h.ne', (sLt_iff _ _).2 h, (sLt_eq_false_iff _ _).2 h.le, not_lt.2 h.le]

theorem Employee.lt_iff_key (a b : Employee) :
    a.lt b = true ↔ KeyLt (compositeKey a) (compositeKey b) := by
  rw [Employee.lt_iff]
  simp only [KeyLt, compositeKey, Prod.lex_def]

theorem Employee.lt_irrefl (a : Employee) : a.lt a = false := by
  rw [Bool.eq_false_iff, Ne, Employee.lt_iff]
  simp

theorem Employee.lt_trans {a b c : Employee} (h1 : a.lt b = true) (h2 : b.lt c = true) :
    a.lt c = true := by
  rw [Employee.lt_iff] at *
  rcases h1 with h1 | ⟨e1, h1⟩
  · rcases h2 with h2 | ⟨e2, h2⟩
    · exact Or.inl (h1.trans h2)
    · exact Or.inl (e2 ▸ h1)
  · rcases h2 with h2 | ⟨e2, h2⟩
    · exact Or.inl (e1 ▸ h2)
    · refine Or.inr ⟨e1.trans e2, ?_⟩
      rcases h1 with h1 | ⟨f1, h1⟩
      · rcases h2 with h2 | ⟨f2, h2⟩
        · exact Or.inl (h1.trans h2)
        · exact Or.inl (f2 ▸ h1)
      · rcases h2 with h2 | ⟨f2, h2⟩
        · exact Or.inl (f1 ▸ h2)
        · refine Or.inr ⟨f1.trans f2, ?_⟩
          rcases h1 with h1 | ⟨g1, h1⟩
          · rcases h2 with h2 | ⟨g2, h2⟩
            · exact Or.inl (h1.trans h2)
            · exact Or.inl (g2 ▸ h1)
          · rcases h2 with h2 | ⟨g2, h2⟩
            · exact Or.inl (g1 ▸ h2)
            · exact Or.inr ⟨g1.trans g2, h1.trans h2⟩

/-- Two records that the comparator does not separate agree on every field. -/
theorem Employee.eq_of_not_lt {a b : Employee} (h1 : a.lt b = false) (h2 : b.lt a = false) :
    a = b := by
  rw [Bool.eq_false_iff, Ne, Employee.lt_iff] at h1 h2
  push_neg at h1 h2
  have hd : a.department = b.department := le_antisymm (not_lt.1 h2.1) (not_lt.1 h1.1)
  have h1' := h1.2 hd
  have h2' := h2.2 hd.symm
  have hn : a.fullName = b.fullName := le_antisymm (not_lt.1 h2'.1) (not_lt.1 h1'.1)
  have h1'' := h1'.2 hn
  have h2'' := h2'.2 hn.symm
  have hh : a.hireDate = b.hireDate := le_antisymm (not_lt.1 h2''.1) (not_lt.1 h1''.1)
  have hp : a.position = b.position :=
    le_antisymm (not_lt.1 (h2''.2 hh.symm)) (not_lt.1 (h1''.2 hh))
  cases a; cases b
  simp_all

theorem Employee.lt_asymm {a b : Employee} (h : a.lt b = true) : b.lt a = false := by
  rw [Bool.eq_false_iff]
  intro h'
  have := Employee.lt_trans h h'
  rw [Employee.lt_irrefl] at this
  exact Bool.noConfusion this

theorem Employee.sameFields_iff (a b : Employee) : SameFields a b ↔ a = b := by
  constructor
  · rintro ⟨h1, h2, h3, h4⟩
    cases a; cases b
    simp_all
  · rintro rfl
    exact ⟨rfl, rfl, rfl, rfl⟩

theorem Employee.strictWeak : StrictWeak Employee.lt where
  irrefl := Employee.lt_irrefl
  trans := fun _ _ _ => Employee.lt_trans
  incomp := by
    intro a b c h1 h2 h3 h4
    have e1 := Employee.eq_of_not_lt h1 h2
    have e2 := Employee.eq_of_not_lt h3 h4
    subst e1 e2
    exact ⟨Employee.lt_irrefl _, Employee.lt_irrefl _⟩

/-! ## Consequences of a strict weak ordering -/

section Order

variable {α : Type} {lt : α → α → Bool}

theorem StrictWeak.asymm (h : StrictWeak lt) {a b : α} (hab : lt a b = true) :
    lt b a = false := by
  rw [Bool.eq_false_iff]
  intro hba
  have := h.trans a b a hab hba
  rw [h.irrefl] at this
  exact Bool.noConfusion this

/-- Transitivity of "not greater": `a ≤ b` and `b ≤ c` give `a ≤ c`. -/
theorem StrictWeak.le_trans (h : StrictWeak lt) {a b c : α} (hab : lt b a = false)
    (hbc : lt c b = false) : lt c a = false := by
  rw [Bool.eq_false_iff]
  intro hca
  cases hab' : lt a b with
  | true =>
    have := h.trans c a b hca hab'
    rw [hbc] at this
    exact Bool.noConfusion this
  | false =>
    cases hbc' : lt b c with
    | true =>
      have := h.trans b c a hbc' hca
      rw [hab] at this
      exact Bool.noConfusion this
    | false =>
      have := (h.incomp a b c hab' hab hbc' hbc).2
      rw [hca] at this
      exact Bool.noConfusion this

theorem SortedAll.sortedAdj {l : List α} (h : SortedAll lt l) : SortedAdj lt l :=
  List.Pairwise.chain' h

theorem SortedAdj.sortedAll (hs : StrictWeak lt) {l : List α} (h : SortedAdj lt l) :
    SortedAll lt l := by
  unfold SortedAdj at h
  unfold SortedAll
  induction l with
  | nil => exact List.Pairwise.nil
  | cons x xs ih =>
    have hx := List.chain'_cons'.1 h
    have ht := ih hx.2
    refine List.Pairwise.cons ?_ ht
    intro y hy
    cases xs with
    | nil => cases hy
    | cons z zs =>
      have hxz : lt z x = false := hx.1 z (by simp)
      rcases List.mem_cons.1 hy with rfl | hy'
      · exact hxz
      · exact hs.le_trans hxz ((List.pairwise_cons.1 ht).1 y hy')

end Order

/-! ## Facts about lists addressed by position -/

section ListFacts

variable {α : Type}

theorem getElem?_lt_length {arr : List α} {i : Nat} {x : α} (h : arr[i]? = some x) :
    i < arr.length := by
  by_contra hc
  rw [List.getElem?_eq_none (Nat.le_of_not_lt hc)] at h
  exact Option.noConfusion h

theorem swapAt_eq {arr : List α} {i j : Nat} {x y : α} (hi : arr[i]? = some x)
    (hj : arr[j]? = some y) : swapAt arr i j = .ok ((arr.set i y).set j x) := by
  unfold swapAt
  rw [hi, hj]

theorem perm_set_set {arr : List α} {i j : Nat} {x y : α} (hi : arr[i]? = some x)
    (hj : arr[j]? = some y) : ((arr.set i y).set j x).Perm arr := by
  classical
  have hil := getElem?_lt_length hi
  have hjl := getElem?_lt_length hj
  have hxi : arr[i] = x := by
    rw [List.getElem?_eq_getElem hil] at hi
    exact Option.some.inj hi
  have hyj : arr[j] = y := by
    rw [List.getElem?_eq_getElem hjl] at hj
    exact Option.some.inj hj
  rw [List.perm_iff_count]
  intro b
  have hjl' : j < (arr.set i y).length := by rw [List.length_set]; exact hjl
  rw [List.count_set _ _ _ _ hjl', List.count_set _ _ _ _ hil]
  have hy' : (arr.set i y)[j] = y := by
    rw [List.getElem_set]
    split
    · rfl
    · exact hyj
  rw [hy', hxi]
  have hx : (if (x == b) = true then 1 else 0) ≤ List.count b arr := by
    split
    · rename_i hxb
      have : x = b := by simpa using hxb
      subst this
      exact List.count_pos_iff.2 (hxi ▸ List.getElem_mem hil)
    · exact Nat.zero_le _
  omega

theorem drop_eq_of_getElem?_eq {a b : List α} {m : Nat}
    (h : ∀ k, m ≤ k → a[k]? = b[k]?) : a.drop m = b.drop m := by
  apply List.ext_getElem?
  intro k
  rw [List.getElem?_drop, List.getElem?_drop]
  exact h (m + k) (Nat.le_add_right m k)

theorem take_perm_of_drop_eq {a b : List α} {m : Nat} (hp : a.Perm b)
    (hd : a.drop m = b.drop m) : (a.take m).Perm (b.take m) := by
  have h1 : (a.take m ++ a.drop m).Perm (b.take m ++ b.drop m) := by
    rw [List.take_append_drop, List.take_append_drop]
    exact hp
  rw [hd] at h1
  exact (List.perm_append_right_iff _).1 h1

theorem mem_take_of_getElem? {a : List α} {m k : Nat} {x : α} (hk : k < m)
    (h : a[k]? = some x) : x ∈ a.take m := by
  rw [List.mem_iff_getElem?]
  refine ⟨k, ?_⟩
  rw [List.getElem?_take, if_pos hk]
  exact h

theorem getElem?_of_mem_take {a : List α} {m : Nat} {x : α} (h : x ∈ a.take m) :
    ∃ k, k < m ∧ a[k]? = some x := by
  rw [List.mem_iff_getElem?] at h
  obtain ⟨k, hk⟩ := h
  rw [List.getElem?_take] at hk
  by_cases hkm : k < m
  · rw [if_pos hkm] at hk
    exact ⟨k, hkm, hk⟩
  · rw [if_neg hkm] at hk
    exact Option.noConfusion hk

theorem mem_take_succ_of_mem_take {a : List α} {m : Nat} {x : α} (h : x ∈ a.take m) :
    x ∈ a.take (m + 1) := by
  obtain ⟨k, hk, hx⟩ := getElem?_of_mem_take h
  exact mem_take_of_getElem? (Nat.lt_succ_of_lt hk) hx

variable {lt : α → α → Bool}

theorem sortedFrom_of_length_le {arr : List α} {m : Nat} (h : arr.length ≤ m) :
    SortedFrom lt arr m := by
  unfold SortedFrom SortedAll
  rw [List.drop_of_length_le h]
  exact ⟨List.Pairwise.nil, fun _ _ _ hy => by cases hy⟩

theorem sortedAll_of_sortedFrom {arr : List α} {m : Nat} (h : SortedFrom lt arr m)
    (hm : m ≤ 1) : SortedAll lt arr := by
  unfold SortedFrom at h
  unfold SortedAll at *
  rw [← List.take_append_drop m arr, List.pairwise_append]
  refine ⟨?_, h.1, h.2⟩
  cases harr : arr with
  | nil => simp
  | cons x xs =>
    interval_cases m
    · simp
    · simp

/-- One more position joins the sorted suffix. -/
theorem sortedFrom_step {arr a : List α} {m : Nat} {v : α}
    (h : SortedFrom lt arr (m + 1)) (hp : a.Perm arr)
    (hd : a.drop (m + 1) = arr.drop (m + 1)) (hv : a[m]? = some v)
    (hmax : ∀ x ∈ a.take m, lt v x = false) : SortedFrom lt a m := by
  have hml : m < a.length := getElem?_lt_length hv
  have hvm : a[m] = v := by
    rw [List.getElem?_eq_getElem hml] at hv
    exact Option.some.inj hv
  have htp := take_perm_of_drop_eq hp hd
  have hdrop : a.drop m = v :: arr.drop (m + 1) := by
    rw [List.drop_eq_getElem_cons hml, hvm, hd]
  have hvin : v ∈ arr.take (m + 1) :=
    htp.subset (mem_take_of_getElem? (Nat.lt_succ_self m) hv)
  unfold SortedFrom at *
  unfold SortedAll at *
  rw [hdrop]
  refine ⟨List.Pairwise.cons (fun y hy => h.2 v hvin y hy) h.1, ?_⟩
  intro x hx y hy
  rcases List.mem_cons.1 hy with rfl | hy'
  · exact hmax x hx
  · exact h.2 x (htp.subset (mem_take_succ_of_mem_take hx)) y hy'

end ListFacts

/-! ## Bubble sort -/

section Bubble

variable {α : Type} {lt : α → α → Bool}

theorem subSize_eq {a b : Nat} (hb : b ≤ a) : subSize a b = a - b := by
  unfold subSize
  rw [if_pos hb]

/-- Effect of one execution of the inner loop body. -/
theorem bubbleStep_spec (hs : StrictWeak lt) (arr : List α) (j : Nat)
    (hj : j + 1 < arr.length) :
    ∃ a x y, bubbleStep lt arr j = .ok a ∧ a.Perm arr ∧ a.length = arr.length ∧
      (∀ k, k ≠ j → k ≠ j + 1 → a[k]? = arr[k]?) ∧
      a[j]? = some x ∧ a[j + 1]? = some y ∧ lt y x = false ∧
      (∀ z, arr[j]? = some z → lt y z = false) := by
  have hj0 : j < arr.length := by omega
  have hx0 : arr[j]? = some arr[j] := List.getElem?_eq_getElem hj0
  have hy0 : arr[j + 1]? = some arr[j + 1] := List.getElem?_eq_getElem hj
  have hbs : bubbleStep lt arr j =
      if lt arr[j + 1] arr[j] = true then swapAt arr j (j + 1) else .ok arr := by
    unfold bubbleStep
    rw [hx0, hy0]
  by_cases hc : lt arr[j + 1] arr[j] = true
  · refine ⟨(arr.set j arr[j + 1]).set (j + 1) arr[j], arr[j + 1], arr[j], ?_, ?_, ?_, ?_, ?_, ?_,
      ?_, ?_⟩
    · rw [hbs, if_pos hc]
      exact swapAt_eq hx0 hy0
    · exact perm_set_set hx0 hy0
    · simp
    · intro k hk1 hk2
      rw [List.getElem?_set_ne (Ne.symm hk2), List.getElem?_set_ne (Ne.symm hk1)]
    · rw [List.getElem?_set_ne (by omega), List.getElem?_set_self hj0]
    · rw [List.getElem?_set_self (by simpa using hj)]
    · exact hs.asymm hc
    · intro z hz
      rw [hx0] at hz
      rw [← Option.some.inj hz]
      exact hs.irrefl _
  · have hc' : lt arr[j + 1] arr[j] = false := by simpa using hc
    refine ⟨arr, arr[j], arr[j + 1], ?_, List.Perm.refl _, rfl, fun _ _ _ => rfl, hx0, hy0, hc',
      ?_⟩
    · rw [hbs, if_neg hc]
    · intro z hz
      rw [hx0] at hz
      rw [← Option.some.inj hz]
      exact hc'

/-- One pass of the inner loop from `j` to `bound`: the element left at
`bound` is not smaller than any element before it. -/
theorem bubbleInner_spec (hs : StrictWeak lt) (bound : Nat) :
    ∀ (d : Nat) (arr : List α) (j : Nat), bound - j = d → j ≤ bound → bound < arr.length →
      (∀ k x y, k < j → arr[k]? = some x → arr[j]? = some y → lt y x = false) →
      ∃ a v, bubbleInner lt bound arr j = .ok a ∧ a.Perm arr ∧ a.length = arr.length ∧
        (∀ k, bound < k → a[k]? = arr[k]?) ∧ a[bound]? = some v ∧
        (∀ k x, k < bound → a[k]? = some x → lt v x = false) := by
  intro d
  induction d with
  | zero =>
    intro arr j hd hjb hlen hinv
    have hjeq : j = bound := by omega
    subst hjeq
    rw [bubbleInner, if_neg (Nat.lt_irrefl _)]
    refine ⟨arr, arr[j], rfl, List.Perm.refl _, rfl, fun _ _ => rfl,
      List.getElem?_eq_getElem hlen, ?_⟩
    intro k x hk hx
    exact hinv k x arr[j] hk hx (List.getElem?_eq_getElem hlen)
  | succ d ih =>
    intro arr j hd hjb hlen hinv
    have hjlt : j < bound := by omega
    obtain ⟨a1, x1, y1, hstep, hperm1, hlen1, hframe1, hx1, hy1, hle1, hge1⟩ :=
      bubbleStep_spec hs arr j (by omega)
    have hinv1 : ∀ k x y, k < j + 1 → a1[k]? = some x → a1[j + 1]? = some y →
        lt y x = false := by
      intro k x y hk hx hy
      rw [hy1] at hy
      have hyy : y1 = y := Option.some.inj hy
      subst hyy
      by_cases hkj : k = j
      · subst hkj
        rw [hx1] at hx
        rw [← Option.some.inj hx]
        exact hle1
      · have hklt : k < j := by omega
        rw [hframe1 k hkj (by omega)] at hx
        have hjl : j < arr.length := by omega
        have h1 := hinv k x arr[j] hklt hx (List.getElem?_eq_getElem hjl)
        have h2 := hge1 arr[j] (List.getElem?_eq_getElem hjl)
        exact hs.le_trans h1 h2
    obtain ⟨a, v, hrun, hperm, hlen2, hframe, hv, hmax⟩ :=
      ih a1 (j + 1) (by omega) (by omega) (by omega) hinv1
    refine ⟨a, v, ?_, hperm.trans hperm1, by omega, ?_, hv, hmax⟩
    · rw [bubbleInner, if_pos hjlt, hstep]
      exact hrun
    · intro k hk
      rw [hframe k hk, hframe1 k (by omega) (by omega)]

/-- The outer loop of bubble sort from pass `i` on, when the last `i`
positions are already in their final place. -/
theorem bubbleOuter_spec (hs : StrictWeak lt) (n : Nat) (hn1 : 1 ≤ n) :
    ∀ (d : Nat) (arr : List α) (i : Nat), n - 1 - i = d → i ≤ n - 1 → arr.length = n →
      SortedFrom lt arr (n - i) →
      ∃ a, bubbleOuter lt n arr i = .ok a ∧ a.Perm arr ∧ SortedAll lt a := by
  intro d
  induction d with
  | zero =>
    intro arr i hd hi hlen hinv
    have hieq : i = n - 1 := by omega
    subst hieq
    rw [bubbleOuter, subSize_eq hn1, if_neg (Nat.lt_irrefl _)]
    exact ⟨arr, rfl, List.Perm.refl _, sortedAll_of_sortedFrom hinv (by omega)⟩
  | succ d ih =>
    intro arr i hd hi hlen hinv
    have hilt : i < n - 1 := by omega
    have hb : subSize (subSize n i) 1 = n - i - 1 := by
      have h1 : subSize n i = n - i := subSize_eq (by omega)
      have h3 : 1 ≤ n - i := by omega
      rw [h1]
      exact subSize_eq h3
    obtain ⟨a1, v, hrun, hperm1, hlen1, hframe1, hv, hmax⟩ :=
      bubbleInner_spec hs (n - i - 1) (n - i - 1) arr 0 (by omega) (by omega) (by omega)
        (fun k x y hk => absurd hk (Nat.not_lt_zero k))
    have hdrop : a1.drop (n - i - 1 + 1) = arr.drop (n - i - 1 + 1) :=
      drop_eq_of_getElem?_eq (fun k hk => hframe1 k (by omega))
    have hinv' : SortedFrom lt arr (n - i - 1 + 1) := by
      have : n - i - 1 + 1 = n - i := by omega
      rw [this]
      exact hinv
    have hstep : SortedFrom lt a1 (n - i - 1) :=
      sortedFrom_step hinv' hperm1 hdrop hv (fun x hx => by
        obtain ⟨k, hk, hkx⟩ := getElem?_of_mem_take hx
        exact hmax k x hk hkx)
    have hstep' : SortedFrom lt a1 (n - (i + 1)) := by
      have : n - (i + 1) = n - i - 1 := by omega
      rw [this]
      exact hstep
    obtain ⟨a, hrun2, hperm2, hsorted⟩ := ih a1 (i + 1) (by omega) (by omega) (by omega) hstep'
    refine ⟨a, ?_, hperm2.trans hperm1, hsorted⟩
    rw [bubbleOuter, subSize_eq hn1, if_pos hilt, hb, hrun]
    exact hrun2

/-- Bubble sort returns a sorted permutation of a non-empty vector. -/
theorem bubbleSort_spec (hs : StrictWeak lt) (arr : List α) (hne : arr ≠ []) :
    ∃ a, bubbleSort lt arr = .ok a ∧ a.Perm arr ∧ SortedAll lt a := by
  have hpos : 1 ≤ arr.length := by
    cases arr with
    | nil => exact absurd rfl hne
    | cons x xs => simp
  unfold bubbleSort
  exact bubbleOuter_spec hs arr.length hpos (arr.length - 1) arr 0 (by omega) (by omega) rfl
    (sortedFrom_of_length_le (by omega))

/-- On the empty vector the first inner-loop test `0 < n - i - 1` succeeds,
because `n - i - 1` wraps to `2 ^ 64 - 1`, and the body reads `arr[0]`. -/
theorem bubbleSort_nil (lt : α → α → Bool) :
    bubbleSort lt ([] : List α) = .error .outOfBounds := by
  have h1 : subSize 0 1 = 18446744073709551615 := by decide
  have h0 : subSize 0 0 = 0 := by decide
  unfold bubbleSort
  rw [bubbleOuter, List.length_nil, h0, h1, if_pos (by decide), bubbleInner, if_pos (by decide)]
  rfl

end Bubble

/-! ## Heap sort -/

section Heap
variable {α : Type} {lt : α → α → Bool}

theorem pickLarger_of_ge {arr : List α} {n c cur : Nat} (h : ¬ c < n) :
    pickLarger lt arr n c cur = .ok cur := by
  unfold pickLarger
  rw [if_neg h]

theorem pickLarger_of_lt {arr : List α} {n c cur : Nat} {x y : α} (h : c < n)
    (hx : arr[c]? = some x) (hy : arr[cur]? = some y) :
    pickLarger lt arr n c cur = .ok (if lt y x then c else cur) := by
  unfold pickLarger
  rw [if_pos h, hx, hy]

theorem heapify_of_pick {arr : List α} {n i k1 k : Nat} (hov : ¬ INT_MAX < 2 * i + 2)
    (h1 : pickLarger lt arr n (2 * i + 1) i = .ok k1)
    (h2 : pickLarger lt arr n (2 * i + 2) k1 = .ok k) :
    heapify lt arr n i =
      if k ≠ i then
        match swapAt arr i k with
        | .error e => .error e
        | .ok a => heapify lt a n k
      else .ok arr := by
  rw [heapify, if_neg hov]
  split
  · rename_i e he
    rw [h1] at he
    exact Except.noConfusion he
  · rename_i l1 hl1
    rw [h1] at hl1
    have e1 : k1 = l1 := Except.ok.inj hl1
    subst e1
    split
    · rename_i e he
      rw [h2] at he
      exact Except.noConfusion he
    · rename_i l2 hl2
      rw [h2] at hl2
      have e2 : k = l2 := Except.ok.inj hl2
      subst e2
      rfl

end Heap

theorem getElem?_set_set {α : Type} {arr : List α} {i k : Nat} {x y : α}
    (hi : arr[i]? = some x) (hk : arr[k]? = some y) (t : Nat) :
    ((arr.set i y).set k x)[t]? =
      if t = k then some x else if t = i then some y else arr[t]? := by
  have hil := getElem?_lt_length hi
  have hkl := getElem?_lt_length hk
  rw [List.getElem?_set, List.length_set]
  by_cases htk : t = k
  · subst htk
    simp [hkl]
  · rw [if_neg (Ne.symm htk), if_neg htk, List.getElem?_set]
    by_cases hti : t = i
    · subst hti
      simp [hil]
    · rw [if_neg (Ne.symm hti), if_neg hti]

section Heap2
variable {α : Type} {lt : α → α → Bool}

/-- One `if (c < n && arr[c] > arr[largest]) largest = c;` keeps `largest`
at an index whose element is not smaller than the ones seen so far. -/
theorem pickLarger_best (hs : StrictWeak lt) {arr : List α} {n c cur : Nat}
    (hcur : cur < arr.length) (hn : n ≤ arr.length) (P : Nat → Prop)
    (hbest : ∀ s m z, P s → arr[cur]? = some m → arr[s]? = some z → lt m z = false) :
    ∃ k, pickLarger lt arr n c cur = .ok k ∧ (k = cur ∨ (k = c ∧ c < n)) ∧
      (∀ s m z, (P s ∨ (s = c ∧ c < n)) → arr[k]? = some m → arr[s]? = some z →
        lt m z = false) := by
  have hcur' : arr[cur]? = some arr[cur] := List.getElem?_eq_getElem hcur
  by_cases hc : c < n
  · have hcl : c < arr.length := Nat.lt_of_lt_of_le hc hn
    have hc' : arr[c]? = some arr[c] := List.getElem?_eq_getElem hcl
    have hpick : pickLarger lt arr n c cur = .ok (if lt arr[cur] arr[c] then c else cur) :=
      pickLarger_of_lt hc hc' hcur'
    by_cases hlt : lt arr[cur] arr[c] = true
    · rw [if_pos hlt] at hpick
      refine ⟨c, hpick, Or.inr ⟨rfl, hc⟩, ?_⟩
      intro s m z hs' hm hz
      rw [hc'] at hm
      have em : arr[c] = m := Option.some.inj hm
      subst em
      rcases hs' with hP | ⟨rfl, _⟩
      · have h1 := hbest s arr[cur] z hP hcur' hz
        exact hs.le_trans h1 (hs.asymm hlt)
      · rw [hc'] at hz
        rw [← Option.some.inj hz]
        exact hs.irrefl _
    · rw [if_neg hlt] at hpick
      have hlt' : lt arr[cur] arr[c] = false := by simpa using hlt
      refine ⟨cur, hpick, Or.inl rfl, ?_⟩
      intro s m z hs' hm hz
      rcases hs' with hP | ⟨rfl, _⟩
      · exact hbest s m z hP hm hz
      · rw [hcur'] at hm
        rw [hc'] at hz
        rw [← Option.some.inj hm, ← Option.some.inj hz]
        exact hlt'
  · refine ⟨cur, pickLarger_of_ge hc, Or.inl rfl, ?_⟩
    intro s m z hs' hm hz
    rcases hs' with hP | ⟨_, hcn⟩
    · exact hbest s m z hP hm hz
    · exact absurd hcn hc

end Heap2

section Heap3
variable {α : Type} {lt : α → α → Bool}

/-- Sift-down on a set `P` of nodes that holds the children of its nodes:
`heapify(arr, n, i)` restores the heap condition at every node of `P`, when
among the nodes of `P` only `i` may violate it and the parent of `i`, if in
`P`, dominates the children of `i`. -/
theorem heapify_spec_on (hs : StrictWeak lt) (n : Nat) (P : Nat → Prop)
    (hP : ∀ j, P j → P (2 * j + 1) ∧ P (2 * j + 2)) (hn : 2 * n ≤ INT_MAX) :
    ∀ (d : Nat) (arr : List α) (i : Nat), n - i = d → i < n → n ≤ arr.length → P i →
      (∀ j, P j → j ≠ i → HeapAt lt arr n j) →
      (∀ p, P p → (2 * p + 1 = i ∨ 2 * p + 2 = i) → ∀ c x y,
        (c = 2 * i + 1 ∨ c = 2 * i + 2) → c < n → arr[p]? = some x → arr[c]? = some y →
        lt x y = false) →
      ∃ a, heapify lt arr n i = .ok a ∧ a.Perm arr ∧ a.length = arr.length ∧
        (∀ k, n ≤ k → a[k]? = arr[k]?) ∧ (∀ j, P j → HeapAt lt a n j) := by
  intro d
  induction d using Nat.strong_induction_on with
  | _ d ih =>
    intro arr i hd hin hlen hlo hH1 hH2
    have hil : i < arr.length := Nat.lt_of_lt_of_le hin hlen
    obtain ⟨ai, hi'⟩ : ∃ v, arr[i]? = some v := ⟨_, List.getElem?_eq_getElem hil⟩
    have hov : ¬ INT_MAX < 2 * i + 2 := by omega
    obtain ⟨k1, hp1, hk1, hb1⟩ := pickLarger_best hs (n := n) (c := 2 * i + 1) hil hlen
      (fun s => s = i) (by
        intro s m z hsi hm hz
        subst hsi
        rw [hm] at hz
        rw [← Option.some.inj hz]
        exact hs.irrefl _)
    have hk1l : k1 < arr.length := by
      rcases hk1 with h | ⟨h, h'⟩ <;> omega
    obtain ⟨k, hp2, hk, hb2⟩ := pickLarger_best hs (n := n) (c := 2 * i + 2) hk1l hlen
      (fun s => s = i ∨ (s = 2 * i + 1 ∧ 2 * i + 1 < n)) hb1
    have hkn : k < n := by
      rcases hk with h | ⟨h, h'⟩
      · rcases hk1 with g | ⟨g, g'⟩ <;> omega
      · omega
    have hkl : k < arr.length := Nat.lt_of_lt_of_le hkn hlen
    obtain ⟨ak, hk'⟩ : ∃ v, arr[k]? = some v := ⟨_, List.getElem?_eq_getElem hkl⟩
    have hkcases : k = i ∨ k = 2 * i + 1 ∨ k = 2 * i + 2 := by
      rcases hk with h | ⟨h, _⟩
      · rcases hk1 with g | ⟨g, _⟩
        · exact Or.inl (h.trans g)
        · exact Or.inr (Or.inl (h.trans g))
      · exact Or.inr (Or.inr h)
    -- the element at `k` dominates `arr[i]` and both children of `i`
    have hbest : ∀ c z, (c = i ∨ c = 2 * i + 1 ∨ c = 2 * i + 2) → c < n → arr[c]? = some z →
        lt ak z = false := by
      intro c z hc hcn hz
      refine hb2 c ak z ?_ hk' hz
      rcases hc with h | h | h
      · exact Or.inl (Or.inl h)
      · exact Or.inl (Or.inr ⟨h, h ▸ hcn⟩)
      · exact Or.inr ⟨h, h ▸ hcn⟩
    rw [heapify_of_pick hov hp1 hp2]
    by_cases hki : k = i
    · rw [if_neg (not_not.2 hki)]
      refine ⟨arr, rfl, List.Perm.refl _, rfl, fun _ _ => rfl, ?_⟩
      intro j hj
      by_cases hji : j = i
      · subst hji
        subst hki
        intro c x y hc hcn hx hy
        rw [hk'] at hx
        rw [← Option.some.inj hx]
        exact hbest c y (Or.inr hc) hcn hy
      · exact hH1 j hj hji
    · rw [if_pos hki]
      have hkgt : i < k := by omega
      have hPk : P k := by
        rcases hkcases with h | h | h
        · exact absurd h hki
        · rw [h]
          exact (hP i hlo).1
        · rw [h]
          exact (hP i hlo).2
      rw [swapAt_eq hi' hk']
      have hread := getElem?_set_set hi' hk'
      have hlen1 : ((arr.set i ak).set k ai).length = arr.length := by simp
      have hH1' : ∀ j, P j → j ≠ k → HeapAt lt ((arr.set i ak).set k ai) n j := by
        intro j hj hjk c x y hc hcn hx hy
        rw [hread] at hx hy
        rw [if_neg hjk] at hx
        by_cases hji : j = i
        · subst hji
          rw [if_pos rfl] at hx
          rw [← Option.some.inj hx]
          by_cases hck : c = k
          · rw [if_pos hck] at hy
            rw [← Option.some.inj hy]
            exact hbest j ai (Or.inl rfl) hin hi'
          · rw [if_neg hck, if_neg (by omega)] at hy
            exact hbest c y (Or.inr hc) hcn hy
        · rw [if_neg hji] at hx
          have hck : c ≠ k := by omega
          rw [if_neg hck] at hy
          by_cases hci : c = i
          · rw [if_pos hci] at hy
            rw [← Option.some.inj hy]
            have hpar : 2 * j + 1 = i ∨ 2 * j + 2 = i := by omega
            have hkc : k = 2 * i + 1 ∨ k = 2 * i + 2 := by omega
            exact hH2 j hj hpar k x ak hkc hkn hx hk'
          · rw [if_neg hci] at hy
            exact hH1 j hj hji c x y hc hcn hx hy
      have hH2' : ∀ p, P p → (2 * p + 1 = k ∨ 2 * p + 2 = k) → ∀ c x y,
          (c = 2 * k + 1 ∨ c = 2 * k + 2) → c < n →
          ((arr.set i ak).set k ai)[p]? = some x →
          ((arr.set i ak).set k ai)[c]? = some y → lt x y = false := by
        intro p hp hpk c x y hc hcn hx hy
        have hpi : p = i := by omega
        subst hpi
        rw [hread] at hx hy
        rw [if_neg (by omega), if_pos rfl] at hx
        rw [if_neg (by omega), if_neg (by omega)] at hy
        rw [← Option.some.inj hx]
        exact hH1 k hPk hki c ak y hc hcn hk' hy
      obtain ⟨a, hrun, hperm, hlen2, hframe, hheap⟩ :=
        ih (n - k) (by omega) ((arr.set i ak).set k ai) k rfl hkn
          (by rw [hlen1]; exact hlen) hPk hH1' hH2'
      refine ⟨a, hrun, hperm.trans (perm_set_set hi' hk'), by rw [hlen2, hlen1], ?_, hheap⟩
      intro t ht
      rw [hframe t ht, hread, if_neg (by omega), if_neg (by omega)]

/-- Sift-down: `heapify(arr, n, i)` restores the heap condition at every
node from `lo` on, when only node `i` may violate it and the parent of `i`
dominates the children of `i`. -/
theorem heapify_spec (hs : StrictWeak lt) (n lo : Nat) (hn : 2 * n ≤ INT_MAX) :
    ∀ (d : Nat) (arr : List α) (i : Nat), n - i = d → i < n → n ≤ arr.length → lo ≤ i →
      (∀ j, lo ≤ j → j ≠ i → HeapAt lt arr n j) →
      (∀ p, lo ≤ p → (2 * p + 1 = i ∨ 2 * p + 2 = i) → ∀ c x y,
        (c = 2 * i + 1 ∨ c = 2 * i + 2) → c < n → arr[p]? = some x → arr[c]? = some y →
        lt x y = false) →
      ∃ a, heapify lt arr n i = .ok a ∧ a.Perm arr ∧ a.length = arr.length ∧
        (∀ k, n ≤ k → a[k]? = arr[k]?) ∧ (∀ j, lo ≤ j → HeapAt lt a n j) :=
  heapify_spec_on hs n (fun j => lo ≤ j)
    (fun j hj => ⟨Nat.le_trans hj (by omega), Nat.le_trans hj (by omega)⟩) hn

end Heap3

section Heap4
variable {α : Type} {lt : α → α → Bool}

/-- The first loop of `heapSort`, entered at `i` with every node after `i`
already satisfying the heap condition. -/
theorem buildLoop_spec (hs : StrictWeak lt) (n : Nat) (hn : 2 * n ≤ INT_MAX) :
    ∀ (d : Nat) (arr : List α) (i : Int), (i + 1).toNat = d → i < n → n ≤ arr.length →
      (∀ j : Nat, i < j → HeapAt lt arr n j) →
      ∃ a, buildLoop lt n arr i = .ok a ∧ a.Perm arr ∧ a.length = arr.length ∧
        (∀ k, n ≤ k → a[k]? = arr[k]?) ∧ (∀ j, HeapAt lt a n j) := by
  intro d
  induction d with
  | zero =>
    intro arr i hd hin hlen hheap
    have hneg : ¬ 0 ≤ i := by omega
    rw [buildLoop, if_neg hneg]
    exact ⟨arr, rfl, List.Perm.refl _, rfl, fun _ _ => rfl, fun j => hheap j (by omega)⟩
  | succ d ih =>
    intro arr i hd hin hlen hheap
    have hpos : 0 ≤ i := by omega
    obtain ⟨a1, hrun1, hperm1, hlen1, hframe1, hheap1⟩ :=
      heapify_spec hs n i.toNat hn (n - i.toNat) arr i.toNat rfl (by omega) hlen (Nat.le_refl _)
        (fun j hj hne => hheap j (by omega))
        (fun p hp hpar => by omega)
    obtain ⟨a, hrun, hperm, hlen2, hframe, hheap2⟩ :=
      ih a1 (i - 1) (by omega) (by omega) (by omega) (fun j hj => hheap1 j (by omega))
    refine ⟨a, ?_, hperm.trans hperm1, by omega, ?_, hheap2⟩
    · rw [buildLoop, if_pos hpos, hrun1]
      exact hrun
    · intro k hk
      rw [hframe k hk, hframe1 k hk]

/-- In a max-heap the root is not smaller than any element. -/
theorem heap_root_max (hs : StrictWeak lt) {arr : List α} {n : Nat}
    (hheap : ∀ j, HeapAt lt arr n j) {r : α} (hr : arr[0]? = some r) :
    ∀ k, k < n → k < arr.length → ∀ x, arr[k]? = some x → lt r x = false := by
  intro k
  induction k using Nat.strong_induction_on with
  | _ k ih =>
    intro hkn hkl x hx
    by_cases hk0 : k = 0
    · subst hk0
      rw [hr] at hx
      rw [← Option.some.inj hx]
      exact hs.irrefl _
    · have hpl : (k - 1) / 2 < arr.length := by omega
      have hp' : arr[(k - 1) / 2]? = some arr[(k - 1) / 2] := List.getElem?_eq_getElem hpl
      have h1 := ih ((k - 1) / 2) (by omega) (by omega) hpl _ hp'
      have h2 := hheap ((k - 1) / 2) k _ x (by omega) hkn hp' hx
      exact hs.le_trans h2 h1

/-- The second loop of `heapSort`, entered at `i` with a max-heap on the
first `i + 1` positions and the rest already in its final place. -/
theorem sortLoop_spec (hs : StrictWeak lt) :
    ∀ (d : Nat) (arr : List α) (i : Int), i.toNat = d → i < arr.length →
      2 * arr.length ≤ INT_MAX → (∀ j, HeapAt lt arr (i + 1).toNat j) →
      SortedFrom lt arr (i + 1).toNat →
      ∃ a, sortLoop lt arr i = .ok a ∧ a.Perm arr ∧ SortedAll lt a := by
  intro d
  induction d with
  | zero =>
    intro arr i hd hil hsz hheap hsorted
    have hneg : ¬ 0 < i := by omega
    rw [sortLoop, if_neg hneg]
    exact ⟨arr, rfl, List.Perm.refl _, sortedAll_of_sortedFrom hsorted (by omega)⟩
  | succ d ih =>
    intro arr i hd hil hsz hheap hsorted
    have hpos : 0 < i := by omega
    have hm1 : (i + 1).toNat = i.toNat + 1 := by omega
    rw [hm1] at hheap hsorted
    have hml : i.toNat < arr.length := by omega
    have h0l : 0 < arr.length := by omega
    obtain ⟨a0, h0⟩ : ∃ v, arr[0]? = some v := ⟨_, List.getElem?_eq_getElem h0l⟩
    obtain ⟨am, hm⟩ : ∃ v, arr[i.toNat]? = some v := ⟨_, List.getElem?_eq_getElem hml⟩
    have hread := getElem?_set_set h0 hm
    have hlen1 : ((arr.set 0 am).set i.toNat a0).length = arr.length := by simp
    obtain ⟨a2, hrun2, hperm2, hlen2, hframe2, hheap2⟩ :=
      heapify_spec hs i.toNat 0 (by omega) (i.toNat - 0) ((arr.set 0 am).set i.toNat a0) 0 rfl
        (by omega) (by omega) (Nat.le_refl _)
        (fun j _ hj0 c x y hc hcn hx hy => by
          rw [hread, if_neg (by omega), if_neg hj0] at hx
          rw [hread, if_neg (by omega), if_neg (by omega)] at hy
          exact hheap j c x y hc (by omega) hx hy)
        (fun p _ hpar => by omega)
    have hperm : a2.Perm arr := hperm2.trans (perm_set_set h0 hm)
    have hv : a2[i.toNat]? = some a0 := by
      rw [hframe2 _ (Nat.le_refl _), hread, if_pos rfl]
    have hdrop : a2.drop (i.toNat + 1) = arr.drop (i.toNat + 1) :=
      drop_eq_of_getElem?_eq (fun k hk => by
        rw [hframe2 k (by omega), hread, if_neg (by omega), if_neg (by omega)])
    have htp := take_perm_of_drop_eq hperm hdrop
    have hstep : SortedFrom lt a2 i.toNat :=
      sortedFrom_step hsorted hperm hdrop hv (fun x hx => by
        obtain ⟨k, hk, hkx⟩ := getElem?_of_mem_take (htp.subset (mem_take_succ_of_mem_take hx))
        exact heap_root_max hs hheap h0 k hk (getElem?_lt_length hkx) x hkx)
    have hm2 : (i - 1 + 1).toNat = i.toNat := by omega
    obtain ⟨a, hrun, hperm3, hsortedA⟩ :=
      ih a2 (i - 1) (by omega) (by omega) (by omega) (by rw [hm2]; exact hheap2 · (Nat.zero_le _))
        (by rw [hm2]; exact hstep)
    refine ⟨a, ?_, hperm3.trans hperm, hsortedA⟩
    rw [sortLoop, if_pos hpos, swapAt_eq h0 hm]
    dsimp only
    rw [hrun2]
    exact hrun

theorem toInt32_of_le {n : Nat} (h : n ≤ INT_MAX) : toInt32 n = n := by
  unfold toInt32
  unfold INT_MAX at h
  omega

/-- Heap sort returns a sorted permutation of a vector whose doubled length
fits in `int`. -/
theorem heapSort_spec (hs : StrictWeak lt) (arr : List α) (hsz : 2 * arr.length ≤ INT_MAX) :
    ∃ a, heapSort lt arr = .ok a ∧ a.Perm arr ∧ SortedAll lt a := by
  have hn : toInt32 arr.length = arr.length := toInt32_of_le (by omega)
  have hdiv : (arr.length : Int).tdiv 2 = (arr.length : Int) / 2 :=
    Int.tdiv_eq_ediv (by omega) (by omega)
  obtain ⟨a1, hrun1, hperm1, hlen1, _, hheap1⟩ :=
    buildLoop_spec hs arr.length hsz _ arr ((arr.length : Int) / 2 - 1) rfl (by omega)
      (Nat.le_refl _) (fun j hj c x y hc hcn _ _ => by omega)
  have hm : ((arr.length : Int) - 1 + 1).toNat = arr.length := by omega
  obtain ⟨a, hrun, hperm, hsorted⟩ :=
    sortLoop_spec hs _ a1 ((arr.length : Int) - 1) rfl (by omega) (by omega)
      (by rw [hm]; exact hheap1)
      (by rw [hm]; exact sortedFrom_of_length_le (by omega))
  refine ⟨a, ?_, hperm.trans hperm1, hsorted⟩
  unfold heapSort
  simp only [hn, Int.toNat_ofNat, hdiv, hrun1]
  have hmin : ¬ ((arr.length : Int) - 1 < INT_MIN) := by
    unfold INT_MIN
    omega
  show (if (arr.length : Int) - 1 < INT_MIN then _ else _) = _
  rw [if_neg hmin]
  exact hrun

end Heap4

section Heap5
variable {α : Type} {lt : α → α → Bool}

/-- A vector of `2 * p + 2` elements whose last element is greater than its
parent at index `p`: the first `heapify` call swaps the two and re-enters at
index `2 * p + 1`, where the child index `2 * (2 * p + 1) + 2` is computed. -/
theorem heapSort_child_index_overflow (p : Nat) (arr : List α) (a b : α)
    (hlen : arr.length = 2 * p + 2) (ha : arr[p]? = some a) (hb : arr[2 * p + 1]? = some b)
    (hab : lt a b = true) (hfit : 2 * p + 2 ≤ INT_MAX) (hov : INT_MAX < 2 * (2 * p + 1) + 2) :
    heapSort lt arr = .error .intOverflow := by
  have hn : toInt32 ((2 * p + 2 : Nat) : Int) = ((2 * p + 2 : Nat) : Int) := toInt32_of_le hfit
  have hdiv : (((2 * p + 2 : Nat) : Int)).tdiv 2 - 1 = (p : Int) := by
    rw [Int.tdiv_eq_ediv (by omega) (by omega)]
    omega
  have hp1 : pickLarger lt arr (2 * p + 2) (2 * p + 1) p = .ok (2 * p + 1) := by
    rw [pickLarger_of_lt (by omega) hb ha, hab, if_pos rfl]
  have hp2 : pickLarger lt arr (2 * p + 2) (2 * p + 2) (2 * p + 1) = .ok (2 * p + 1) :=
    pickLarger_of_ge (Nat.lt_irrefl _)
  have hheap : heapify lt arr (2 * p + 2) p = .error .intOverflow := by
    rw [heapify_of_pick (by omega) hp1 hp2, if_pos (by omega), swapAt_eq ha hb]
    show heapify lt _ (2 * p + 2) (2 * p + 1) = _
    rw [heapify, if_pos hov]
  unfold heapSort
  simp only [hlen, hn, hdiv, Int.toNat_ofNat]
  rw [buildLoop, if_pos (Int.ofNat_nonneg p), Int.toNat_ofNat, hheap]
  rfl

end Heap5

/-! ## Merge sort -/

section Merge1
variable {α : Type} {lt : α → α → Bool}

theorem writeAt_eq {arr : List α} {k : Nat} (v : α) (hk : k < arr.length) :
    writeAt arr k v = .ok (arr.set k v) := by
  unfold writeAt
  rw [if_pos hk]

theorem take_succ_set {arr : List α} {k : Nat} (v : α) (hk : k < arr.length) :
    (arr.set k v).take (k + 1) = arr.take k ++ [v] := by
  rw [List.set_eq_take_append_cons_drop, if_pos hk]
  have hlen : (arr.take k).length = k := by
    rw [List.length_take]
    omega
  rw [List.take_append_eq_append_take, hlen, List.take_take]
  simp

theorem drop_succ_add_set {arr : List α} {k m : Nat} (v : α) :
    (arr.set k v).drop (k + 1 + m) = arr.drop (k + 1 + m) := by
  rw [List.drop_set, if_pos (by omega)]

/-- The copy loop writes the rest of `src` to the positions from `k` on. -/
theorem copyRest_spec (src : List α) :
    ∀ (d : Nat) (arr : List α) (i k : Nat), src.length - i = d →
      k + (src.length - i) ≤ arr.length → k + (src.length - i) ≤ INT_MAX →
      copyRest src arr i k =
        .ok (arr.take k ++ src.drop i ++ arr.drop (k + (src.length - i)),
          k + (src.length - i)) := by
  intro d
  induction d with
  | zero =>
    intro arr i k hd hk _
    have hi : ¬ i < src.length := by omega
    rw [copyRest, dif_neg hi, List.drop_of_length_le (by omega), hd]
    simp
  | succ d ih =>
    intro arr i k hd hk hfit
    have hi : i < src.length := by omega
    have hkl : k < arr.length := by omega
    rw [copyRest, dif_pos hi, writeAt_eq _ hkl]
    dsimp only
    rw [if_neg (by omega),
      ih (arr.set k src[i]) (i + 1) (k + 1) (by omega) (by rw [List.length_set]; omega)
        (by omega)]
    have h1 : k + 1 + (src.length - (i + 1)) = k + (src.length - i) := by omega
    have h2 : src.drop i = src[i] :: src.drop (i + 1) := List.drop_eq_getElem_cons hi
    rw [take_succ_set _ hkl, drop_succ_add_set, h1, h2]
    simp

end Merge1

section Merge2
variable {α : Type} {lt : α → α → Bool}

theorem take_append_len {X Y : List α} {n : Nat} (h : X.length = n) : (X ++ Y).take n = X := by
  subst h
  simp

theorem drop_append_len {X Y : List α} {n m : Nat} (h : X.length = n) :
    (X ++ Y).drop (n + m) = Y.drop m := by
  subst h
  simp

/-- When one run is used up, the two copy loops write what is left. -/
theorem copy_both_spec (L R : List α) (arr : List α) (i j k : Nat)
    (hdone : ¬ (i < L.length ∧ j < R.length))
    (hk : k + (L.length - i) + (R.length - j) ≤ arr.length)
    (hfit : k + (L.length - i) + (R.length - j) ≤ INT_MAX) :
    ∃ a2 k2, copyRest L arr i k = .ok (a2, k2) ∧ ∃ a3 k3, copyRest R a2 j k2 = .ok (a3, k3) ∧
      a3 = arr.take k ++ List.merge (L.drop i) (R.drop j) (fun a b => !(lt b a)) ++
        arr.drop (k + (L.length - i) + (R.length - j)) ∧
      k3 = k + (L.length - i) + (R.length - j) := by
  have h1 := copyRest_spec L (L.length - i) arr i k rfl (by omega) (by omega)
  refine ⟨_, _, h1, ?_⟩
  have hlenX : (arr.take k ++ L.drop i).length = k + (L.length - i) := by
    rw [List.length_append, List.length_take, List.length_drop]
    omega
  have hlen2 : (arr.take k ++ L.drop i ++ arr.drop (k + (L.length - i))).length = arr.length := by
    rw [List.length_append, hlenX, List.length_drop]
    omega
  have h2 := copyRest_spec R (R.length - j)
    (arr.take k ++ L.drop i ++ arr.drop (k + (L.length - i))) j (k + (L.length - i)) rfl
    (by rw [hlen2]; omega) (by omega)
  refine ⟨_, _, h2, ?_, rfl⟩
  rw [take_append_len hlenX, drop_append_len hlenX, List.drop_drop]
  have hm : List.merge (L.drop i) (R.drop j) (fun a b => !(lt b a)) = L.drop i ++ R.drop j := by
    by_cases hi : i < L.length
    · have hj : R.length ≤ j := by
        by_contra hc
        exact hdone ⟨hi, by omega⟩
      rw [List.drop_of_length_le hj]
      simp
    · rw [List.drop_of_length_le (by omega)]
      simp
  rw [hm]
  have e : k + (L.length - i) + (R.length - j) = R.length - j + (k + (L.length - i)) := by omega
  rw [e]
  simp

/-- The three loops of `merge` write the merged runs to the positions from `k` on. -/
theorem mergeLoops_spec (L R : List α) :
    ∀ (d : Nat) (arr : List α) (i j k : Nat), (L.length - i) + (R.length - j) = d →
      k + (L.length - i) + (R.length - j) ≤ arr.length →
      k + (L.length - i) + (R.length - j) ≤ INT_MAX →
      ∃ a1 i1 j1 k1, mergeLoop lt L R arr i j k = .ok (a1, i1, j1, k1) ∧
        ∃ a2 k2, copyRest L a1 i1 k1 = .ok (a2, k2) ∧
          ∃ a3 k3, copyRest R a2 j1 k2 = .ok (a3, k3) ∧
            a3 = arr.take k ++ List.merge (L.drop i) (R.drop j) (fun a b => !(lt b a)) ++
              arr.drop (k + (L.length - i) + (R.length - j)) ∧
            k3 = k + (L.length - i) + (R.length - j) := by
  intro d
  induction d with
  | zero =>
    intro arr i j k hd hk hfit
    have hdone : ¬ (i < L.length ∧ j < R.length) := by omega
    refine ⟨arr, i, j, k, ?_, copy_both_spec L R arr i j k hdone hk hfit⟩
    rw [mergeLoop, dif_neg hdone]
  | succ d ih =>
    intro arr i j k hd hk hfit
    by_cases hgo : i < L.length ∧ j < R.length
    · have hkl : k < arr.length := by omega
      have hL : L.drop i = L[i] :: L.drop (i + 1) := List.drop_eq_getElem_cons hgo.1
      have hR : R.drop j = R[j] :: R.drop (j + 1) := List.drop_eq_getElem_cons hgo.2
      by_cases hle : (!(lt R[j] L[i])) = true
      · obtain ⟨a1, i1, j1, k1, hrun, hrest⟩ :=
          ih (arr.set k L[i]) (i + 1) j (k + 1) (by omega) (by rw [List.length_set]; omega)
            (by omega)
        refine ⟨a1, i1, j1, k1, ?_, ?_⟩
        · rw [mergeLoop, dif_pos hgo, if_pos hle, writeAt_eq _ hkl]
          dsimp only
          rw [if_neg (by omega)]
          exact hrun
        · obtain ⟨a2, k2, hc1, a3, k3, hc2, heq, hk3⟩ := hrest
          refine ⟨a2, k2, hc1, a3, k3, hc2, ?_, by omega⟩
          rw [heq, take_succ_set _ hkl]
          have e : k + 1 + (L.length - (i + 1)) + (R.length - j) =
              k + 1 + ((L.length - (i + 1)) + (R.length - j)) := by omega
          have e2 : k + (L.length - i) + (R.length - j) =
              k + 1 + ((L.length - (i + 1)) + (R.length - j)) := by omega
          have hmerge : List.merge (L.drop i) (R.drop j) (fun a b => !(lt b a)) =
              L[i] :: List.merge (L.drop (i + 1)) (R.drop j) (fun a b => !(lt b a)) := by
            rw [hL]
            conv_lhs => rw [hR]
            rw [List.cons_merge_cons]
            rw [if_pos hle, hR]
          rw [e, drop_succ_add_set, e2, hmerge]
          simp
      · obtain ⟨a1, i1, j1, k1, hrun, hrest⟩ :=
          ih (arr.set k R[j]) i (j + 1) (k + 1) (by omega) (by rw [List.length_set]; omega)
            (by omega)
        refine ⟨a1, i1, j1, k1, ?_, ?_⟩
        · rw [mergeLoop, dif_pos hgo, if_neg hle, writeAt_eq _ hkl]
          dsimp only
          rw [if_neg (by omega)]
          exact hrun
        · obtain ⟨a2, k2, hc1, a3, k3, hc2, heq, hk3⟩ := hrest
          refine ⟨a2, k2, hc1, a3, k3, hc2, ?_, by omega⟩
          rw [heq, take_succ_set _ hkl]
          have e : k + 1 + (L.length - i) + (R.length - (j + 1)) =
              k + 1 + ((L.length - i) + (R.length - (j + 1))) := by omega
          have e2 : k + (L.length - i) + (R.length - j) =
              k + 1 + ((L.length - i) + (R.length - (j + 1))) := by omega
          have hmerge : List.merge (L.drop i) (R.drop j) (fun a b => !(lt b a)) =
              R[j] :: List.merge (L.drop i) (R.drop (j + 1)) (fun a b => !(lt b a)) := by
            rw [hR]
            conv_lhs => rw [hL]
            rw [List.cons_merge_cons]
            rw [if_neg hle, hL]
          rw [e, drop_succ_add_set, e2, hmerge]
          simp
    · refine ⟨arr, i, j, k, ?_, copy_both_spec L R arr i j k hgo hk hfit⟩
      rw [mergeLoop, dif_neg hgo]

end Merge2

section Merge3
variable {α : Type} {lt : α → α → Bool}

/-- Function `merge` on a vector `A ++ L ++ R ++ B`, called on the two adjacent runs `L` and `R`. -/
theorem merge_frame (A L R B : List α) (hfit : A.length + L.length + R.length ≤ INT_MAX) :
    merge lt (A ++ L ++ R ++ B) (A.length : Int) ((A.length : Int) + L.length - 1)
      ((A.length : Int) + L.length + R.length - 1) =
      .ok (A ++ List.merge L R (fun a b => !(lt b a)) ++ B) := by
  have hcond : (0 : Int) ≤ (A.length : Int) ∧
      (A.length : Int) ≤ (A.length : Int) + L.length - 1 + 1 ∧
      (A.length : Int) + L.length - 1 ≤ (A.length : Int) + L.length + R.length - 1 ∧
      (A.length : Int) + L.length + R.length - 1 + 1 ≤ ((A ++ L ++ R ++ B).length : Int) := by
    simp only [List.length_append]
    omega
  have hl : ((A.length : Int)).toNat = A.length := by omega
  have hm : ((A.length : Int) + L.length - 1 + 1).toNat = A.length + L.length := by omega
  have hr : ((A.length : Int) + L.length + R.length - 1 + 1).toNat =
      A.length + L.length + R.length := by omega
  have hLeft : ((A ++ L ++ R ++ B).drop A.length).take (A.length + L.length - A.length) = L := by
    have e : A.length + L.length - A.length = L.length := by omega
    rw [e, List.append_assoc, List.append_assoc, List.drop_left, ← List.append_assoc,
      List.append_assoc, List.take_left]
  have hRight : ((A ++ L ++ R ++ B).drop (A.length + L.length)).take
      (A.length + L.length + R.length - (A.length + L.length)) = R := by
    have e : A.length + L.length + R.length - (A.length + L.length) = R.length := by omega
    have e2 : A.length + L.length = (A ++ L).length := by rw [List.length_append]
    rw [e, e2, List.append_assoc (A ++ L), List.drop_left, List.take_left]
  obtain ⟨a1, i1, j1, k1, hrun, a2, k2, hc1, a3, k3, hc2, heq, _⟩ :=
    @mergeLoops_spec _ lt L R (L.length + R.length) (A ++ L ++ R ++ B) 0 0 A.length
      (by omega) (by simp only [List.length_append]; omega) (by omega)
  have hres : a3 = A ++ List.merge L R (fun a b => !(lt b a)) ++ B := by
    rw [heq]
    have e3 : A.length + (L.length - 0) + (R.length - 0) = (A ++ L ++ R).length := by
      simp only [List.length_append]
      omega
    rw [e3, List.drop_left, List.drop_zero, List.drop_zero, List.append_assoc A L,
      List.append_assoc A (L ++ R), List.take_left]
  unfold merge
  rw [if_pos hcond]
  simp only [hl, hm, hr, hLeft, hRight, hrun, hc1, hc2, hres]

theorem length_mergeSortList (lt : α → α → Bool) :
    ∀ (d : Nat) (M : List α), M.length = d → (mergeSortList lt M).length = M.length := by
  intro d
  induction d using Nat.strong_induction_on with
  | _ d ih =>
    intro M hd
    rw [mergeSortList]
    by_cases h : M.length ≤ 1
    · rw [if_pos h]
    · rw [if_neg h, List.length_merge,
        ih _ (by rw [List.length_take]; omega) _ rfl,
        ih _ (by rw [List.length_drop]; omega) _ rfl, List.length_take, List.length_drop]
      omega

/-- One unfolding of `mergeSort` on a range of at least two elements. -/
theorem mergeSort_step {arr a1 a2 : List α} {left right mid : Int} (hlt : left < right)
    (hfit : right - left ≤ INT_MAX) (hmid : left + (right - left).tdiv 2 = mid)
    (h1 : mergeSort lt arr left mid = .ok a1)
    (h2 : mergeSort lt a1 (mid + 1) right = .ok a2) :
    mergeSort lt arr left right = merge lt a2 left mid right := by
  rw [mergeSort, if_neg (by omega), if_neg (by omega)]
  dsimp only
  rw [hmid, h1]
  dsimp only
  rw [h2]

end Merge3

section Merge4
variable {α : Type} {lt : α → α → Bool}

/-- Function `mergeSort` on the range `M` of a vector `A ++ M ++ B` leaves
`A` and `B` alone and puts `mergeSortList lt M` in the place of `M`. -/
theorem mergeSort_frame (lt : α → α → Bool) :
    ∀ (d : Nat) (M A B : List α), M.length = d → A.length + M.length ≤ INT_MAX →
      mergeSort lt (A ++ M ++ B) (A.length : Int) ((A.length : Int) + M.length - 1) =
        .ok (A ++ mergeSortList lt M ++ B) := by
  intro d
  induction d using Nat.strong_induction_on with
  | _ d ih =>
    intro M A B hd hfit
    by_cases hsmall : M.length ≤ 1
    · rw [mergeSort, if_pos (by omega), mergeSortList, if_pos hsmall]
    · have hl1 : ((M.length - 1) / 2 + 1) ≤ M.length := by omega
      have hlen1 : (M.take ((M.length - 1) / 2 + 1)).length = (M.length - 1) / 2 + 1 := by
        rw [List.length_take]
        omega
      have hlen2 : (M.drop ((M.length - 1) / 2 + 1)).length =
          M.length - ((M.length - 1) / 2 + 1) := List.length_drop _ _
      have hS1 := length_mergeSortList lt _ (M.take ((M.length - 1) / 2 + 1)) rfl
      have hS2 := length_mergeSortList lt _ (M.drop ((M.length - 1) / 2 + 1)) rfl
      have hsplit : A ++ M ++ B = A ++ M.take ((M.length - 1) / 2 + 1) ++
          (M.drop ((M.length - 1) / 2 + 1) ++ B) := by
        conv_lhs => rw [← List.take_append_drop ((M.length - 1) / 2 + 1) M]
        simp only [List.append_assoc]
      have hdiv : ((A.length : Int) + M.length - 1 - A.length).tdiv 2 =
          ((A.length : Int) + M.length - 1 - A.length) / 2 :=
        Int.tdiv_eq_ediv (by omega) (by omega)
      have hmid : (A.length : Int) + ((A.length : Int) + M.length - 1 - A.length).tdiv 2 =
          (A.length : Int) + (M.take ((M.length - 1) / 2 + 1)).length - 1 := by
        rw [hdiv, hlen1]
        omega
      have h1 : mergeSort lt (A ++ M ++ B) (A.length : Int)
          ((A.length : Int) + (M.take ((M.length - 1) / 2 + 1)).length - 1) =
          .ok (A ++ mergeSortList lt (M.take ((M.length - 1) / 2 + 1)) ++
            (M.drop ((M.length - 1) / 2 + 1) ++ B)) := by
        rw [hsplit]
        exact ih _ (by omega) _ A _ rfl (by rw [hlen1]; omega)
      have hidx : (A.length : Int) + (M.take ((M.length - 1) / 2 + 1)).length - 1 + 1 =
          ((A ++ mergeSortList lt (M.take ((M.length - 1) / 2 + 1))).length : Int) := by
        rw [List.length_append, hS1]
        omega
      have hidx2 : (A.length : Int) + M.length - 1 =
          ((A ++ mergeSortList lt (M.take ((M.length - 1) / 2 + 1))).length : Int) +
            (M.drop ((M.length - 1) / 2 + 1)).length - 1 := by
        rw [List.length_append, hS1, hlen1, hlen2]
        omega
      have h2 : mergeSort lt (A ++ mergeSortList lt (M.take ((M.length - 1) / 2 + 1)) ++
            (M.drop ((M.length - 1) / 2 + 1) ++ B))
          ((A.length : Int) + (M.take ((M.length - 1) / 2 + 1)).length - 1 + 1)
          ((A.length : Int) + M.length - 1) =
          .ok (A ++ mergeSortList lt (M.take ((M.length - 1) / 2 + 1)) ++
            mergeSortList lt (M.drop ((M.length - 1) / 2 + 1)) ++ B) := by
        rw [hidx, hidx2, ← List.append_assoc]
        exact ih _ (by omega) _ _ B rfl (by rw [List.length_append, hS1, hlen1, hlen2]; omega)
      rw [mergeSort_step (by omega) (by omega) hmid h1 h2]
      have hr : (A.length : Int) + M.length - 1 =
          (A.length : Int) + (mergeSortList lt (M.take ((M.length - 1) / 2 + 1))).length +
            (mergeSortList lt (M.drop ((M.length - 1) / 2 + 1))).length - 1 := by
        rw [hS1, hS2, hlen1, hlen2]
        omega
      have hm : (A.length : Int) + (M.take ((M.length - 1) / 2 + 1)).length - 1 =
          (A.length : Int) + (mergeSortList lt (M.take ((M.length - 1) / 2 + 1))).length - 1 := by
        rw [hS1]
      rw [hr, hm, merge_frame _ _ _ _ (by rw [hS1, hS2, hlen1, hlen2]; omega)]
      conv_rhs => rw [mergeSortList, if_neg hsmall]

end Merge4

section Merge5
variable {α : Type} {lt : α → α → Bool}

theorem mergeSortList_perm (lt : α → α → Bool) :
    ∀ (d : Nat) (M : List α), M.length = d → (mergeSortList lt M).Perm M := by
  intro d
  induction d using Nat.strong_induction_on with
  | _ d ih =>
    intro M hd
    rw [mergeSortList]
    by_cases h : M.length ≤ 1
    · rw [if_pos h]
    · rw [if_neg h]
      have p1 := ih _ (by rw [List.length_take]; omega) (M.take ((M.length - 1) / 2 + 1)) rfl
      have p2 := ih _ (by rw [List.length_drop]; omega) (M.drop ((M.length - 1) / 2 + 1)) rfl
      have p3 := (@List.merge_perm_append _ (fun a b => !(lt b a))
        (mergeSortList lt (M.take ((M.length - 1) / 2 + 1)))
        (mergeSortList lt (M.drop ((M.length - 1) / 2 + 1)))).trans (p1.append p2)
      rw [List.take_append_drop] at p3
      exact p3

/-- Merging two runs that are sorted for a transitive relation `Rel` gives a
run sorted for `Rel`, when each decision of the merge agrees with `Rel`. -/
theorem pairwise_merge {Rel : α → α → Prop} (htrans : ∀ a b c, Rel a b → Rel b c → Rel a c) :
    ∀ (L R : List α), L.Pairwise Rel → R.Pairwise Rel →
      (∀ x ∈ L, ∀ y ∈ R, (lt y x = false → Rel x y) ∧ (lt y x = true → Rel y x)) →
      (List.merge L R (fun a b => !(lt b a))).Pairwise Rel := by
  intro L
  induction L with
  | nil =>
    intro R _ hR _
    rw [List.nil_merge]
    exact hR
  | cons x xs ihL =>
    intro R
    induction R with
    | nil =>
      intro hL _ _
      rw [List.merge_right]
      exact hL
    | cons y ys ihR =>
      intro hL hR hcross
      rw [List.cons_merge_cons]
      have hxy := hcross x (List.mem_cons_self _ _) y (List.mem_cons_self _ _)
      by_cases hle : (!(lt y x)) = true
      · rw [if_pos hle]
        have hf : lt y x = false := by simpa using hle
        have hRxy : Rel x y := hxy.1 hf
        refine List.Pairwise.cons ?_ (ihL (y :: ys) (List.pairwise_cons.1 hL).2 hR
          (fun a ha b hb => hcross a (List.mem_cons_of_mem _ ha) b hb))
        intro z hz
        rcases List.mem_merge.1 hz with hz | hz
        · exact (List.pairwise_cons.1 hL).1 z hz
        · rcases List.mem_cons.1 hz with rfl | hz'
          · exact hRxy
          · exact htrans _ _ _ hRxy ((List.pairwise_cons.1 hR).1 z hz')
      · rw [if_neg hle]
        have ht : lt y x = true := by simpa using hle
        have hRyx : Rel y x := hxy.2 ht
        refine List.Pairwise.cons ?_ (ihR hL (List.pairwise_cons.1 hR).2
          (fun a ha b hb => hcross a ha b (List.mem_cons_of_mem _ hb)))
        intro z hz
        rcases List.mem_merge.1 hz with hz | hz
        · rcases List.mem_cons.1 hz with rfl | hz'
          · exact hRyx
          · exact htrans _ _ _ hRyx ((List.pairwise_cons.1 hL).1 z hz')
        · exact (List.pairwise_cons.1 hR).1 z hz

/-- The list-level merge sort gives a list sorted for `Rel`, when every
decision between an element and a later one agrees with `Rel`. -/
theorem mergeSortList_pairwise {Rel : α → α → Prop}
    (htrans : ∀ a b c, Rel a b → Rel b c → Rel a c) :
    ∀ (d : Nat) (M : List α), M.length = d →
      M.Pairwise (fun x y => (lt y x = false → Rel x y) ∧ (lt y x = true → Rel y x)) →
      (mergeSortList lt M).Pairwise Rel := by
  intro d
  induction d using Nat.strong_induction_on with
  | _ d ih =>
    intro M hd hM
    rw [mergeSortList]
    by_cases h : M.length ≤ 1
    · rw [if_pos h]
      match M, h with
      | [], _ => exact List.Pairwise.nil
      | [a], _ => exact List.pairwise_singleton _ _
    · rw [if_neg h]
      have hM' := hM
      rw [← List.take_append_drop ((M.length - 1) / 2 + 1) M, List.pairwise_append] at hM'
      obtain ⟨h1, h2, h12⟩ := hM'
      have p1 := mergeSortList_perm lt _ (M.take ((M.length - 1) / 2 + 1)) rfl
      have p2 := mergeSortList_perm lt _ (M.drop ((M.length - 1) / 2 + 1)) rfl
      exact pairwise_merge htrans _ _
        (ih _ (by rw [List.length_take]; omega) _ rfl h1)
        (ih _ (by rw [List.length_drop]; omega) _ rfl h2)
        (fun x hx y hy => h12 x (p1.subset hx) y (p2.subset hy))

/-- Merge sort returns a sorted permutation of a vector whose length fits in `int`. -/
theorem mergeSort_spec (hs : StrictWeak lt) (arr : List α) (hsz : arr.length ≤ INT_MAX) :
    mergeSort lt arr 0 ((arr.length : Int) - 1) = .ok (mergeSortList lt arr) ∧
      (mergeSortList lt arr).Perm arr ∧ SortedAll lt (mergeSortList lt arr) := by
  have hrun := mergeSort_frame lt _ arr [] [] rfl (by rw [List.length_nil]; omega)
  simp only [List.nil_append, List.append_nil, List.length_nil, Int.ofNat_zero, zero_add,
    Int.Nat.cast_ofNat_Int] at hrun
  refine ⟨hrun, mergeSortList_perm lt _ arr rfl, ?_⟩
  unfold SortedAll
  have htrans : ∀ a b c : α, lt b a = false → lt c b = false → lt c a = false :=
    fun a b c hab hbc => hs.le_trans hab hbc
  refine @mergeSortList_pairwise _ lt (fun x y => lt y x = false) htrans _ arr rfl ?_
  exact List.pairwise_of_forall (fun x y => ⟨fun h => h, fun h => hs.asymm h⟩)

end Merge5

section Merge6
variable {α : Type} {lt : α → α → Bool}

end Merge6

/-! ## Sorting a sorted vector -/

section Fixed
variable {α : Type} {lt : α → α → Bool}

/-- Two sorted permutations of each other are equal, when elements that the
comparator does not separate are equal. -/
theorem eq_of_perm_of_sortedAll (hanti : ∀ a b, lt a b = false → lt b a = false → a = b)
    {R S : List α} (hperm : R.Perm S) (hR : SortedAll lt R) (hS : SortedAll lt S) : R = S := by
  haveI : IsAntisymm α (fun x y => lt y x = false) := ⟨fun a b hab hba => hanti a b hba hab⟩
  exact List.eq_of_perm_of_sorted hperm hR hS

theorem bubbleSort_of_sorted (hs : StrictWeak lt)
    (hanti : ∀ a b, lt a b = false → lt b a = false → a = b) (S : List α) (hne : S ≠ [])
    (hsorted : SortedAdj lt S) : bubbleSort lt S = .ok S := by
  obtain ⟨R, hrun, hperm, hR⟩ := bubbleSort_spec hs S hne
  rw [hrun, eq_of_perm_of_sortedAll hanti hperm hR (hsorted.sortedAll hs)]

theorem heapSort_of_sorted (hs : StrictWeak lt)
    (hanti : ∀ a b, lt a b = false → lt b a = false → a = b) (S : List α)
    (hsz : 2 * S.length ≤ INT_MAX) (hsorted : SortedAdj lt S) : heapSort lt S = .ok S := by
  obtain ⟨R, hrun, hperm, hR⟩ := heapSort_spec hs S hsz
  rw [hrun, eq_of_perm_of_sortedAll hanti hperm hR (hsorted.sortedAll hs)]

theorem mergeSort_of_sorted (hs : StrictWeak lt)
    (hanti : ∀ a b, lt a b = false → lt b a = false → a = b) (S : List α)
    (hsz : S.length ≤ INT_MAX) (hsorted : SortedAdj lt S) :
    mergeSort lt S 0 ((S.length : Int) - 1) = .ok S := by
  obtain ⟨hrun, hperm, hR⟩ := mergeSort_spec hs S hsz
  rw [hrun, eq_of_perm_of_sortedAll hanti hperm hR (hsorted.sortedAll hs)]

end Fixed

theorem strLt_replicate (c : Char) : ∀ (i j : Nat), i < j →
    strLt (List.replicate i c) (List.replicate j c) = true := by
  intro i
  induction i with
  | zero =>
    intro j hj
    obtain ⟨k, rfl⟩ : ∃ k, j = k + 1 := ⟨j - 1, by omega⟩
    rfl
  | succ i ih =>
    intro j hj
    obtain ⟨k, rfl⟩ : ∃ k, j = k + 1 := ⟨j - 1, by omega⟩
    rw [List.replicate_succ, List.replicate_succ, strLt, if_neg (lt_irrefl c),
      if_neg (lt_irrefl c)]
    exact ih k (by omega)

theorem ascendingRecord_lt {i j : Nat} (h : i < j) :
    Employee.lt (ascendingRecord i) (ascendingRecord j) = true := by
  have hd : sLt (ascendingRecord i).department (ascendingRecord j).department = true :=
    strLt_replicate 'a' i j h
  unfold Employee.lt
  rw [if_pos hd]

theorem ascendingRows_length (n : Nat) : (ascendingRows n).length = n := by
  rw [ascendingRows, List.length_map, List.length_range]

theorem ascendingRows_getElem? {n i : Nat} (h : i < n) :
    (ascendingRows n)[i]? = some (ascendingRecord i) := by
  rw [ascendingRows, List.getElem?_map, List.getElem?_range h]
  rfl

theorem ascendingRows_sorted (n : Nat) : SortedAdj Employee.lt (ascendingRows n) := by
  apply SortedAll.sortedAdj
  unfold SortedAll ascendingRows
  rw [List.pairwise_map]
  exact (List.pairwise_lt_range n).imp (fun h => Employee.lt_asymm (ascendingRecord_lt h))

theorem ascendingRows_distinct (n : Nat) : DistinctKeys (ascendingRows n) := by
  unfold DistinctKeys ascendingRows
  rw [List.pairwise_map]
  refine (List.pairwise_lt_range n).imp (fun {i j} h hkey => ?_)
  have hlt := ascendingRecord_lt h
  rw [Employee.lt_iff_key, hkey, ← Employee.lt_iff_key, Employee.lt_irrefl] at hlt
  exact Bool.noConfusion hlt

/-! ## Claims about the comparator -/

/-- C1: for all records A and B, `operator<` returns true exactly when the
composite key (department, fullName, hireDate, position) of A is strictly
below that of B in lexicographic order, each component compared as a raw
string (no parsing of hireDate). -/
theorem operator_lt_is_lexicographic (A B : Employee) :
    Employee.lt A B = true ↔ KeyLt (compositeKey A) (compositeKey B) :=
  Employee.lt_iff_key A B

/-- C2: `operator<` is a strict weak ordering: irreflexive, asymmetric,
transitive, and incomparability is transitive. -/
theorem operator_lt_strict_weak_ordering :
    (∀ A : Employee, A.lt A = false) ∧
    (∀ A B : Employee, A.lt B = true → B.lt A = false) ∧
    (∀ A B C : Employee, A.lt B = true → B.lt C = true → A.lt C = true) ∧
    (∀ A B C : Employee, (A.lt B = false ∧ B.lt A = false) →
      (B.lt C = false ∧ C.lt B = false) → (A.lt C = false ∧ C.lt A = false)) :=
  ⟨Employee.lt_irrefl, fun _ _ => Employee.lt_asymm, fun _ _ _ => Employee.lt_trans,
    fun A B C h1 h2 => Employee.strictWeak.incomp A B C h1.1 h1.2 h2.1 h2.2⟩

/-- C7: comparator ties are fully resolved by the composite key: neither
A < B nor B < A holds if and only if A and B agree on all four fields, and
exactly one of A < B, A = B (field-wise), B < A holds. -/
theorem ties_resolved_by_key (A B : Employee) :
    ((A.lt B = false ∧ B.lt A = false) ↔ SameFields A B) ∧
    ExactlyOne (A.lt B = true) (SameFields A B) (B.lt A = true) := by
  have hiff : (A.lt B = false ∧ B.lt A = false) ↔ SameFields A B := by
    rw [Employee.sameFields_iff]
    constructor
    · rintro ⟨h1, h2⟩
      exact Employee.eq_of_not_lt h1 h2
    · rintro rfl
      exact ⟨Employee.lt_irrefl _, Employee.lt_irrefl _⟩
  refine ⟨hiff, ?_⟩
  unfold ExactlyOne
  rw [← hiff]
  cases h1 : A.lt B with
  | true =>
    have h2 := Employee.lt_asymm h1
    simp [h2]
  | false =>
    cases h2 : B.lt A <;> simp

/-- C8: the derived relations agree with the base ordering: A > B iff B < A;
A <= B iff A < B or the records are field-wise equal; A >= B iff A > B or the
records are field-wise equal; and exactly one of A < B, A > B,
(A <= B and A >= B) holds. -/
theorem derived_relations_consistent (A B : Employee) :
    (A.gt B = true ↔ B.lt A = true) ∧
    (A.le B = true ↔ (A.lt B = true ∨ SameFields A B)) ∧
    (A.ge B = true ↔ (A.gt B = true ∨ SameFields A B)) ∧
    ExactlyOne (A.lt B = true) (A.gt B = true) (A.le B = true ∧ A.ge B = true) := by
  have hsame : SameFields A B ↔ (A.lt B = false ∧ B.lt A = false) := by
    rw [Employee.sameFields_iff]
    constructor
    · rintro rfl
      exact ⟨Employee.lt_irrefl _, Employee.lt_irrefl _⟩
    · rintro ⟨h1, h2⟩
      exact Employee.eq_of_not_lt h1 h2
  unfold ExactlyOne
  rw [hsame]
  unfold Employee.gt Employee.le Employee.ge
  cases h1 : A.lt B with
  | true =>
    have h2 := Employee.lt_asymm h1
    simp [h2]
  | false =>
    cases h2 : B.lt A <;> simp

/-! ## Claims about bubble sort -/

/-- C3: for every non-empty sequence S of records, `bubbleSort` returns (no
fault), and the sequence it leaves is a permutation of S, has the length of
S, and is sorted non-decreasing: no element is followed by a smaller one. -/
theorem bubbleSort_sorted_permutation (S : List Employee) (hne : S ≠ []) :
    ∃ R, bubbleSort Employee.lt S = .ok R ∧ R.Perm S ∧ R.length = S.length ∧
      SortedAdj Employee.lt R := by
  obtain ⟨R, hrun, hperm, hsorted⟩ := bubbleSort_spec Employee.strictWeak S hne
  exact ⟨R, hrun, hperm, hperm.length_eq, hsorted.sortedAdj⟩

/-- Witness of C3 on a three-record sequence. -/
theorem bubbleSort_sorted_permutation_witness :
    sampleRows ≠ [] ∧
    ∃ R, bubbleSort Employee.lt sampleRows = .ok R ∧ R.Perm sampleRows ∧
      R.length = sampleRows.length ∧ SortedAdj Employee.lt R :=
  ⟨by decide, bubbleSort_sorted_permutation sampleRows (by decide)⟩

/-- C6: on the empty sequence `bubbleSort` is not a no-op: with `n = 0` the
loop bounds `n - 1` and `n - i - 1` wrap to `2 ^ 64 - 1`, both loops are
entered, and the first comparison reads `arr[0]` and `arr[1]` outside the
vector. -/
theorem bubbleSort_empty_out_of_bounds :
    subSize 0 1 = 18446744073709551615 ∧
    bubbleSort Employee.lt [] = .error .outOfBounds :=
  ⟨by decide, bubbleSort_nil Employee.lt⟩

/-! ## Claims about heap sort -/

/-- C4 (as stated, refuted): a sequence of `2 ^ 30 + 2` records has a length that
fits in a signed 32-bit `int`, yet `heapSort` does not return a sorted
permutation of it: the first `heapify` call moves to index `2 ^ 30 + 1`, whose
child index `2 * i + 1` is outside the range of `int`. -/
theorem heapSort_int_length_counterexample :
    heapOverflowInput.length = 1073741826 ∧ heapOverflowInput.length ≤ INT_MAX ∧
    heapSort Employee.lt heapOverflowInput = .error .intOverflow ∧
    ¬ ∃ R, heapSort Employee.lt heapOverflowInput = .ok R ∧ R.Perm heapOverflowInput ∧
      SortedAdj Employee.lt R := by
  have hlen : heapOverflowInput.length = 1073741826 := by
    rw [heapOverflowInput, List.length_append, List.length_replicate]
    rfl
  have herr : heapSort Employee.lt heapOverflowInput = .error .intOverflow := by
    refine heapSort_child_index_overflow 536870912 _ ⟨"Ann", "Sales", "Clerk", "2019-03-01"⟩
      ⟨"Bob", "Sales", "Clerk", "2020-01-05"⟩ hlen ?_ ?_ (by decide) (by decide) (by decide)
    · rw [heapOverflowInput, List.getElem?_append_left (by rw [List.length_replicate]; decide),
        List.getElem?_replicate, if_pos (by decide)]
    · rw [heapOverflowInput, List.getElem?_append_right (by rw [List.length_replicate]),
        List.length_replicate, Nat.sub_self]
      rfl
  refine ⟨hlen, ?_, herr, ?_⟩
  · rw [hlen]
    decide
  · rintro ⟨R, hR, _⟩
    rw [herr] at hR
    exact Except.noConfusion hR

/-- C4 (amended): for every sequence S of records whose doubled length fits in
a signed 32-bit `int` (length below `2 ^ 30`), `heapSort` returns (no fault),
and the sequence it leaves is a permutation of S, has the length of S, and is
sorted non-decreasing under the comparator. -/
theorem heapSort_sorted_permutation (S : List Employee) (hsz : 2 * S.length ≤ INT_MAX) :
    ∃ R, heapSort Employee.lt S = .ok R ∧ R.Perm S ∧ R.length = S.length ∧
      SortedAdj Employee.lt R := by
  obtain ⟨R, hrun, hperm, hsorted⟩ := heapSort_spec Employee.strictWeak S hsz
  exact ⟨R, hrun, hperm, hperm.length_eq, hsorted.sortedAdj⟩

/-- Witness of C4 (amended) on a three-record sequence. -/
theorem heapSort_sorted_permutation_witness :
    2 * sampleRows.length ≤ INT_MAX ∧
    ∃ R, heapSort Employee.lt sampleRows = .ok R ∧ R.Perm sampleRows ∧
      R.length = sampleRows.length ∧ SortedAdj Employee.lt R :=
  ⟨by decide, heapSort_sorted_permutation sampleRows (by decide)⟩

/-! ## Claims about merge sort -/

/-- C5: for every sequence S of records of length n, with n fitting in a
signed 32-bit `int`, `mergeSort(S, 0, n - 1)` returns (no fault), and the
sequence it leaves is a permutation of S, has the length of S, and is sorted
non-decreasing under the comparator. -/
theorem mergeSort_sorted_permutation (S : List Employee) (hsz : S.length ≤ INT_MAX) :
    ∃ R, mergeSort Employee.lt S 0 ((S.length : Int) - 1) = .ok R ∧ R.Perm S ∧
      R.length = S.length ∧ SortedAdj Employee.lt R := by
  obtain ⟨hrun, hperm, hsorted⟩ := mergeSort_spec Employee.strictWeak S hsz
  exact ⟨_, hrun, hperm, hperm.length_eq, hsorted.sortedAdj⟩

/-- Witness of C5 on a three-record sequence. -/
theorem mergeSort_sorted_permutation_witness :
    sampleRows.length ≤ INT_MAX ∧
    ∃ R, mergeSort Employee.lt sampleRows 0 ((sampleRows.length : Int) - 1) = .ok R ∧
      R.Perm sampleRows ∧ R.length = sampleRows.length ∧ SortedAdj Employee.lt R :=
  ⟨by decide, mergeSort_sorted_permutation sampleRows (by decide)⟩

/-- C10 (as stated, refuted): the empty sequence is sorted and has distinct
keys, yet `bubbleSort` does not leave it unchanged (it reads outside the
vector); and a sorted sequence of `2 ^ 30 + 2` records with distinct keys,
whose length fits in `int`, is not left unchanged by `heapSort` (a child
index leaves the range of `int`). -/
theorem sorted_input_counterexample :
    (SortedAdj Employee.lt [] ∧ DistinctKeys [] ∧
      bubbleSort Employee.lt [] = .error .outOfBounds) ∧
    (SortedAdj Employee.lt (ascendingRows (2 * 536870912 + 2)) ∧
      DistinctKeys (ascendingRows (2 * 536870912 + 2)) ∧
      (ascendingRows (2 * 536870912 + 2)).length ≤ INT_MAX ∧
      heapSort Employee.lt (ascendingRows (2 * 536870912 + 2)) = .error .intOverflow) := by
  have hsorted := ascendingRows_sorted (2 * 536870912 + 2)
  have hkeys := ascendingRows_distinct (2 * 536870912 + 2)
  have hlen := ascendingRows_length (2 * 536870912 + 2)
  refine ⟨⟨List.chain'_nil, List.Pairwise.nil, bubbleSort_nil Employee.lt⟩,
    hsorted, hkeys, ?_, ?_⟩
  · rw [hlen]
    decide
  · have hp : 536870912 < 2 * 536870912 + 2 := by decide
    have hc : 2 * 536870912 + 1 < 2 * 536870912 + 2 := by decide
    have hpc : 536870912 < 2 * 536870912 + 1 := by decide
    exact heapSort_child_index_overflow 536870912 (ascendingRows (2 * 536870912 + 2))
      (ascendingRecord 536870912) (ascendingRecord (2 * 536870912 + 1))
      hlen (ascendingRows_getElem? hp) (ascendingRows_getElem? hc)
      (ascendingRecord_lt hpc) (by decide) (by decide)

/-- C10 (amended): for every sequence S of records that is already sorted
non-decreasing under the comparator and has pairwise distinct composite keys,
`bubbleSort(S)` when S is not empty, `heapSort(S)` when the doubled length of
S fits in `int`, and `mergeSort(S, 0, n - 1)` when the length n of S fits in
`int`, each return S itself, element for element. (Distinct keys are not
needed: records with equal keys are equal records.) -/
theorem sorted_input_unchanged (S : List Employee) (hsorted : SortedAdj Employee.lt S)
    (_hkeys : DistinctKeys S) :
    (S ≠ [] → bubbleSort Employee.lt S = .ok S) ∧
    (2 * S.length ≤ INT_MAX → heapSort Employee.lt S = .ok S) ∧
    (S.length ≤ INT_MAX → mergeSort Employee.lt S 0 ((S.length : Int) - 1) = .ok S) :=
  ⟨fun hne => bubbleSort_of_sorted Employee.strictWeak (fun _ _ => Employee.eq_of_not_lt) S hne
      hsorted,
    fun hsz => heapSort_of_sorted Employee.strictWeak (fun _ _ => Employee.eq_of_not_lt) S hsz
      hsorted,
    fun hsz => mergeSort_of_sorted Employee.strictWeak (fun _ _ => Employee.eq_of_not_lt) S hsz
      hsorted⟩

/-- Witness of C10 (amended) on a sorted three-record sequence. -/
theorem sorted_input_unchanged_witness :
    SortedAdj Employee.lt sortedRows ∧ DistinctKeys sortedRows ∧
    (sortedRows ≠ [] → bubbleSort Employee.lt sortedRows = .ok sortedRows) ∧
    (2 * sortedRows.length ≤ INT_MAX → heapSort Employee.lt sortedRows = .ok sortedRows) ∧
    (sortedRows.length ≤ INT_MAX →
      mergeSort Employee.lt sortedRows 0 ((sortedRows.length : Int) - 1) = .ok sortedRows) :=
  have h1 : SortedAdj Employee.lt sortedRows :=
    List.chain'_cons.2 ⟨by decide, List.chain'_cons.2 ⟨by decide, List.chain'_singleton _⟩⟩
  have h2 : DistinctKeys sortedRows := by
    unfold DistinctKeys sortedRows
    decide
  ⟨h1, h2, sorted_input_unchanged sortedRows h1 h2⟩

/-! ## Facts about reading and writing CSV text -/

theorem takeUntil_append (d : Char) : ∀ (xs rest : List Char), d ∉ xs →
    takeUntil d (xs ++ d :: rest) = xs := by
  intro xs
  induction xs with
  | nil =>
    intro rest _
    simp [takeUntil]
  | cons c cs ih =>
    intro rest h
    have hc : c ≠ d := fun e => h (e ▸ List.mem_cons_self _ _)
    have hcs : d ∉ cs := fun e => h (List.mem_cons_of_mem _ e)
    rw [List.cons_append, takeUntil, if_neg hc, ih rest hcs]

theorem dropUntil_append (d : Char) : ∀ (xs rest : List Char), d ∉ xs →
    dropUntil d (xs ++ d :: rest) = some rest := by
  intro xs
  induction xs with
  | nil =>
    intro rest _
    simp [dropUntil]
  | cons c cs ih =>
    intro rest h
    have hc : c ≠ d := fun e => h (e ▸ List.mem_cons_self _ _)
    have hcs : d ∉ cs := fun e => h (List.mem_cons_of_mem _ e)
    rw [List.cons_append, dropUntil, if_neg hc, ih rest hcs]

theorem takeUntil_of_not_mem (d : Char) : ∀ (xs : List Char), d ∉ xs → takeUntil d xs = xs := by
  intro xs
  induction xs with
  | nil =>
    intro _
    rfl
  | cons c cs ih =>
    intro h
    have hc : c ≠ d := fun e => h (e ▸ List.mem_cons_self _ _)
    have hcs : d ∉ cs := fun e => h (List.mem_cons_of_mem _ e)
    rw [takeUntil, if_neg hc, ih hcs]

theorem dropUntil_of_not_mem (d : Char) : ∀ (xs : List Char), d ∉ xs → dropUntil d xs = none := by
  intro xs
  induction xs with
  | nil =>
    intro _
    rfl
  | cons c cs ih =>
    intro h
    have hc : c ≠ d := fun e => h (e ▸ List.mem_cons_self _ _)
    have hcs : d ∉ cs := fun e => h (List.mem_cons_of_mem _ e)
    rw [dropUntil, if_neg hc, ih hcs]

/-- One `getline` with `','` on a line of comma-separated fields reads the
first field and leaves the other fields. -/
theorem getline_joinFields (fields : List (List Char)) (hf : ∀ f ∈ fields, ',' ∉ f) :
    (getline (some (joinFields fields)) [] ',').1 = fields.headD [] ∧
    (getline (some (joinFields fields)) [] ',').2.1 = fieldsStream fields.tail := by
  match fields, hf with
  | [], _ => exact ⟨rfl, rfl⟩
  | [f], hf =>
    have h : ',' ∉ f := hf f (List.mem_singleton_self f)
    exact ⟨takeUntil_of_not_mem ',' f h, dropUntil_of_not_mem ',' f h⟩
  | f :: g :: fs, hf =>
    have h : ',' ∉ f := hf f (List.mem_cons_self _ _)
    exact ⟨takeUntil_append ',' f _ h, dropUntil_append ',' f _ h⟩

theorem getline_fieldsStream (fields : List (List Char)) (hf : ∀ f ∈ fields, ',' ∉ f) :
    (getline (fieldsStream fields) [] ',').1 = fields.headD [] ∧
    (getline (fieldsStream fields) [] ',').2.1 = fieldsStream fields.tail := by
  match fields, hf with
  | [], _ => exact ⟨rfl, rfl⟩
  | f :: fs, hf => exact getline_joinFields (f :: fs) hf

/-- Row parsing on a line of comma-separated fields: the record holds the
first four fields, an absent field being empty. -/
theorem parseRow_joinFields (fields : List (List Char)) (hf : ∀ f ∈ fields, ',' ∉ f) :
    parseRow (joinFields fields) =
      ⟨String.mk (fields.getD 0 []), String.mk (fields.getD 1 []),
        String.mk (fields.getD 2 []), String.mk (fields.getD 3 [])⟩ := by
  have hsub : ∀ k, ∀ f ∈ fields.drop k, ',' ∉ f :=
    fun k f hfk => hf f (List.mem_of_mem_drop hfk)
  have h1 := getline_joinFields fields hf
  have h2 := getline_fieldsStream fields.tail (by
    intro f hfm
    exact hf f (List.mem_of_mem_tail hfm))
  have h3 := getline_fieldsStream fields.tail.tail (by
    intro f hfm
    exact hf f (List.mem_of_mem_tail (List.mem_of_mem_tail hfm)))
  have h4 := getline_fieldsStream fields.tail.tail.tail (by
    intro f hfm
    exact hf f (List.mem_of_mem_tail (List.mem_of_mem_tail (List.mem_of_mem_tail hfm))))
  unfold parseRow
  simp only [h1.1, h1.2, h2.1, h2.2, h3.1, h3.2, h4.1]
  match fields with
  | [] => rfl
  | [_] => rfl
  | [_, _] => rfl
  | [_, _, _] => rfl
  | _ :: _ :: _ :: _ :: _ => rfl

theorem readRows_nil : readRows (some []) = [] := by
  rw [readRows]
  rfl

/-- A line that ends with a newline makes the loop of `read_csv` push exactly one record. -/
theorem readRows_line (line rest : List Char) (hl : '\n' ∉ line) :
    readRows (some (line ++ '\n' :: rest)) = parseRow line :: readRows (some rest) := by
  rw [readRows]
  have hne : (line ++ '\n' :: rest).isEmpty = false := by
    cases line <;> rfl
  simp only [hne, takeUntil_append '\n' line rest hl, dropUntil_append '\n' line rest hl]
  rfl

/-- A last line without a newline is read too, when it is not empty. -/
theorem readRows_last (line : List Char) (hl : '\n' ∉ line) (hne : line ≠ []) :
    readRows (some line) = [parseRow line] := by
  rw [readRows]
  have hne2 : line.isEmpty = false := by
    cases line with
    | nil => exact absurd rfl hne
    | cons _ _ => rfl
  simp only [hne2, takeUntil_of_not_mem '\n' line hl, dropUntil_of_not_mem '\n' line hl]
  rw [readRows]
  rfl

theorem readRows_lines (lines : List (List Char)) (hl : ∀ l ∈ lines, '\n' ∉ l) :
    readRows (some ((lines.map (fun l => l ++ ['\n'])).flatten)) = lines.map parseRow := by
  induction lines with
  | nil => exact readRows_nil
  | cons l ls ih =>
    rw [List.map_cons, List.flatten_cons, List.append_assoc, List.singleton_append,
      readRows_line l _ (hl l (List.mem_cons_self _ _)),
      ih (fun x hx => hl x (List.mem_cons_of_mem _ hx)), List.map_cons]

/-- Function `read_csv` on a text made of a header line and of lines that
each end with a newline: one record for every line after the header. -/
theorem read_csv_lines (header : List Char) (lines : List (List Char)) (hh : '\n' ∉ header)
    (hl : ∀ l ∈ lines, '\n' ∉ l) :
    read_csv (some (header ++ '\n' :: (lines.map (fun l => l ++ ['\n'])).flatten)) =
      lines.map parseRow := by
  unfold read_csv getline
  simp only [dropUntil_append '\n' header _ hh]
  exact readRows_lines lines hl

theorem read_csv_unreadable : read_csv none = [] := by
  unfold read_csv getline
  simp only
  rw [readRows]

theorem csvLine_eq (e : Employee) : csvLine e = joinFields (recordFields e) ++ ['\n'] := by
  simp [csvLine, recordFields, joinFields]

theorem not_mem_joinFields (d : Char) (hd : d ≠ ',') :
    ∀ (fields : List (List Char)), (∀ f ∈ fields, d ∉ f) → d ∉ joinFields fields := by
  intro fields
  induction fields with
  | nil =>
    intro _ h
    cases h
  | cons f fs ih =>
    intro hf
    cases fs with
    | nil => exact hf f (List.mem_singleton_self f)
    | cons g gs =>
      rw [joinFields]
      intro hmem
      rcases List.mem_append.1 hmem with h | h
      · exact hf f (List.mem_cons_self _ _) h
      · rcases List.mem_cons.1 h with h | h
        · exact hd h
        · exact ih (fun x hx => hf x (List.mem_cons_of_mem _ hx)) h

theorem parseRow_recordFields (e : Employee) (he : PlainFields e) :
    parseRow (joinFields (recordFields e)) = e := by
  rw [parseRow_joinFields]
  · rfl
  · intro f hf
    simp only [recordFields, List.mem_cons, List.mem_singleton, List.not_mem_nil, or_false] at hf
    rcases hf with rfl | rfl | rfl | rfl
    · exact (he e.fullName (by simp)).1
    · exact (he e.department (by simp)).1
    · exact (he e.position (by simp)).1
    · exact (he e.hireDate (by simp)).1

theorem newline_not_mem_recordFields (e : Employee) (he : PlainFields e) :
    '\n' ∉ joinFields (recordFields e) := by
  apply not_mem_joinFields '\n' (by decide)
  intro f hf
  simp only [recordFields, List.mem_cons, List.mem_singleton, List.not_mem_nil, or_false] at hf
  rcases hf with rfl | rfl | rfl | rfl
  · exact (he e.fullName (by simp)).2
  · exact (he e.department (by simp)).2
  · exact (he e.position (by simp)).2
  · exact (he e.hireDate (by simp)).2

theorem read_csv_write_csv (rows : List Employee) (h : ∀ e ∈ rows, PlainFields e) :
    read_csv (some (write_csv rows)) = rows := by
  have hmap : rows.map csvLine =
      (rows.map (fun e => joinFields (recordFields e))).map (fun l => l ++ ['\n']) := by
    rw [List.map_map]
    exact List.map_congr_left (fun e _ => csvLine_eq e)
  unfold write_csv
  rw [hmap, read_csv_lines csvHeader _ (by decide) (by
    intro l hl
    obtain ⟨e, he, rfl⟩ := List.mem_map.1 hl
    exact newline_not_mem_recordFields e (h e he)), List.map_map]
  conv_rhs => rw [← List.map_id rows]
  exact List.map_congr_left (fun e he => parseRow_recordFields e (h e he))

/-! ## Claims about CSV input and output -/

/-- C17: permissive row parsing. For every line made of any number k of
comma-separated fields (k = 0 is the empty line), row parsing gives the
record whose fields fullName, department, position, hireDate are the first
four fields of the line in this order, a field that the line does not have
being the empty string: with k < 4 the first k fields are the line's and the
others are empty, with k > 4 the fields after the fourth are ignored. No
error is raised, and the loop of `read_csv` pushes exactly one record for the
line. -/
theorem permissive_row_parsing (fields : List (List Char)) (rest : List Char)
    (hf : ∀ f ∈ fields, ',' ∉ f ∧ '\n' ∉ f) :
    parseRow (joinFields fields) =
      ⟨String.mk (fields.getD 0 []), String.mk (fields.getD 1 []),
        String.mk (fields.getD 2 []), String.mk (fields.getD 3 [])⟩ ∧
    readRows (some (joinFields fields ++ '\n' :: rest)) =
      parseRow (joinFields fields) :: readRows (some rest) :=
  ⟨parseRow_joinFields fields (fun f h => (hf f h).1),
    readRows_line _ rest (not_mem_joinFields '\n' (by decide) fields (fun f h => (hf f h).2))⟩

/-- Witness of C17 on a line with two fields. -/
theorem permissive_row_parsing_witness :
    (∀ f ∈ ["Ann".data, "Sales".data], ',' ∉ f ∧ '\n' ∉ f) ∧
    parseRow (joinFields ["Ann".data, "Sales".data]) =
      ⟨String.mk (["Ann".data, "Sales".data].getD 0 []),
        String.mk (["Ann".data, "Sales".data].getD 1 []),
        String.mk (["Ann".data, "Sales".data].getD 2 []),
        String.mk (["Ann".data, "Sales".data].getD 3 [])⟩ ∧
    readRows (some (joinFields ["Ann".data, "Sales".data] ++ '\n' :: [])) =
      parseRow (joinFields ["Ann".data, "Sales".data]) :: readRows (some []) :=
  have h : ∀ f ∈ ["Ann".data, "Sales".data], ',' ∉ f ∧ '\n' ∉ f := by decide
  ⟨h, permissive_row_parsing ["Ann".data, "Sales".data] [] h⟩

/-- C20: CSV round trip. For every sequence of records in which no field
contains a comma or a newline, `read_csv` applied to the text written by
`write_csv` gives back the same sequence of records. -/
theorem csv_round_trip (rows : List Employee) (h : ∀ e ∈ rows, PlainFields e) :
    read_csv (some (write_csv rows)) = rows :=
  read_csv_write_csv rows h

/-- Witness of C20 on a three-record sequence. -/
theorem csv_round_trip_witness :
    (∀ e ∈ sampleRows, PlainFields e) ∧ read_csv (some (write_csv sampleRows)) = sampleRows :=
  have h : ∀ e ∈ sampleRows, PlainFields e := by
    unfold sampleRows PlainFields
    decide
  ⟨h, csv_round_trip sampleRows h⟩

/-! ## Claim about the end-to-end scenario -/

theorem sortedRows_perm : sortedRows.Perm sampleRows := by
  unfold sortedRows sampleRows
  decide

theorem sortedRows_sorted : SortedAll Employee.lt sortedRows := by
  unfold SortedAll sortedRows
  decide

/-- C11: end-to-end scenario. Row parsing turns the three rows into the
records Bob (Sales), Ann (Sales), Zoe (Eng), in this order, and so does
`read_csv` on the file made of a header and the three rows; sorting this
sequence with `bubbleSort`, with `heapSort` or with `mergeSort(arr, 0, 2)`
returns exactly Zoe (Eng), Ann (Sales), Bob (Sales). -/
theorem end_to_end_scenario :
    scenarioLines.map parseRow = sampleRows ∧
    read_csv (some (csvHeader ++ '\n' :: (scenarioLines.map (fun l => l ++ ['\n'])).flatten)) =
      scenarioLines.map parseRow ∧
    bubbleSort Employee.lt (scenarioLines.map parseRow) = .ok sortedRows ∧
    heapSort Employee.lt (scenarioLines.map parseRow) = .ok sortedRows ∧
    mergeSort Employee.lt (scenarioLines.map parseRow) 0 2 = .ok sortedRows := by
  have hparse : scenarioLines.map parseRow = sampleRows := by decide
  have hanti : ∀ a b : Employee, a.lt b = false → b.lt a = false → a = b :=
    fun _ _ => Employee.eq_of_not_lt
  refine ⟨hparse, read_csv_lines csvHeader scenarioLines (by decide) (by decide), ?_, ?_, ?_⟩
  · rw [hparse]
    obtain ⟨R, hrun, hperm, hR⟩ := bubbleSort_spec Employee.strictWeak sampleRows (by decide)
    rw [hrun, eq_of_perm_of_sortedAll hanti (hperm.trans sortedRows_perm.symm) hR
      sortedRows_sorted]
  · rw [hparse]
    obtain ⟨R, hrun, hperm, hR⟩ := heapSort_spec Employee.strictWeak sampleRows (by decide)
    rw [hrun, eq_of_perm_of_sortedAll hanti (hperm.trans sortedRows_perm.symm) hR
      sortedRows_sorted]
  · rw [hparse]
    obtain ⟨hrun, hperm, hR⟩ := mergeSort_spec Employee.strictWeak sampleRows (by decide)
    have h2 : ((sampleRows.length : Int) - 1) = 2 := by decide
    rw [h2] at hrun
    rw [hrun, eq_of_perm_of_sortedAll hanti (hperm.trans sortedRows_perm.symm) hR
      sortedRows_sorted]

/-! ## Facts about the driver -/

theorem runSort_standart (stdSort : List Employee → List Employee) (l : List Employee) :
    runSort stdSort "standart" l = .ok (stdSort l) := by
  unfold runSort
  rw [if_neg (by decide), if_neg (by decide), if_neg (by decide), if_pos rfl]

theorem driverLoop_cons (stdSort : List Employee → List Employee) (fs : Files) (s : String)
    (rest : List String) {fsEnd : Files} {steps : List DriverStep}
    (h : driverLoop stdSort "standart"
      (fs.write (s ++ "_sorted.csv") (write_csv (stdSort (read_csv (fs s))))) rest =
        .ok (fsEnd, steps)) :
    driverLoop stdSort "standart" fs (s :: rest) =
      .ok (fsEnd, ⟨s, s ++ "_sorted.csv", write_csv (stdSort (read_csv (fs s)))⟩ :: steps) := by
  rw [driverLoop, runSort_standart]
  show (driverLoop stdSort "standart" _ rest).bind _ = _
  rw [h]
  rfl

/-- The driver with `std::sort`, step by step: each source is read from the
file system as the earlier iterations left it. -/
theorem driverLoop_steps (stdSort : List Employee → List Employee) :
    ∀ (files : List String) (fs : Files), NoSourceIsEarlierOutput files →
      ∃ fsEnd, driverLoop stdSort "standart" fs files =
        .ok (fsEnd, files.map (fun s =>
          ⟨s, s ++ "_sorted.csv", write_csv (stdSort (read_csv (fs s)))⟩)) := by
  intro files
  induction files with
  | nil =>
    intro fs _
    exact ⟨fs, rfl⟩
  | cons s rest ih =>
    intro fs hno
    have hno' := List.pairwise_cons.1 hno
    obtain ⟨fsEnd, hrun⟩ := ih (fs.write (s ++ "_sorted.csv")
      (write_csv (stdSort (read_csv (fs s))))) hno'.2
    refine ⟨fsEnd, ?_⟩
    rw [driverLoop_cons stdSort fs s rest hrun, List.map_cons]
    congr 3
    apply List.map_congr_left
    intro t ht
    have hne : t ≠ s ++ "_sorted.csv" := hno'.1 t ht
    unfold Files.write
    rw [if_neg hne]

theorem write_csv_nil : write_csv [] = csvHeader ++ ['\n'] := rfl

theorem mergeSortList_singleton {α : Type} (lt : α → α → Bool) (x : α) :
    mergeSortList lt [x] = [x] := by
  rw [mergeSortList, if_pos (by simp)]

theorem mergeSortList_sortsCorrectly : SortsCorrectly (mergeSortList Employee.lt) := by
  intro l
  refine ⟨mergeSortList_perm _ _ l rfl, ?_⟩
  unfold SortedAll
  have htrans : ∀ a b c : Employee, Employee.lt b a = false → Employee.lt c b = false →
      Employee.lt c a = false :=
    fun a b c hab hbc => Employee.strictWeak.le_trans hab hbc
  refine @mergeSortList_pairwise _ Employee.lt (fun x y => Employee.lt y x = false) htrans _ l
    rfl ?_
  exact List.pairwise_of_forall (fun x y => ⟨fun h => h, fun h => Employee.strictWeak.asymm h⟩)

theorem sortsCorrectly_unique {stdSort : List Employee → List Employee}
    (hsort : SortsCorrectly stdSort) (l : List Employee) :
    stdSort l = mergeSortList Employee.lt l :=
  eq_of_perm_of_sortedAll (fun _ _ h1 h2 => Employee.eq_of_not_lt h1 h2)
    ((hsort l).1.trans (mergeSortList_sortsCorrectly l).1.symm) (hsort l).2
    (mergeSortList_sortsCorrectly l).2

theorem writeSteps_cons (fs : Files) (st : DriverStep) (steps : List DriverStep) :
    writeSteps fs (st :: steps) = writeSteps (fs.write st.dest st.content) steps := rfl

/-- Writes to other names leave a file as it is. -/
theorem writeSteps_of_ne (s : String) :
    ∀ (steps : List DriverStep) (fs : Files), (∀ st ∈ steps, st.dest ≠ s) →
      writeSteps fs steps s = fs s := by
  intro steps
  induction steps with
  | nil =>
    intro fs _
    rfl
  | cons st rest ih =>
    intro fs h
    rw [writeSteps_cons, ih _ (fun t ht => h t (List.mem_cons_of_mem _ ht))]
    unfold Files.write
    rw [if_neg (fun e => h st (List.mem_cons_self _ _) e.symm)]

/-- The driver with `std::sort` on any list of sources: it ends without a
fault, the file system at the end is the initial one updated by the writes
of the steps, and the step of the source at position `i` reads the file
system as the first `i` steps left it. -/
theorem driverLoop_run (stdSort : List Employee → List Employee) :
    ∀ (files : List String) (fs : Files),
      ∃ steps, driverLoop stdSort "standart" fs files = .ok (writeSteps fs steps, steps) ∧
        steps.map DriverStep.report = files ∧
        steps.map DriverStep.dest = files.map (fun s => s ++ "_sorted.csv") ∧
        ∀ (i : Nat) (s : String), files[i]? = some s →
          steps[i]? = some (⟨s, s ++ "_sorted.csv",
            write_csv (stdSort (read_csv (writeSteps fs (steps.take i) s)))⟩ : DriverStep) := by
  intro files
  induction files with
  | nil =>
    intro fs
    exact ⟨[], rfl, rfl, rfl, fun i s h => by simp at h⟩
  | cons s rest ih =>
    intro fs
    obtain ⟨steps, hrun, hrep, hdest, hstep⟩ := ih (fs.write (s ++ "_sorted.csv")
      (write_csv (stdSort (read_csv (fs s)))))
    refine ⟨⟨s, s ++ "_sorted.csv", write_csv (stdSort (read_csv (fs s)))⟩ :: steps, ?_, ?_, ?_,
      ?_⟩
    · rw [driverLoop_cons stdSort fs s rest hrun]
      rfl
    · rw [List.map_cons, hrep]
    · rw [List.map_cons, hdest, List.map_cons]
    · intro i t ht
      cases i with
      | zero =>
        rw [List.getElem?_cons_zero] at ht
        cases ht
        rw [List.getElem?_cons_zero, List.take_zero]
        rfl
      | succ i =>
        rw [List.getElem?_cons_succ] at ht
        rw [List.getElem?_cons_succ, List.take_succ_cons, writeSteps_cons]
        exact hstep i t ht

/-- Without a source named like an earlier output, every source is read as
it was at the start. -/
theorem writeSteps_take_of_noAlias (fs : Files) (files : List String)
    (steps : List DriverStep)
    (hdest : steps.map DriverStep.dest = files.map (fun s => s ++ "_sorted.csv"))
    (hno : NoSourceIsEarlierOutput files) (i : Nat) (s : String) (hs : files[i]? = some s) :
    writeSteps fs (steps.take i) s = fs s := by
  apply writeSteps_of_ne
  intro st hst
  have hmem : st.dest ∈ (steps.take i).map DriverStep.dest := List.mem_map_of_mem _ hst
  rw [List.map_take, hdest, ← List.map_take] at hmem
  obtain ⟨t, ht, hte⟩ := List.mem_map.1 hmem
  obtain ⟨j, hj, hjt⟩ := List.getElem_of_mem ht
  have hji : j < i := by
    rw [List.length_take] at hj
    omega
  have hil : i < files.length := getElem?_lt_length hs
  have hjl : j < files.length := by omega
  have hsi : files[i] = s := by
    rw [List.getElem?_eq_getElem hil] at hs
    exact Option.some.inj hs
  have htj : files[j] = t := by
    rw [← hjt, List.getElem_take]
  have hpair := (List.pairwise_iff_getElem.1 hno) j i hjl hil hji
  rw [hsi, htj] at hpair
  rw [← hte]
  exact fun e => hpair e.symm

theorem mainFilenames_noAlias : NoSourceIsEarlierOutput mainFilenames := by
  unfold NoSourceIsEarlierOutput mainFilenames
  decide

theorem mergeSortList_sampleRows : mergeSortList Employee.lt sampleRows = sortedRows :=
  eq_of_perm_of_sortedAll (fun _ _ h1 h2 => Employee.eq_of_not_lt h1 h2)
    ((mergeSortList_sortsCorrectly sampleRows).1.trans sortedRows_perm.symm)
    (mergeSortList_sortsCorrectly sampleRows).2 sortedRows_sorted

/-! ## Claims about the driver -/

/-- C18, refuted as stated: with the sources `a` and `a_sorted.csv`, in this
order, the first iteration writes the file `a_sorted.csv` and the second
iteration reads it back. The output for the second source holds the record
of the first source (Ann), while the file named `a_sorted.csv` held the
record Zoe at the start; no permutation of the records parsed from it gives
the text that is written. -/
theorem driver_reads_earlier_output :
    (driverLoop (mergeSortList Employee.lt) "standart" aliasFiles ["a", "a_sorted.csv"]).map
        Prod.snd =
      .ok [⟨"a", "a_sorted.csv", write_csv [annRecord]⟩,
        ⟨"a_sorted.csv", "a_sorted.csv_sorted.csv", write_csv [annRecord]⟩] ∧
    read_csv (aliasFiles "a_sorted.csv") = [zoeRecord] ∧
    ∀ sorted : List Employee, sorted.Perm (read_csv (aliasFiles "a_sorted.csv")) →
      write_csv sorted ≠ write_csv [annRecord] := by
  have hplainA : ∀ e ∈ [annRecord], PlainFields e := by
    unfold annRecord PlainFields
    decide
  have hplainZ : ∀ e ∈ [zoeRecord], PlainFields e := by
    unfold zoeRecord PlainFields
    decide
  have hA : read_csv (aliasFiles "a") = [annRecord] := read_csv_write_csv _ hplainA
  have hZ : read_csv (aliasFiles "a_sorted.csv") = [zoeRecord] := read_csv_write_csv _ hplainZ
  have e2 := driverLoop_cons (mergeSortList Employee.lt)
    (aliasFiles.write ("a" ++ "_sorted.csv")
      (write_csv (mergeSortList Employee.lt (read_csv (aliasFiles "a")))))
    "a_sorted.csv" [] rfl
  have e1 := driverLoop_cons (mergeSortList Employee.lt) aliasFiles "a" ["a_sorted.csv"] e2
  have hback : read_csv ((aliasFiles.write ("a" ++ "_sorted.csv") (write_csv [annRecord]))
      "a_sorted.csv") = [annRecord] := read_csv_write_csv _ hplainA
  rw [hA, mergeSortList_singleton, hback, mergeSortList_singleton] at e1
  refine ⟨?_, hZ, ?_⟩
  · rw [e1]
    rfl
  · intro sorted hperm
    rw [hZ] at hperm
    rw [List.perm_singleton.1 hperm]
    decide

/-- C18, amended: provided `std::sort` returns a sorted permutation of its
input, the driver ends without a fault on every list of sources and every
file system, and leaves one step per source, in list order. The step of
source `s` reports `s` and writes the file `s` followed by `_sorted.csv`;
the file system at the end is the initial one updated by these writes, in
order. The text written is the header row followed by the rows of a sorted
permutation of the records parsed from the file `s` as it is when `s` is
processed, that is, after the writes of the earlier steps; when that file
cannot be opened the record sequence is empty and the text is the header row
alone. When no source of the list is named like the output file of an
earlier source, the file `s` is read as it was at the start, and the text
written for `s` is the same whatever the other sources are. -/
theorem driver_orchestration (stdSort : List Employee → List Employee) (fs : Files)
    (files : List String) (hsort : SortsCorrectly stdSort) :
    ∃ fsEnd steps, driverLoop stdSort "standart" fs files = .ok (fsEnd, steps) ∧
      steps.map DriverStep.report = files ∧
      steps.map DriverStep.dest = files.map (fun s => s ++ "_sorted.csv") ∧
      fsEnd = writeSteps fs steps ∧
      (∀ (i : Nat) (s : String), files[i]? = some s →
        ∃ st sorted, steps[i]? = some st ∧ st.report = s ∧
        st.dest = s ++ "_sorted.csv" ∧
        st.content = csvHeader ++ '\n' :: (sorted.map csvLine).flatten ∧
        sorted.Perm (read_csv (writeSteps fs (steps.take i) s)) ∧
        SortedAll Employee.lt sorted ∧
        sorted = mergeSortList Employee.lt (read_csv (writeSteps fs (steps.take i) s)) ∧
        (writeSteps fs (steps.take i) s = none →
          sorted = [] ∧ st.content = csvHeader ++ ['\n'])) ∧
      (NoSourceIsEarlierOutput files →
        (∀ (i : Nat) (s : String), files[i]? = some s →
          writeSteps fs (steps.take i) s = fs s) ∧
        steps.map DriverStep.content = files.map (fun s =>
          csvHeader ++ '\n' ::
            ((mergeSortList Employee.lt (read_csv (fs s))).map csvLine).flatten)) := by
  obtain ⟨steps, hrun, hrep, hdest, hstep⟩ := driverLoop_run stdSort files fs
  refine ⟨_, steps, hrun, hrep, hdest, rfl, ?_, ?_⟩
  · intro i s hs
    refine ⟨_, stdSort (read_csv (writeSteps fs (steps.take i) s)), hstep i s hs, rfl, rfl, rfl,
      (hsort _).1, (hsort _).2, sortsCorrectly_unique hsort _, ?_⟩
    intro hnone
    have hnil : stdSort (read_csv (writeSteps fs (steps.take i) s)) = [] := by
      have hp := (hsort (read_csv (writeSteps fs (steps.take i) s))).1
      rw [hnone, read_csv_unreadable] at hp
      rw [hnone, read_csv_unreadable]
      exact List.Perm.eq_nil hp
    refine ⟨hnil, ?_⟩
    show write_csv (stdSort (read_csv (writeSteps fs (steps.take i) s))) = _
    rw [hnil]
    rfl
  · intro hno
    obtain ⟨fsEnd2, hrun2⟩ := driverLoop_steps stdSort files fs hno
    rw [hrun] at hrun2
    have hsteps := congrArg Prod.snd (Except.ok.inj hrun2)
    refine ⟨fun i s hs => writeSteps_take_of_noAlias fs files steps hdest hno i s hs, ?_⟩
    have hsteps2 : steps = files.map (fun s =>
        (⟨s, s ++ "_sorted.csv", write_csv (stdSort (read_csv (fs s)))⟩ : DriverStep)) := hsteps
    rw [hsteps2, List.map_map]
    apply List.map_congr_left
    intro s _
    show write_csv (stdSort (read_csv (fs s))) = _
    rw [sortsCorrectly_unique hsort]
    rfl

/-- Witness of C18 on the sources `a`, which holds the three sample records,
and `b`, which cannot be opened: the sorted records are written to
`a_sorted.csv`, the header alone to `b_sorted.csv`, and `a` is left as it
was. -/
theorem driver_orchestration_witness :
    SortsCorrectly (mergeSortList Employee.lt) ∧ NoSourceIsEarlierOutput ["a", "b"] ∧
    ∃ fsEnd steps,
      driverLoop (mergeSortList Employee.lt) "standart" sampleFiles ["a", "b"] =
        .ok (fsEnd, steps) ∧
      steps.map DriverStep.report = ["a", "b"] ∧
      steps.map DriverStep.dest = ["a_sorted.csv", "b_sorted.csv"] ∧
      steps.map DriverStep.content = [write_csv sortedRows, csvHeader ++ ['\n']] ∧
      fsEnd = writeSteps sampleFiles steps ∧
      fsEnd "a_sorted.csv" = some (write_csv sortedRows) ∧
      fsEnd "b_sorted.csv" = some (csvHeader ++ ['\n']) ∧
      fsEnd "a" = some (write_csv sampleRows) := by
  have hno : NoSourceIsEarlierOutput ["a", "b"] := by
    unfold NoSourceIsEarlierOutput
    decide
  have hplain : ∀ e ∈ sampleRows, PlainFields e := by
    unfold sampleRows PlainFields
    decide
  have hA : read_csv (sampleFiles "a") = sampleRows := read_csv_write_csv _ hplain
  have hB : read_csv (sampleFiles "b") = [] := read_csv_unreadable
  obtain ⟨fsEnd, steps, hrun, hrep, hdest, hend, _, hrest⟩ :=
    driver_orchestration (mergeSortList Employee.lt) sampleFiles ["a", "b"]
      mergeSortList_sortsCorrectly
  have hcontent := (hrest hno).2
  simp only [List.map_cons, List.map_nil, hA, hB, mergeSortList_sampleRows] at hcontent
  have hB2 : mergeSortList Employee.lt ([] : List Employee) = [] := by
    rw [mergeSortList, if_pos (by simp)]
  rw [hB2] at hcontent
  have hdest2 : steps.map DriverStep.dest = ["a_sorted.csv", "b_sorted.csv"] := hdest
  have hcontent2 : steps.map DriverStep.content = [write_csv sortedRows, csvHeader ++ ['\n']] :=
    hcontent
  refine ⟨mergeSortList_sortsCorrectly, hno, fsEnd, steps, hrun, hrep, hdest2, hcontent2, hend,
    ?_⟩
  obtain ⟨s1, s2, hst⟩ : ∃ s1 s2, steps = [s1, s2] := by
    match steps, hdest2 with
    | [], h => simp at h
    | [_], h => simp at h
    | [s1, s2], _ => exact ⟨s1, s2, rfl⟩
    | _ :: _ :: _ :: _, h => simp at h
  subst hst
  have hd := hdest2
  have hc := hcontent2
  simp only [List.map_cons, List.map_nil, List.cons.injEq, and_true] at hd hc
  rw [hend]
  show ((sampleFiles.write s1.dest s1.content).write s2.dest s2.content) "a_sorted.csv" = _ ∧
      ((sampleFiles.write s1.dest s1.content).write s2.dest s2.content) "b_sorted.csv" = _ ∧
      ((sampleFiles.write s1.dest s1.content).write s2.dest s2.content) "a" = _
  rw [hd.1, hd.2, hc.1, hc.2]
  unfold Files.write
  refine ⟨?_, ?_, ?_⟩
  · rw [if_neg (by decide), if_pos rfl]
  · rw [if_pos rfl]
  · rw [if_neg (by decide), if_neg (by decide)]
    rfl

/-! ## Counting the comparisons of bubble sort -/

section BubbleCount

variable {α : Type}

theorem bubbleStep_length (lt : α → α → Bool) (arr : List α) (j : Nat)
    (hj : j + 1 < arr.length) :
    ∃ a, bubbleStep lt arr j = .ok a ∧ a.length = arr.length := by
  have hj0 : j < arr.length := by omega
  obtain ⟨x, hx⟩ : ∃ v, arr[j]? = some v := ⟨_, List.getElem?_eq_getElem hj0⟩
  obtain ⟨y, hy⟩ : ∃ v, arr[j + 1]? = some v := ⟨_, List.getElem?_eq_getElem hj⟩
  unfold bubbleStep
  rw [hx, hy]
  dsimp only
  by_cases hlt : lt y x = true
  · rw [if_pos hlt, swapAt_eq hx hy]
    exact ⟨_, rfl, by simp⟩
  · rw [if_neg hlt]
    exact ⟨_, rfl, rfl⟩

/-- The inner loop entered at `j` with counter `count` runs its body
`bound - j` times, and the counter does not change what the loop does to the
vector. -/
theorem bubbleInnerC_spec (lt : α → α → Bool) (bound : Nat) :
    ∀ (d : Nat) (arr : List α) (j count : Nat), bound - j = d → bound < arr.length →
      ∃ a, bubbleInnerC lt bound arr j count = .ok (a, count + (bound - j)) ∧
        bubbleInner lt bound arr j = .ok a ∧ a.length = arr.length := by
  intro d
  induction d with
  | zero =>
    intro arr j count hd hlen
    have hnot : ¬ j < bound := by omega
    rw [bubbleInnerC, if_neg hnot, bubbleInner, if_neg hnot]
    have h0 : bound - j = 0 := hd
    rw [h0]
    exact ⟨arr, rfl, rfl, rfl⟩
  | succ d ih =>
    intro arr j count hd hlen
    have hjb : j < bound := by omega
    obtain ⟨a1, hstep, hlen1⟩ := bubbleStep_length lt arr j (by omega)
    obtain ⟨a, hrunC, hrun, hlena⟩ := ih a1 (j + 1) (count + 1) (by omega) (by omega)
    rw [bubbleInnerC, if_pos hjb, bubbleInner, if_pos hjb, hstep]
    dsimp only
    rw [hrunC, hrun]
    refine ⟨a, ?_, rfl, hlena.trans hlen1⟩
    have e : count + 1 + (bound - (j + 1)) = count + (bound - j) := by omega
    rw [e]

/-- The outer loop entered at pass `i` appends to the log the counts
`n - 1 - i`, `n - 1 - (i + 1)`, ..., `1`. -/
theorem bubbleOuterC_spec (lt : α → α → Bool) (n : Nat) (hn : 1 ≤ n) :
    ∀ (d : Nat) (arr : List α) (i : Nat) (log : List Nat), n - 1 - i = d → i ≤ n - 1 →
      arr.length = n →
      ∃ a, bubbleOuterC lt n arr i log =
          .ok (a, log ++ (List.range' i (n - 1 - i)).map (fun k => n - 1 - k)) ∧
        bubbleOuter lt n arr i = .ok a := by
  have hsub1 : subSize n 1 = n - 1 := subSize_eq hn
  intro d
  induction d with
  | zero =>
    intro arr i log hd hi hlen
    have hnot : ¬ i < subSize n 1 := by omega
    rw [bubbleOuterC, if_neg hnot, bubbleOuter, if_neg hnot]
    have h0 : n - 1 - i = 0 := hd
    rw [h0]
    exact ⟨arr, by simp, rfl⟩
  | succ d ih =>
    intro arr i log hd hi hlen
    have hlt : i < subSize n 1 := by omega
    have hbound : subSize (subSize n i) 1 = n - 1 - i := by
      rw [subSize_eq (by omega : i ≤ n), subSize_eq (by omega)]
      omega
    obtain ⟨a1, hrunC1, hrun1, hlen1⟩ :=
      bubbleInnerC_spec lt (n - 1 - i) _ arr 0 0 rfl (by omega)
    obtain ⟨a, hrunC, hrun⟩ := ih a1 (i + 1) (log ++ [0 + (n - 1 - i - 0)]) (by omega) (by omega)
      (hlen1.trans hlen)
    rw [bubbleOuterC, if_pos hlt, bubbleOuter, if_pos hlt, hbound, hrunC1, hrun1]
    dsimp only
    rw [hrunC, hrun]
    refine ⟨a, ?_, rfl⟩
    have hr : List.range' i (n - 1 - i) = i :: List.range' (i + 1) (n - 1 - (i + 1)) := by
      have e : n - 1 - i = (n - 1 - (i + 1)) + 1 := by omega
      rw [e, List.range'_succ]
    rw [hr, List.map_cons, List.append_assoc]
    simp

theorem sum_countdown : ∀ m : Nat,
    2 * ((List.range m).map (fun k => m - k)).sum = m * (m + 1) := by
  intro m
  induction m with
  | zero => rfl
  | succ m ih =>
    have e : (List.range (m + 1)).map (fun k => m + 1 - k) =
        (m + 1) :: (List.range m).map (fun k => m - k) := by
      rw [List.range_succ_eq_map, List.map_cons, List.map_map]
      congr 1
      apply List.map_congr_left
      intro k _
      show m + 1 - (k + 1) = m - k
      omega
    rw [e, List.sum_cons, Nat.mul_add, ih]
    ring

theorem bubbleSortC_spec (lt : α → α → Bool) (arr : List α) (hne : arr ≠ []) :
    ∃ a, bubbleSortC lt arr =
        .ok (a, (List.range (arr.length - 1)).map (fun i => arr.length - 1 - i)) ∧
      bubbleSort lt arr = .ok a := by
  have hpos : 1 ≤ arr.length := by
    cases arr with
    | nil => exact absurd rfl hne
    | cons x xs => simp
  obtain ⟨a, hrunC, hrun⟩ :=
    bubbleOuterC_spec lt arr.length hpos _ arr 0 [] rfl (by omega) rfl
  refine ⟨a, ?_, hrun⟩
  unfold bubbleSortC
  rw [hrunC, List.nil_append, Nat.sub_zero, List.range_eq_range']

end BubbleCount

/-! ## Claim about the passes of bubble sort -/

/-- C13: bubble sort has no early exit. For every comparison and every
vector of length `n` at least one, the instrumented `bubbleSort` ends without
a fault with the vector the plain `bubbleSort` returns and a log of exactly
`n - 1` passes, in which pass `i` made exactly `n - 1 - i` comparisons; the
comparisons add up to `n * (n - 1) / 2`. -/
theorem bubbleSort_no_early_exit {α : Type} (lt : α → α → Bool) (arr : List α)
    (hne : arr ≠ []) :
    ∃ a log, bubbleSortC lt arr = .ok (a, log) ∧ bubbleSort lt arr = .ok a ∧
      log.length = arr.length - 1 ∧
      (∀ i, i < arr.length - 1 → log[i]? = some (arr.length - 1 - i)) ∧
      log.sum = arr.length * (arr.length - 1) / 2 := by
  obtain ⟨a, hrunC, hrun⟩ := bubbleSortC_spec lt arr hne
  refine ⟨a, _, hrunC, hrun, by simp, ?_, ?_⟩
  · intro i hi
    rw [List.getElem?_map, List.getElem?_range hi]
    rfl
  · have h := sum_countdown (arr.length - 1)
    have hpos : 1 ≤ arr.length := by
      cases arr with
      | nil => exact absurd rfl hne
      | cons x xs => simp
    have e : arr.length - 1 + 1 = arr.length := by omega
    rw [e] at h
    rw [Nat.mul_comm arr.length, ← h, Nat.mul_div_cancel_left _ (by decide : 0 < 2)]

/-- Witness of C13 on an already sorted vector of three records: two passes,
of two comparisons and one comparison. -/
theorem bubbleSort_no_early_exit_witness :
    sortedRows ≠ [] ∧
    ∃ a log, bubbleSortC Employee.lt sortedRows = .ok (a, log) ∧
      bubbleSort Employee.lt sortedRows = .ok a ∧ log.length = 2 ∧
      (∀ i, i < 2 → log[i]? = some (2 - i)) ∧ log.sum = 3 :=
  ⟨by decide, bubbleSort_no_early_exit Employee.lt sortedRows (by decide)⟩

/-! ## The merge step -/

section MergeStep

variable {α : Type} {lt : α → α → Bool}

theorem range'_glue {a b c : Nat} (hab : a ≤ b) (hbc : b ≤ c) :
    List.range' a (b - a) ++ List.range' b (c - b) = List.range' a (c - a) := by
  obtain ⟨m, rfl⟩ := Nat.exists_eq_add_of_le hab
  obtain ⟨n, rfl⟩ := Nat.exists_eq_add_of_le hbc
  have e1 : a + m - a = m := by omega
  have e2 : a + m + n - (a + m) = n := by omega
  have e3 : a + m + n - a = n + m := by omega
  rw [e1, e2, e3, List.range'_append_1]

/-- The log of a copy loop: the positions from the first value of `k` up to
its last value. -/
theorem copyRestW_erase (src : List α) :
    ∀ (d : Nat) (arr : List α) (i k : Nat) (log : List Nat), src.length - i = d →
      ∀ a k2, copyRest src arr i k = .ok (a, k2) →
        k ≤ k2 ∧ copyRestW src arr i k log = .ok (a, k2, log ++ List.range' k (k2 - k)) := by
  intro d
  induction d with
  | zero =>
    intro arr i k log hd a k2 hrun
    have hi : ¬ i < src.length := by omega
    rw [copyRest, dif_neg hi] at hrun
    rw [copyRestW, dif_neg hi]
    cases hrun
    simp
  | succ d ih =>
    intro arr i k log hd a k2 hrun
    have hi : i < src.length := by omega
    rw [copyRest, dif_pos hi] at hrun
    rw [copyRestW, dif_pos hi]
    cases hw : writeAt arr k src[i] with
    | error e =>
      rw [hw] at hrun
      exact Except.noConfusion hrun
    | ok a1 =>
      rw [hw] at hrun
      dsimp only at hrun ⊢
      by_cases hov : INT_MAX < k + 1
      · rw [if_pos hov] at hrun
        exact Except.noConfusion hrun
      · rw [if_neg hov] at hrun
        rw [if_neg hov]
        obtain ⟨hle, hW⟩ := ih a1 (i + 1) (k + 1) (log ++ [k]) (by omega) a k2 hrun
        refine ⟨by omega, ?_⟩
        rw [hW]
        have hr : List.range' k (k2 - k) = k :: List.range' (k + 1) (k2 - (k + 1)) := by
          have e : k2 - k = (k2 - (k + 1)) + 1 := by omega
          rw [e, List.range'_succ]
        rw [hr]
        simp

/-- The log of the first loop of `merge`. -/
theorem mergeLoopW_erase (L R : List α) :
    ∀ (d : Nat) (arr : List α) (i j k : Nat) (log : List Nat),
      (L.length - i) + (R.length - j) = d →
      ∀ a i1 j1 k1, mergeLoop lt L R arr i j k = .ok (a, i1, j1, k1) →
        k ≤ k1 ∧
        mergeLoopW lt L R arr i j k log = .ok (a, i1, j1, k1, log ++ List.range' k (k1 - k)) := by
  intro d
  induction d with
  | zero =>
    intro arr i j k log hd a i1 j1 k1 hrun
    have hdone : ¬ (i < L.length ∧ j < R.length) := by omega
    rw [mergeLoop, dif_neg hdone] at hrun
    rw [mergeLoopW, dif_neg hdone]
    cases hrun
    simp
  | succ d ih =>
    intro arr i j k log hd a i1 j1 k1 hrun
    by_cases hgo : i < L.length ∧ j < R.length
    · have hr : k + 1 ≤ k1 → List.range' k (k1 - k) = k :: List.range' (k + 1) (k1 - (k + 1)) := by
        intro hk
        have e : k1 - k = (k1 - (k + 1)) + 1 := by omega
        rw [e, List.range'_succ]
      rw [mergeLoop, dif_pos hgo] at hrun
      rw [mergeLoopW, dif_pos hgo]
      by_cases hle : (!(lt R[j] L[i])) = true
      · rw [if_pos hle] at hrun
        rw [if_pos hle]
        cases hw : writeAt arr k L[i] with
        | error e =>
          rw [hw] at hrun
          exact Except.noConfusion hrun
        | ok a1 =>
          rw [hw] at hrun
          dsimp only at hrun ⊢
          by_cases hov : INT_MAX < k + 1
          · rw [if_pos hov] at hrun
            exact Except.noConfusion hrun
          · rw [if_neg hov] at hrun
            rw [if_neg hov]
            obtain ⟨hk, hW⟩ := ih a1 (i + 1) j (k + 1) (log ++ [k]) (by omega) a i1 j1 k1 hrun
            refine ⟨by omega, ?_⟩
            rw [hW, hr hk]
            simp
      · rw [if_neg hle] at hrun
        rw [if_neg hle]
        cases hw : writeAt arr k R[j] with
        | error e =>
          rw [hw] at hrun
          exact Except.noConfusion hrun
        | ok a1 =>
          rw [hw] at hrun
          dsimp only at hrun ⊢
          by_cases hov : INT_MAX < k + 1
          · rw [if_pos hov] at hrun
            exact Except.noConfusion hrun
          · rw [if_neg hov] at hrun
            rw [if_neg hov]
            obtain ⟨hk, hW⟩ := ih a1 i (j + 1) (k + 1) (log ++ [k]) (by omega) a i1 j1 k1 hrun
            refine ⟨by omega, ?_⟩
            rw [hW, hr hk]
            simp
    · rw [mergeLoop, dif_neg hgo] at hrun
      rw [mergeLoopW, dif_neg hgo]
      cases hrun
      simp

/-- The arguments `merge` works with when it is called on the two adjacent
runs `L` and `R` of `A ++ L ++ R ++ B`. -/
theorem merge_runs (A L R B : List α) :
    ((0 : Int) ≤ (A.length : Int) ∧
      (A.length : Int) ≤ (A.length : Int) + L.length - 1 + 1 ∧
      (A.length : Int) + L.length - 1 ≤ (A.length : Int) + L.length + R.length - 1 ∧
      (A.length : Int) + L.length + R.length - 1 + 1 ≤ ((A ++ L ++ R ++ B).length : Int)) ∧
    ((A.length : Int)).toNat = A.length ∧
    ((A ++ L ++ R ++ B).drop ((A.length : Int)).toNat).take
      (((A.length : Int) + L.length - 1 + 1).toNat - ((A.length : Int)).toNat) = L ∧
    ((A ++ L ++ R ++ B).drop ((A.length : Int) + L.length - 1 + 1).toNat).take
      (((A.length : Int) + L.length + R.length - 1 + 1).toNat -
        ((A.length : Int) + L.length - 1 + 1).toNat) = R := by
  have hl : ((A.length : Int)).toNat = A.length := by omega
  have hm : ((A.length : Int) + L.length - 1 + 1).toNat = A.length + L.length := by omega
  have hr : ((A.length : Int) + L.length + R.length - 1 + 1).toNat =
      A.length + L.length + R.length := by omega
  refine ⟨?_, hl, ?_, ?_⟩
  · simp only [List.length_append]
    omega
  · have e : A.length + L.length - A.length = L.length := by omega
    rw [hl, hm, e, List.append_assoc, List.append_assoc, List.drop_left, ← List.append_assoc,
      List.append_assoc, List.take_left]
  · have e : A.length + L.length + R.length - (A.length + L.length) = R.length := by omega
    have e2 : A.length + L.length = (A ++ L).length := by rw [List.length_append]
    rw [hr, hm, e, e2, List.append_assoc (A ++ L), List.drop_left, List.take_left]

/-- Function `merge` with its log, on the two adjacent runs `L` and `R` of
`A ++ L ++ R ++ B`: the positions of `L` and `R` are written, in order, and
`k` ends behind them. -/
theorem mergeW_frame (A L R B : List α) (hfit : A.length + L.length + R.length ≤ INT_MAX) :
    mergeW lt (A ++ L ++ R ++ B) (A.length : Int) ((A.length : Int) + L.length - 1)
      ((A.length : Int) + L.length + R.length - 1) [] =
      .ok (A ++ List.merge L R (fun a b => !(lt b a)) ++ B, A.length + L.length + R.length,
        List.range' A.length (L.length + R.length)) := by
  obtain ⟨hcond, hl, hLeft, hRight⟩ := merge_runs A L R B
  obtain ⟨a1, i1, j1, k1, hrun, a2, k2, hc1, a3, k3, hc2, heq, hk3⟩ :=
    @mergeLoops_spec _ lt L R (L.length + R.length) (A ++ L ++ R ++ B) 0 0 A.length
      (by omega) (by simp only [List.length_append]; omega) (by omega)
  have hres : a3 = A ++ List.merge L R (fun a b => !(lt b a)) ++ B := by
    rw [heq]
    have e3 : A.length + (L.length - 0) + (R.length - 0) = (A ++ L ++ R).length := by
      simp only [List.length_append]
      omega
    rw [e3, List.drop_left, List.drop_zero, List.drop_zero, List.append_assoc A L,
      List.append_assoc A (L ++ R), List.take_left]
  obtain ⟨hk1, hW1⟩ := mergeLoopW_erase L R _ _ 0 0 A.length [] rfl a1 i1 j1 k1 hrun
  obtain ⟨hk2, hW2⟩ := copyRestW_erase L _ a1 i1 k1 ([] ++ List.range' A.length (k1 - A.length))
    rfl a2 k2 hc1
  obtain ⟨hk3le, hW3⟩ := copyRestW_erase R _ a2 j1 k2
    ([] ++ List.range' A.length (k1 - A.length) ++ List.range' k1 (k2 - k1)) rfl a3 k3 hc2
  simp only [List.nil_append] at hW1 hW2 hW3
  have hk3' : k3 = A.length + L.length + R.length := by omega
  subst hk3'
  have hcount : A.length + L.length + R.length - A.length = L.length + R.length := by omega
  rw [range'_glue hk1 hk2] at hW2 hW3
  rw [range'_glue (Nat.le_trans hk1 hk2) hk3le, hcount] at hW3
  unfold mergeW
  rw [if_pos hcond]
  simp only [hLeft, hRight]
  simp only [hl, hW1, hW2, hW3, hres]

/-- When the range ends at the largest `int`, the last `k++` of `merge`
leaves the range of `int`. -/
theorem merge_k_overflow (A B : List α) (a b : α) (left right : Nat) (hleft : A.length = left)
    (hright : left + 1 = right) (hA : right = INT_MAX) (hle : lt b a = false) :
    merge lt (A ++ [a] ++ [b] ++ B) (left : Int) (left : Int) (right : Int) =
      .error .intOverflow := by
  subst hleft hright
  have hA : A.length + 1 = INT_MAX := hA
  have e2 : ((A.length : Int)) = (A.length : Int) + [a].length - 1 := by
    rw [List.length_singleton]
    omega
  have e3 : ((A.length + 1 : Nat) : Int) = (A.length : Int) + [a].length + [b].length - 1 := by
    rw [List.length_singleton, List.length_singleton]
    omega
  rw [e3]
  conv_lhs => arg 4; rw [e2]
  obtain ⟨hcond, hl, hLeft, hRight⟩ := merge_runs A [a] [b] B
  have hlen : (A ++ [a] ++ [b] ++ B).length = A.length + 2 + B.length := by
    simp only [List.length_append, List.length_singleton]
  have hloop : mergeLoop lt [a] [b] (A ++ [a] ++ [b] ++ B) 0 0 A.length =
      .ok ((A ++ [a] ++ [b] ++ B).set A.length a, 1, 0, A.length + 1) := by
    have hgo : 0 < [a].length ∧ 0 < [b].length := ⟨Nat.one_pos, Nat.one_pos⟩
    have hcmp : (!(lt ([b][0]) ([a][0]))) = true := by
      show (!(lt b a)) = true
      rw [hle]
      rfl
    rw [mergeLoop, dif_pos hgo, if_pos hcmp, writeAt_eq _ (by rw [hlen]; omega)]
    dsimp only
    rw [if_neg (by omega), mergeLoop, dif_neg (by simp)]
    rfl
  have hcopy1 : copyRest [a] ((A ++ [a] ++ [b] ++ B).set A.length a) 1 (A.length + 1) =
      .ok ((A ++ [a] ++ [b] ++ B).set A.length a, A.length + 1) := by
    rw [copyRest, dif_neg (by simp)]
  have hcopy2 : copyRest [b] ((A ++ [a] ++ [b] ++ B).set A.length a) 0 (A.length + 1) =
      .error .intOverflow := by
    rw [copyRest, dif_pos (by simp), writeAt_eq _ (by rw [List.length_set, hlen]; omega)]
    dsimp only
    rw [if_pos (by omega)]
  unfold merge
  rw [if_pos hcond]
  simp only [hLeft, hRight]
  simp only [hl, hloop, hcopy1, hcopy2]

/-- A vector cut at the bounds of a range `left..right` split at `mid`. -/
theorem split_at_range (arr : List α) (left mid right : Nat) (h1 : left ≤ mid)
    (h2 : mid < right) (h3 : right < arr.length) :
    arr = arr.take left ++ (arr.drop left).take (mid + 1 - left) ++
        (arr.drop (mid + 1)).take (right - mid) ++ arr.drop (right + 1) ∧
      (arr.take left).length = left ∧
      ((arr.drop left).take (mid + 1 - left)).length = mid + 1 - left ∧
      ((arr.drop (mid + 1)).take (right - mid)).length = right - mid := by
  have e1 : (arr.drop left).take (mid + 1 - left) ++ (arr.drop (mid + 1)) = arr.drop left := by
    have h := List.take_append_drop (mid + 1 - left) (arr.drop left)
    rw [List.drop_drop] at h
    have e : left + (mid + 1 - left) = mid + 1 := by omega
    rw [e] at h
    exact h
  have e2 : (arr.drop (mid + 1)).take (right - mid) ++ arr.drop (right + 1) =
      arr.drop (mid + 1) := by
    have h := List.take_append_drop (right - mid) (arr.drop (mid + 1))
    rw [List.drop_drop] at h
    have e : mid + 1 + (right - mid) = right + 1 := by omega
    rw [e] at h
    exact h
  refine ⟨?_, ?_, ?_, ?_⟩
  · rw [List.append_assoc, e2, List.append_assoc, e1, List.take_append_drop]
  · rw [List.length_take]
    omega
  · rw [List.length_take, List.length_drop]
    omega
  · rw [List.length_take, List.length_drop]
    omega

end MergeStep

section MergeStep2

variable {α : Type} {lt : α → α → Bool}

/-- The merge step in terms of the four parts of the vector. -/
theorem merge_step_frame (hs : StrictWeak lt) (A L R B : List α) (left mid right : Nat)
    (hA : A.length = left) (hL : L.length = mid + 1 - left) (hR : R.length = right - mid)
    (h1 : left ≤ mid) (h2 : mid < right) (hfit : right < INT_MAX)
    (hLs : SortedAll lt L) (hRs : SortedAll lt R) :
    ∃ a, merge lt (A ++ L ++ R ++ B) left mid right = .ok a ∧
      mergeW lt (A ++ L ++ R ++ B) left mid right [] =
        .ok (a, right + 1, List.range' left (right + 1 - left)) ∧
      a.length = (A ++ L ++ R ++ B).length ∧
      SortedAll lt ((a.drop left).take (right + 1 - left)) ∧
      ((a.drop left).take (right + 1 - left)).Perm
        (((A ++ L ++ R ++ B).drop left).take (right + 1 - left)) ∧
      ∀ p, p < left ∨ right < p → a[p]? = (A ++ L ++ R ++ B)[p]? := by
  have hfit2 : A.length + L.length + R.length ≤ INT_MAX := by omega
  have e1 : (A.length : Int) = (left : Int) := by omega
  have e2 : (A.length : Int) + L.length - 1 = (mid : Int) := by omega
  have e3 : (A.length : Int) + L.length + R.length - 1 = (right : Int) := by omega
  have hrun := @merge_frame _ lt A L R B hfit2
  have hrunW := @mergeW_frame _ lt A L R B hfit2
  rw [e3, e2, e1] at hrun hrunW
  have ek : A.length + L.length + R.length = right + 1 := by omega
  have ec : L.length + R.length = right + 1 - left := by omega
  rw [ek, ec, hA] at hrunW
  have hlenM : (List.merge L R (fun a b => !(lt b a))).length = right + 1 - left := by
    rw [List.length_merge]
    omega
  have hmid : ((A ++ List.merge L R (fun a b => !(lt b a)) ++ B).drop left).take
      (right + 1 - left) = List.merge L R (fun a b => !(lt b a)) := by
    rw [← hA, List.append_assoc, List.drop_left, hA, ← hlenM, List.take_left]
  have hmid0 : ((A ++ L ++ R ++ B).drop left).take (right + 1 - left) = L ++ R := by
    have hlenLR : (L ++ R).length = right + 1 - left := by
      rw [List.length_append]
      omega
    rw [← hA, List.append_assoc, List.append_assoc, List.drop_left, ← List.append_assoc, hA,
      ← hlenLR, List.take_left]
  refine ⟨_, hrun, hrunW, ?_, ?_, ?_, ?_⟩
  · simp only [List.length_append, List.length_merge]
    omega
  · rw [hmid]
    unfold SortedAll
    exact @pairwise_merge _ lt (fun x y => lt y x = false)
      (fun a b c hab hbc => hs.le_trans hab hbc) L R hLs hRs
      (fun x _ y _ => ⟨fun h => h, fun h => hs.asymm h⟩)
  · rw [hmid, hmid0]
    exact List.merge_perm_append _
  · intro p hp
    rcases hp with hp | hp
    · rw [List.append_assoc, List.append_assoc A, List.append_assoc A,
        List.getElem?_append_left (by omega), List.getElem?_append_left (by omega)]
    · have hl1 : (A ++ List.merge L R (fun a b => !(lt b a))).length = right + 1 := by
        rw [List.length_append, hlenM]
        omega
      have hl2 : (A ++ L ++ R).length = right + 1 := by
        simp only [List.length_append]
        omega
      rw [List.getElem?_append_right (by omega), List.getElem?_append_right (by omega), hl1, hl2]

/-- The merge step on the range `left..right` of a vector, split at `mid`. -/
theorem merge_step_spec (hs : StrictWeak lt) (arr : List α) (left mid right : Nat)
    (h1 : left ≤ mid) (h2 : mid < right) (h3 : right < arr.length) (hfit : right < INT_MAX)
    (hL : SortedAll lt ((arr.drop left).take (mid + 1 - left)))
    (hR : SortedAll lt ((arr.drop (mid + 1)).take (right - mid))) :
    ∃ a, merge lt arr left mid right = .ok a ∧
      mergeW lt arr left mid right [] =
        .ok (a, right + 1, List.range' left (right + 1 - left)) ∧
      a.length = arr.length ∧
      SortedAll lt ((a.drop left).take (right + 1 - left)) ∧
      ((a.drop left).take (right + 1 - left)).Perm ((arr.drop left).take (right + 1 - left)) ∧
      ∀ p, p < left ∨ right < p → a[p]? = arr[p]? := by
  obtain ⟨harr, hA, hL', hR'⟩ := split_at_range arr left mid right h1 h2 h3
  have key := merge_step_frame hs (arr.take left) ((arr.drop left).take (mid + 1 - left))
    ((arr.drop (mid + 1)).take (right - mid)) (arr.drop (right + 1)) left mid right hA hL' hR'
    h1 h2 hfit hL hR
  rw [← harr] at key
  exact key

end MergeStep2

/-! ## Claims about the merge step -/

/-- C15, refuted as stated: in a vector of `2 ^ 31` records the indices
`left = mid = 2147483646` and `right = 2147483647` satisfy
`0 <= left <= mid < right < length`, and both runs, of one record each, are
sorted; yet `merge` does not end with `k = right + 1`: after the last write
the increment `k++` leaves the range of `int`. -/
theorem merge_step_int_overflow :
    mergeOverflowInput.length = 2147483648 ∧
    (2147483646 : Nat) ≤ 2147483646 ∧ (2147483646 : Nat) < 2147483647 ∧
    2147483647 < mergeOverflowInput.length ∧ (2147483647 : Nat) = INT_MAX ∧
    SortedAll Employee.lt ((mergeOverflowInput.drop 2147483646).take 1) ∧
    SortedAll Employee.lt ((mergeOverflowInput.drop 2147483647).take 1) ∧
    merge Employee.lt mergeOverflowInput (2147483646 : Nat) (2147483646 : Nat)
      (2147483647 : Nat) = .error .intOverflow := by
  have hlenA : (List.replicate 2147483646 annRecord).length = 2147483646 :=
    List.length_replicate _ _
  have hlen : mergeOverflowInput.length = 2147483648 := by
    rw [mergeOverflowInput, List.length_append, List.length_append, List.length_append,
      List.length_replicate]
    rfl
  have hone : ∀ l : List Employee, SortedAll Employee.lt (l.take 1) := by
    intro l
    unfold SortedAll
    cases l with
    | nil => exact List.Pairwise.nil
    | cons x xs => exact List.pairwise_singleton _ _
  have hrun := @merge_k_overflow _ Employee.lt (List.replicate 2147483646 annRecord) []
    annRecord annRecord 2147483646 2147483647 hlenA rfl rfl (by decide)
  refine ⟨hlen, Nat.le_refl _, by decide, by rw [hlen]; decide, rfl, hone _, hone _, ?_⟩
  rw [mergeOverflowInput]
  exact hrun

/-- C15, amended: for every strict weak ordering, every vector and all indices
`left <= mid < right < length` with `right` below the largest `int`, such that
the runs `arr[left..mid]` and `arr[mid+1..right]` are each sorted
non-decreasing, `merge(arr, left, mid, right)` ends without a fault; it
writes exactly the positions `left`, ..., `right`, in this order, and `k`
ends at `right + 1`; the result has the length of `arr`, its range
`left..right` is sorted non-decreasing and a permutation of the previous
contents of the range, and every element outside the range is unchanged. -/
theorem merge_step {α : Type} (lt : α → α → Bool) (hs : StrictWeak lt) (arr : List α)
    (left mid right : Nat) (h1 : left ≤ mid) (h2 : mid < right) (h3 : right < arr.length)
    (hfit : right < INT_MAX)
    (hL : SortedAll lt ((arr.drop left).take (mid + 1 - left)))
    (hR : SortedAll lt ((arr.drop (mid + 1)).take (right - mid))) :
    ∃ a, merge lt arr left mid right = .ok a ∧
      mergeW lt arr left mid right [] =
        .ok (a, right + 1, List.range' left (right + 1 - left)) ∧
      a.length = arr.length ∧
      SortedAll lt ((a.drop left).take (right + 1 - left)) ∧
      ((a.drop left).take (right + 1 - left)).Perm ((arr.drop left).take (right + 1 - left)) ∧
      ∀ p, p < left ∨ right < p → a[p]? = arr[p]? :=
  merge_step_spec hs arr left mid right h1 h2 h3 hfit hL hR

/-- Witness of C15: the runs Bob and Ann of the three sample records. -/
theorem merge_step_witness :
    StrictWeak Employee.lt ∧ (0 : Nat) ≤ 0 ∧ (0 : Nat) < 1 ∧ 1 < sampleRows.length ∧
    1 < INT_MAX ∧
    SortedAll Employee.lt ((sampleRows.drop 0).take (0 + 1 - 0)) ∧
    SortedAll Employee.lt ((sampleRows.drop (0 + 1)).take (1 - 0)) ∧
    ∃ a, merge Employee.lt sampleRows (0 : Nat) (0 : Nat) (1 : Nat) = .ok a ∧
      mergeW Employee.lt sampleRows (0 : Nat) (0 : Nat) (1 : Nat) [] =
        .ok (a, 1 + 1, List.range' 0 (1 + 1 - 0)) ∧
      a.length = sampleRows.length ∧
      SortedAll Employee.lt ((a.drop 0).take (1 + 1 - 0)) ∧
      ((a.drop 0).take (1 + 1 - 0)).Perm ((sampleRows.drop 0).take (1 + 1 - 0)) ∧
      ∀ p, p < 0 ∨ 1 < p → a[p]? = sampleRows[p]? :=
  have hL : SortedAll Employee.lt ((sampleRows.drop 0).take (0 + 1 - 0)) := by
    unfold SortedAll sampleRows
    decide
  have hR : SortedAll Employee.lt ((sampleRows.drop (0 + 1)).take (1 - 0)) := by
    unfold SortedAll sampleRows
    decide
  ⟨Employee.strictWeak, by decide, by decide, by decide, by decide, hL, hR,
    merge_step Employee.lt Employee.strictWeak sampleRows 0 0 1 (by decide) (by decide)
      (by decide) (by decide) hL hR⟩

/-! ## Vectors of length zero and one -/

section Boundary

variable {α : Type}

/-- The last index `arr.size() - 1` the driver passes to `mergeSort`, for a
vector of at most one element. -/
theorem driver_last_index (arr : List α) (hlen : arr.length ≤ 1) :
    toInt32 (subSize arr.length 1) ≤ 0 ∧ (arr = [] → toInt32 (subSize arr.length 1) = -1) := by
  have h0 : toInt32 (subSize 0 1) = -1 := by decide
  have h1 : toInt32 (subSize 1 1) = 0 := by decide
  match arr, hlen with
  | [], _ =>
    refine ⟨?_, fun _ => h0⟩
    show toInt32 (subSize 0 1) ≤ 0
    rw [h0]
    decide
  | [x], _ =>
    refine ⟨?_, fun h => List.noConfusion h⟩
    show toInt32 (subSize 1 1) ≤ 0
    rw [h1]

theorem heapSort_short (lt : α → α → Bool) (arr : List α) (hlen : arr.length ≤ 1) :
    heapSortC lt arr = .ok (arr, 0) ∧ heapSort lt arr = .ok arr := by
  have hfit : arr.length ≤ INT_MAX := Nat.le_trans hlen (by decide)
  have hn : toInt32 arr.length = arr.length := toInt32_of_le hfit
  have hdiv : (arr.length : Int).tdiv 2 = (arr.length : Int) / 2 :=
    Int.tdiv_eq_ediv (by omega) (by omega)
  have hstart : ¬ (0 : Int) ≤ (arr.length : Int) / 2 - 1 := by omega
  have hmin : ¬ ((arr.length : Int) - 1 < INT_MIN) := by
    unfold INT_MIN
    omega
  have hlast : ¬ (0 : Int) < (arr.length : Int) - 1 := by omega
  have hb : buildLoop lt arr.length arr ((arr.length : Int) / 2 - 1) = .ok arr := by
    rw [buildLoop, if_neg hstart]
  have hbC : buildLoopC lt arr.length arr ((arr.length : Int) / 2 - 1) 0 = .ok (arr, 0) := by
    rw [buildLoopC, if_neg hstart]
  have hsl : sortLoop lt arr ((arr.length : Int) - 1) = .ok arr := by
    rw [sortLoop, if_neg hlast]
  have hslC : sortLoopC lt arr ((arr.length : Int) - 1) 0 = .ok (arr, 0) := by
    rw [sortLoopC, if_neg hlast]
  constructor
  · unfold heapSortC
    simp only [hn, Int.toNat_ofNat, hdiv, hbC]
    show (if (arr.length : Int) - 1 < INT_MIN then _ else _) = _
    rw [if_neg hmin]
    exact hslC
  · unfold heapSort
    simp only [hn, Int.toNat_ofNat, hdiv, hb]
    show (if (arr.length : Int) - 1 < INT_MIN then _ else _) = _
    rw [if_neg hmin]
    exact hsl

theorem mergeSort_short (lt : α → α → Bool) (arr : List α) (right : Int) (h : right ≤ 0) :
    mergeSortW lt arr 0 right [] = .ok (arr, []) ∧ mergeSort lt arr 0 right = .ok arr := by
  have hge : (0 : Int) ≥ right := h
  constructor
  · rw [mergeSortW, if_pos hge]
  · rw [mergeSort, if_pos hge]

end Boundary

/-! ## Claim about vectors of length zero and one -/

/-- C12: boundary for heap sort and merge sort. For every vector of length 0
or 1, the instrumented `heapSort` ends without a fault, with the vector
unchanged and zero swaps (the only way `heapSort` writes), and the
instrumented call `mergeSort(arr, 0, arr.size() - 1)` of the driver ends
without a fault, with the vector unchanged and an empty log of written
positions; the plain functions return the unchanged vector as well. The last
index is computed in `size_t` and narrowed to `int`, which gives `-1` for the
empty vector. -/
theorem heap_merge_boundary {α : Type} (lt : α → α → Bool) (arr : List α)
    (hlen : arr.length ≤ 1) :
    heapSortC lt arr = .ok (arr, 0) ∧ heapSort lt arr = .ok arr ∧
    mergeSortW lt arr 0 (toInt32 (subSize arr.length 1)) [] = .ok (arr, []) ∧
    mergeSort lt arr 0 (toInt32 (subSize arr.length 1)) = .ok arr ∧
    (arr = [] → toInt32 (subSize arr.length 1) = -1) :=
  ⟨(heapSort_short lt arr hlen).1, (heapSort_short lt arr hlen).2,
    (mergeSort_short lt arr _ (driver_last_index arr hlen).1).1,
    (mergeSort_short lt arr _ (driver_last_index arr hlen).1).2,
    (driver_last_index arr hlen).2⟩

/-- Witness of C12 on the empty vector of records. -/
theorem heap_merge_boundary_witness :
    ([] : List Employee).length ≤ 1 ∧
    heapSortC Employee.lt [] = .ok ([], 0) ∧ heapSort Employee.lt [] = .ok [] ∧
    mergeSortW Employee.lt [] 0 (toInt32 (subSize ([] : List Employee).length 1)) [] =
      .ok ([], []) ∧
    mergeSort Employee.lt [] 0 (toInt32 (subSize ([] : List Employee).length 1)) = .ok [] ∧
    (([] : List Employee) = [] → toInt32 (subSize ([] : List Employee).length 1) = -1) :=
  ⟨by decide, heap_merge_boundary Employee.lt [] (by decide)⟩

/-! ## Depth of the recursion of merge sort -/

section Depth

variable {α : Type}

/-- The midpoint computed by `mergeSort` for `0 <= left < right`. -/
theorem midpoint_bounds (left right : Int) (h0 : 0 ≤ left) (hlt : left < right)
    (hr : right ≤ INT_MAX) :
    0 ≤ right - left ∧ right - left ≤ INT_MAX ∧
    (right - left).tdiv 2 = (right - left) / 2 ∧
    left ≤ left + (right - left).tdiv 2 ∧ left + (right - left).tdiv 2 < right ∧
    left + (right - left).tdiv 2 + 1 ≤ INT_MAX := by
  have hd : (right - left).tdiv 2 = (right - left) / 2 :=
    Int.tdiv_eq_ediv (by omega) (by omega)
  rw [hd]
  omega

/-- Erasing the depth gives the plain function. -/
theorem mergeSortD_fst (lt : α → α → Bool) :
    ∀ (n : Nat) (arr : List α) (left right : Int), (right - left).toNat = n →
      (mergeSortD lt arr left right).1 = mergeSort lt arr left right := by
  intro n
  induction n using Nat.strong_induction_on with
  | _ n ih =>
    intro arr left right hn
    rw [mergeSortD, mergeSort]
    by_cases hge : left ≥ right
    · rw [if_pos hge, if_pos hge]
    · rw [if_neg hge, if_neg hge]
      by_cases hov : (INT_MAX : Int) < right - left
      · rw [if_pos hov, if_pos hov]
      · rw [if_neg hov, if_neg hov]
        have hd : (right - left).tdiv 2 = (right - left) / 2 :=
          Int.tdiv_eq_ediv (by omega) (by omega)
        have ih1 := fun a => ih _ (by omega : (left + (right - left) / 2 - left).toNat < n) a
          left (left + (right - left) / 2) rfl
        have ih2 := fun a => ih _
          (by omega : (right - (left + (right - left) / 2 + 1)).toNat < n) a
          (left + (right - left) / 2 + 1) right rfl
        simp only [hd]
        rw [← ih1 arr]
        cases h1 : mergeSortD lt arr left (left + (right - left) / 2) with
        | mk r1 d1 =>
          cases r1 with
          | error e => rfl
          | ok a1 =>
            dsimp only
            rw [← ih2 a1]
            cases h2 : mergeSortD lt a1 (left + (right - left) / 2 + 1) right with
            | mk r2 d2 =>
              cases r2 with
              | error e => rfl
              | ok a2 => rfl

/-- The nesting depth on a range of `n` elements is `Nat.clog 2 n`, the
least `d` with `n <= 2 ^ d`. -/
theorem mergeSortD_snd (lt : α → α → Bool) :
    ∀ (n : Nat) (arr : List α) (left right : Int), (right - left + 1).toNat = n →
      0 ≤ left → left ≤ right → right ≤ INT_MAX →
      (mergeSortD lt arr left right).2 = Nat.clog 2 n := by
  intro n
  induction n using Nat.strong_induction_on with
  | _ n ih =>
    intro arr left right hn h0 hlr hr
    rw [mergeSortD]
    by_cases hge : left ≥ right
    · rw [if_pos hge]
      have h1 : n = 1 := by omega
      rw [h1, Nat.clog_one_right]
    · have hlt : left < right := by omega
      obtain ⟨_, hfit, hd, hm1, hm2, _⟩ := midpoint_bounds left right h0 hlt hr
      rw [if_neg hge, if_neg (by omega)]
      have hn2 : 2 ≤ n := by omega
      have hsize1 : (left + (right - left) / 2 - left + 1).toNat = (n + 2 - 1) / 2 := by omega
      have hsize2 : (right - (left + (right - left) / 2 + 1) + 1).toNat ≤ (n + 2 - 1) / 2 := by
        omega
      have ih1 := fun a => ih _ (by omega : (left + (right - left) / 2 - left + 1).toNat < n) a
        left (left + (right - left) / 2) rfl h0 (by omega) (by omega)
      have ih2 := fun a => ih _
        (by omega : (right - (left + (right - left) / 2 + 1) + 1).toNat < n) a
        (left + (right - left) / 2 + 1) right rfl (by omega) (by omega) hr
      have hclog : Nat.clog 2 n = Nat.clog 2 ((n + 2 - 1) / 2) + 1 :=
        Nat.clog_of_two_le (Nat.le_refl 2) hn2
      have hmono : Nat.clog 2 (right - (left + (right - left) / 2 + 1) + 1).toNat ≤
          Nat.clog 2 ((n + 2 - 1) / 2) := Nat.clog_mono_right 2 hsize2
      simp only [hd]
      have e1 := ih1 arr
      rw [hsize1] at e1
      cases h1 : mergeSortD lt arr left (left + (right - left) / 2) with
      | mk r1 d1 =>
        rw [h1] at e1
        have e1' : d1 = Nat.clog 2 ((n + 2 - 1) / 2) := e1
        cases r1 with
        | error e =>
          show d1 + 1 = _
          rw [hclog, e1']
        | ok a1 =>
          dsimp only
          have e2 := ih2 a1
          cases h2 : mergeSortD lt a1 (left + (right - left) / 2 + 1) right with
          | mk r2 d2 =>
            rw [h2] at e2
            have e2' : d2 = Nat.clog 2 (right - (left + (right - left) / 2 + 1) + 1).toNat := e2
            have hmax : max d1 d2 = d1 := by
              rw [e1', e2']
              exact Nat.max_eq_left hmono
            cases r2 with
            | error e =>
              show max d1 d2 + 1 = _
              rw [hmax, hclog, e1']
            | ok a2 =>
              show max d1 d2 + 1 = _
              rw [hmax, hclog, e1']

end Depth

/-! ## Claim about the recursion of merge sort -/

/-- C16: the recursion of merge sort is well-founded and logarithmically
deep. For all `int`s `0 <= left < right`, neither `right - left` nor the
midpoint `mid = left + (right - left) / 2` nor `mid + 1` leaves the range of
`int`, and `left <= mid < right`, so the two recursive calls are on the
non-empty ranges `left..mid` and `mid+1..right`, both strictly shorter; a
call with `left >= right` returns at once with the vector unchanged and no
recursive call; and for every vector and every range `left..right` of
`n >= 1` elements the greatest nesting depth of recursive calls below the
call is `Nat.clog 2 n`, the ceiling of the binary logarithm of `n`, the
depth-counting function doing to the vector what `mergeSort` does. -/
theorem mergeSort_recursion_depth {α : Type} (lt : α → α → Bool) (arr : List α)
    (left right : Int) (h0 : 0 ≤ left) (hr : right ≤ INT_MAX) :
    (left < right →
      0 ≤ right - left ∧ right - left ≤ INT_MAX ∧
      left ≤ left + (right - left).tdiv 2 ∧ left + (right - left).tdiv 2 < right ∧
      left + (right - left).tdiv 2 + 1 ≤ INT_MAX ∧
      1 ≤ left + (right - left).tdiv 2 - left + 1 ∧
      left + (right - left).tdiv 2 - left + 1 < right - left + 1 ∧
      1 ≤ right - (left + (right - left).tdiv 2 + 1) + 1 ∧
      right - (left + (right - left).tdiv 2 + 1) + 1 < right - left + 1) ∧
    (left ≥ right →
      mergeSort lt arr left right = .ok arr ∧ mergeSortD lt arr left right = (.ok arr, 0)) ∧
    (mergeSortD lt arr left right).1 = mergeSort lt arr left right ∧
    (left ≤ right →
      (mergeSortD lt arr left right).2 = Nat.clog 2 (right - left + 1).toNat ∧
      (right - left + 1).toNat ≤ 2 ^ Nat.clog 2 (right - left + 1).toNat ∧
      ∀ d, (right - left + 1).toNat ≤ 2 ^ d → Nat.clog 2 (right - left + 1).toNat ≤ d) := by
  refine ⟨?_, ?_, mergeSortD_fst lt _ arr left right rfl, ?_⟩
  · intro hlt
    obtain ⟨h1, h2, hd, h3, h4, h5⟩ := midpoint_bounds left right h0 hlt hr
    refine ⟨h1, h2, h3, h4, h5, ?_⟩
    rw [hd]
    omega
  · intro hge
    constructor
    · rw [mergeSort, if_pos hge]
    · rw [mergeSortD, if_pos hge]
  · intro hle
    refine ⟨mergeSortD_snd lt _ arr left right rfl h0 hle hr, Nat.le_pow_clog (by decide) _, ?_⟩
    intro d hd
    exact (Nat.le_pow_iff_clog_le (by decide)).1 hd

/-- Witness of C16 on the range `0..2` of the three sample records: the
nesting depth is two. -/
theorem mergeSort_recursion_depth_witness :
    (0 : Int) ≤ 0 ∧ (2 : Int) ≤ INT_MAX ∧
    (mergeSortD Employee.lt sampleRows 0 2).1 = mergeSort Employee.lt sampleRows 0 2 ∧
    (mergeSortD Employee.lt sampleRows 0 2).2 = 2 :=
  have h := mergeSort_recursion_depth Employee.lt sampleRows 0 2 (by decide) (by decide)
  have hc : Nat.clog 2 (2 - 0 + 1 : Int).toNat = 2 := by
    show Nat.clog 2 3 = 2
    rw [Nat.clog_of_two_le (by decide) (by decide)]
    show Nat.clog 2 2 + 1 = 2
    rw [Nat.clog_of_two_le (by decide) (by decide)]
    show Nat.clog 2 1 + 1 + 1 = 2
    rw [Nat.clog_one_right]
  ⟨by decide, by decide, h.2.2.1, (h.2.2.2 (by decide)).1.trans hc⟩

/-! ## Heap construction -/

section HeapBuild

variable {α : Type} {lt : α → α → Bool}

theorem InSubtree.le {i j : Nat} (h : InSubtree i j) : i ≤ j := by
  induction h with
  | root => exact Nat.le_refl _
  | left _ ih => omega
  | right _ ih => omega

theorem InSubtree.of_root {i j : Nat} (h : InSubtree i j) :
    j = i ∨ InSubtree (2 * i + 1) j ∨ InSubtree (2 * i + 2) j := by
  induction h with
  | root => exact Or.inl rfl
  | left _ ih =>
    rcases ih with h | h | h
    · rw [h]
      exact Or.inr (Or.inl InSubtree.root)
    · exact Or.inr (Or.inl h.left)
    · exact Or.inr (Or.inr h.left)
  | right _ ih =>
    rcases ih with h | h | h
    · rw [h]
      exact Or.inr (Or.inr InSubtree.root)
    · exact Or.inr (Or.inl h.right)
    · exact Or.inr (Or.inr h.right)

/-- Function `heapify(arr, n, i)` makes the subtree rooted at `i` a max-heap
when both child subtrees of `i` are max-heaps. -/
theorem heapify_subtree (hs : StrictWeak lt) (b : List α) (n i : Nat) (hin : i < n)
    (hlen : n ≤ b.length) (hn : 2 * n ≤ INT_MAX)
    (hsub : ∀ j, InSubtree (2 * i + 1) j ∨ InSubtree (2 * i + 2) j → HeapAt lt b n j) :
    ∃ a, heapify lt b n i = .ok a ∧ a.Perm b ∧ ∀ j, InSubtree i j → HeapAt lt a n j := by
  obtain ⟨a, hrun, hperm, _, _, hheap⟩ :=
    heapify_spec_on hs n (InSubtree i) (fun j hj => ⟨hj.left, hj.right⟩) hn _ b i rfl hin hlen
      InSubtree.root
      (fun j hj hji => by
        rcases hj.of_root with h | h | h
        · exact absurd h hji
        · exact hsub j (Or.inl h)
        · exact hsub j (Or.inr h))
      (fun p hp hpar => by
        have := hp.le
        omega)
  exact ⟨a, hrun, hperm, hheap⟩

/-- The first loop of `heapSort` on a vector whose doubled length fits in `int`. -/
theorem buildLoop_heap (hs : StrictWeak lt) (arr : List α) (hsz : 2 * arr.length ≤ INT_MAX) :
    ∃ a, buildLoop lt (toInt32 arr.length).toNat arr ((toInt32 arr.length).tdiv 2 - 1) = .ok a ∧
      a.Perm arr ∧ ∀ j, HeapAt lt a arr.length j := by
  have hn : toInt32 arr.length = arr.length := toInt32_of_le (by omega)
  have hdiv : (arr.length : Int).tdiv 2 = (arr.length : Int) / 2 :=
    Int.tdiv_eq_ediv (by omega) (by omega)
  obtain ⟨a, hrun, hperm, _, _, hheap⟩ :=
    buildLoop_spec hs arr.length hsz _ arr ((arr.length : Int) / 2 - 1) rfl (by omega)
      (Nat.le_refl _) (fun j hj c x y hc hcn _ _ => by omega)
  refine ⟨a, ?_, hperm, hheap⟩
  rw [hn, Int.toNat_ofNat, hdiv]
  exact hrun

/-- A vector of `2 * p + 2` elements whose last element is greater than its
parent at index `p`: the first `heapify` call of the first loop swaps the two
and re-enters at index `2 * p + 1`, where the child index
`2 * (2 * p + 1) + 2` is computed. -/
theorem buildLoop_child_index_overflow (p : Nat) (arr : List α) (a b : α)
    (hlen : arr.length = 2 * p + 2) (ha : arr[p]? = some a) (hb : arr[2 * p + 1]? = some b)
    (hab : lt a b = true) (hfit : 2 * p + 2 ≤ INT_MAX) (hov : INT_MAX < 2 * (2 * p + 1) + 2) :
    (toInt32 arr.length).tdiv 2 - 1 = (p : Int) ∧
    buildLoop lt (toInt32 arr.length).toNat arr ((toInt32 arr.length).tdiv 2 - 1) =
      .error .intOverflow := by
  have hn : toInt32 ((2 * p + 2 : Nat) : Int) = ((2 * p + 2 : Nat) : Int) := toInt32_of_le hfit
  have hdiv : (((2 * p + 2 : Nat) : Int)).tdiv 2 - 1 = (p : Int) := by
    rw [Int.tdiv_eq_ediv (by omega) (by omega)]
    omega
  have hp1 : pickLarger lt arr (2 * p + 2) (2 * p + 1) p = .ok (2 * p + 1) := by
    rw [pickLarger_of_lt (by omega) hb ha, hab, if_pos rfl]
  have hp2 : pickLarger lt arr (2 * p + 2) (2 * p + 2) (2 * p + 1) = .ok (2 * p + 1) :=
    pickLarger_of_ge (Nat.lt_irrefl _)
  have hheap : heapify lt arr (2 * p + 2) p = .error .intOverflow := by
    rw [heapify_of_pick (by omega) hp1 hp2, if_pos (by omega), swapAt_eq ha hb]
    show heapify lt _ (2 * p + 2) (2 * p + 1) = _
    rw [heapify, if_pos hov]
  rw [hlen, hn, hdiv, Int.toNat_ofNat]
  refine ⟨rfl, ?_⟩
  rw [buildLoop, if_pos (Int.ofNat_nonneg p), Int.toNat_ofNat, hheap]

end HeapBuild

/-! ## Claims about heap construction -/

/-- C14, refuted as stated: on a sequence of `2 ^ 30 + 2` records, whose
length fits in `int`, the first loop of `heapSort` starts at index `2 ^ 29`
and does not leave a max-heap: its first `heapify` call moves to index
`2 ^ 30 + 1`, whose child index is outside the range of `int`. -/
theorem heap_construction_int_overflow :
    heapOverflowInput.length = 1073741826 ∧ heapOverflowInput.length ≤ INT_MAX ∧
    (toInt32 heapOverflowInput.length).tdiv 2 - 1 = ((536870912 : Nat) : Int) ∧
    buildLoop Employee.lt (toInt32 heapOverflowInput.length).toNat heapOverflowInput
      ((toInt32 heapOverflowInput.length).tdiv 2 - 1) = .error .intOverflow := by
  have hlen : heapOverflowInput.length = 1073741826 := by
    rw [heapOverflowInput, List.length_append, List.length_replicate]
    rfl
  have herr := @buildLoop_child_index_overflow _ Employee.lt 536870912 heapOverflowInput
    ⟨"Ann", "Sales", "Clerk", "2019-03-01"⟩ ⟨"Bob", "Sales", "Clerk", "2020-01-05"⟩ hlen
    (by
      rw [heapOverflowInput, List.getElem?_append_left (by rw [List.length_replicate]; decide),
        List.getElem?_replicate, if_pos (by decide)])
    (by
      rw [heapOverflowInput, List.getElem?_append_right (by rw [List.length_replicate]),
        List.length_replicate, Nat.sub_self]
      rfl)
    (by decide) (by decide) (by decide)
  refine ⟨hlen, ?_, herr.1, herr.2⟩
  rw [hlen]
  decide

/-- C14, amended: for every strict weak ordering and every sequence whose
doubled length fits in a signed 32-bit `int`, the first loop of `heapSort`
(`heapify(arr, n, i)` for `i = n / 2 - 1` down to 0) ends without a fault and
leaves a permutation of the input that is a max-heap over the full sequence:
for every index `i` and each child `c` in `2 * i + 1`, `2 * i + 2` with
`c < n`, not `arr[i] < arr[c]`. And for every vector, `heapify(arr, n, i)`
with `i < n`, `n` at most the length and `2 * n` in the range of `int`, makes
the subtree rooted at `i` a max-heap whenever both child subtrees of `i`
are, leaving a permutation. -/
theorem heap_construction {α : Type} (lt : α → α → Bool) (hs : StrictWeak lt) (arr : List α)
    (hsz : 2 * arr.length ≤ INT_MAX) :
    (∃ a, buildLoop lt (toInt32 arr.length).toNat arr ((toInt32 arr.length).tdiv 2 - 1) =
        .ok a ∧ a.Perm arr ∧
      ∀ i c x y, (c = 2 * i + 1 ∨ c = 2 * i + 2) → c < arr.length → a[i]? = some x →
        a[c]? = some y → lt x y = false) ∧
    (∀ (b : List α) (n i : Nat), i < n → n ≤ b.length → 2 * n ≤ INT_MAX →
      (∀ j, InSubtree (2 * i + 1) j ∨ InSubtree (2 * i + 2) j → HeapAt lt b n j) →
      ∃ a, heapify lt b n i = .ok a ∧ a.Perm b ∧ ∀ j, InSubtree i j → HeapAt lt a n j) := by
  constructor
  · obtain ⟨a, hrun, hperm, hheap⟩ := buildLoop_heap hs arr hsz
    exact ⟨a, hrun, hperm, fun i c x y hc hcn hx hy => hheap i c x y hc hcn hx hy⟩
  · intro b n i hin hlen hn hsub
    exact heapify_subtree hs b n i hin hlen hn hsub

/-- Witness of C14 on the three sample records. -/
theorem heap_construction_witness :
    StrictWeak Employee.lt ∧ 2 * sampleRows.length ≤ INT_MAX ∧
    ∃ a, buildLoop Employee.lt (toInt32 sampleRows.length).toNat sampleRows
        ((toInt32 sampleRows.length).tdiv 2 - 1) = .ok a ∧ a.Perm sampleRows ∧
      ∀ i c x y, (c = 2 * i + 1 ∨ c = 2 * i + 2) → c < sampleRows.length → a[i]? = some x →
        a[c]? = some y → Employee.lt x y = false :=
  ⟨Employee.strictWeak, by decide,
    (heap_construction Employee.lt Employee.strictWeak sampleRows (by decide)).1⟩

/-! ## Claims about the agreement of the three algorithms -/

end EmployeeSort
